import Mathlib

/-!
# Execution trace of the pib driver (`driver/pib_debugfs.c`)

A shallow embedding of the trace ring buffer of `pib_debugfs.c`: the record
type `struct pib_trace_entry`, the producer `append_new_trace`, the reader
`trace_open` and the `seq_file` callbacks `trace_seq_start`, `trace_seq_next`
and `trace_seq_show`, followed by theorems about them.

Conventions of the embedding.

* `PIB_TRACE_MAX_ENTRIES` (declared in `pib.h`) and the kernel constant `HZ`
  are not part of the sources at hand; they are the parameters `N` and `HZ`.
* C integers are `Int`/`Nat` values; every arithmetic operation of the source
  is followed by the wrap-around of its C type (`wrap_int` for `int`,
  `wrap_u32` for `u32`, `wrap_long` for `long`, `wrap_u64` for
  `unsigned long`, `u64` and `cycles_t`, all 64 bits wide as on x86-64).
* The ring `dev->debugfs.trace_data` is a function from slot numbers to
  records; `none` is the NULL pointer.
* The code runs sequentially: one call of `append_new_trace` is one state
  transition. The clock values a call reads (`jiffies`, `getnstimeofday`,
  `get_cycles`) are its `trace_clock` argument.
-/

namespace Pib

/-! ## Constants and machine integers -/

def PIB_BOOKMARK_MESSAGE : Nat := 16

def PIB_TSC_RATIO_BIAS : Nat := 65536

def ENOENT : Int := 2

def ENOMEM : Int := 12

def EFAULT : Int := 14

def EINVAL : Int := 22

def ENOSYS : Int := 38

/-- Value of a C `int` after 32-bit two's-complement wrap-around. -/
def wrap_int (x : Int) : Int := (x + 2147483648) % 4294967296 - 2147483648

/-- Value of a C `long` after 64-bit two's-complement wrap-around. -/
def wrap_long (x : Int) : Int :=
  (x + 9223372036854775808) % 18446744073709551616 - 9223372036854775808

/-- Value of a C `u32` after wrap-around. -/
def wrap_u32 (x : Int) : Nat := (x % 4294967296).toNat

/-- Value of a C `u64` (`unsigned long`, `cycles_t`) after wrap-around. -/
def wrap_u64 (x : Int) : Nat := (x % 18446744073709551616).toNat

/-! ## Data model -/

/-- The C `enum pib_trace_act`. -/
inductive pib_trace_act where
  | PIB_TRACE_ACT_NONE
  | PIB_TRACE_ACT_API
  | PIB_TRACE_ACT_SEND
  | PIB_TRACE_ACT_RECV1
  | PIB_TRACE_ACT_RECV2
  | PIB_TRACE_ACT_RETRY
  | PIB_TRACE_ACT_COMP
  | PIB_TRACE_ACT_ASYNC
  | PIB_TRACE_ACT_TIMEDATE
  | PIB_TRACE_ACT_BOOKMARK
deriving DecidableEq, Repr

open pib_trace_act

/-- Integer value of an enumerator of `enum pib_trace_act`. -/
def pib_trace_act.val : pib_trace_act → Nat
  | PIB_TRACE_ACT_NONE => 0
  | PIB_TRACE_ACT_API => 1
  | PIB_TRACE_ACT_SEND => 2
  | PIB_TRACE_ACT_RECV1 => 3
  | PIB_TRACE_ACT_RECV2 => 4
  | PIB_TRACE_ACT_RETRY => 5
  | PIB_TRACE_ACT_COMP => 6
  | PIB_TRACE_ACT_ASYNC => 7
  | PIB_TRACE_ACT_TIMEDATE => 8
  | PIB_TRACE_ACT_BOOKMARK => 9

/-- The C `struct timespec`: two `long`s. -/
structure timespec where
  tv_sec : Int
  tv_nsec : Int
deriving DecidableEq, Repr

/-- The C `struct pib_trace_entry`. The field `repeat` of the source is
`repeat_` here. The union `u` is kept as its bytes, which is what `memcmp`
and `copy_from_user` see. -/
structure pib_trace_entry where
  repeat_ : Nat
  act : Nat
  op : Nat
  port : Nat
  u : List Nat
  timestamp : Nat
deriving DecidableEq, Repr

/-- A record of a buffer filled by `vzalloc`, or cleared by `memset`. -/
def zero_entry : pib_trace_entry :=
  { repeat_ := 0, act := 0, op := 0, port := 0, u := List.replicate 24 0, timestamp := 0 }

/-- The `k` little-endian bytes of `x`. -/
def le_bytes : Nat → Nat → List Nat
  | 0, _ => []
  | k + 1, x => x % 256 :: le_bytes k (x / 256)

/-- The number a list of little-endian bytes stands for. -/
def le_value : List Nat → Nat
  | [] => 0
  | b :: bs => b + 256 * le_value bs

/-- The bytes of a `struct timespec` in memory (x86-64: two 8-byte `long`s). -/
def timespec_bytes (t : timespec) : List Nat :=
  le_bytes 8 (wrap_u64 t.tv_sec) ++ le_bytes 8 (wrap_u64 t.tv_nsec)

/-- The member `u.timedate.time` of the union: its first 16 bytes read as a
`struct timespec`. -/
def timedate_time (u : List Nat) : timespec :=
  { tv_sec := wrap_long (le_value (u.take 8)),
    tv_nsec := wrap_long (le_value ((u.drop 8).take 8)) }

/-- The trace part of `struct pib_dev` (`dev->debugfs`). -/
structure pib_dev where
  trace_data : Option (Nat → pib_trace_entry)
  trace_index : Int
  last_record_time : Nat
  last_record_time_index : Int

/-- The clock values one call of `append_new_trace` reads, in the order of
the reads: `jiffies` in the gate, then, on the time-record path,
`getnstimeofday`, `get_cycles` and `jiffies` again, and at last `get_cycles`
for the record itself. -/
structure trace_clock where
  jiffies : Nat
  nstime : timespec
  cycles_time : Nat
  jiffies_mark : Nat
  cycles : Nat
deriving DecidableEq, Repr

/-- The C `struct pib_trace_info`, the reader's cursor. Its pointers `dev` and
`entry` alias the device's ring, which the callbacks take as an argument. -/
structure pib_trace_info where
  start : Nat
  index : Nat
  base_timespec : timespec
  base_timestamp : Nat
  tsc_ratio : Nat
deriving DecidableEq, Repr

/-! ## The producer: `append_new_trace` -/

/-- The C function `equals_trace_entries`. -/
def equals_trace_entries (act1 : pib_trace_act) (entry1 entry2 : pib_trace_entry) : Bool :=
  if act1.val ≠ entry2.act ∨ entry1.op ≠ entry2.op ∨ entry1.port ≠ entry2.port then false
  else decide (entry1.u = entry2.u)

/-- The kernel macro `time_after(a, b)`, that is `(long)(b - a) < 0`. -/
def time_after (a b : Nat) : Bool :=
  decide (wrap_long (wrap_u64 ((b : Int) - (a : Int))) < 0)

/-- The slot expression `(index - 1 + PIB_TRACE_MAX_ENTRIES) % PIB_TRACE_MAX_ENTRIES`
in `int` arithmetic (`%` truncates toward zero). -/
def slot_expr (N : Nat) (index : Int) : Int :=
  Int.tmod (wrap_int (wrap_int (index - 1) + (N : Int))) (N : Int)

/-- The condition under which `append_new_trace` enters the time-record block. -/
def time_record_due (N HZ : Nat) (dev : pib_dev) (clk : trace_clock) : Bool :=
  decide (wrap_int (dev.trace_index - dev.last_record_time_index) > ((N / 16 : Nat) : Int))
    || time_after clk.jiffies (wrap_u64 ((dev.last_record_time : Int) + (HZ : Int)))

/-- The time-record block of `append_new_trace`, entered with the values
`index` and `last_record_time` sampled before the lock was taken. -/
def insert_time_record (N : Nat) (dev : pib_dev) (base : Nat → pib_trace_entry)
    (clk : trace_clock) (index : Int) (last_record_time : Nat) : pib_dev :=
  if index ≠ dev.trace_index ∨ dev.last_record_time ≠ last_record_time then dev
  else
    let index1 := wrap_int (dev.trace_index + 1)
    let store := (slot_expr N index1).toNat
    let old := base store
    let rec_ : pib_trace_entry :=
      { old with
        u := timespec_bytes clk.nstime ++ old.u.drop 16,
        timestamp := clk.cycles_time,
        repeat_ := 0,
        act := PIB_TRACE_ACT_TIMEDATE.val }
    { trace_data := some (Function.update base store rec_),
      trace_index := index1,
      last_record_time := clk.jiffies_mark,
      last_record_time_index := wrap_int (index1 - 1) }

/-- The tail of `append_new_trace`: claim a slot and publish the record. -/
def publish_record (N : Nat) (dev : pib_dev) (clk : trace_clock) (act : pib_trace_act)
    (entry : pib_trace_entry) : pib_dev :=
  match dev.trace_data with
  | none => dev
  | some base =>
    let index := wrap_int (dev.trace_index + 1)
    let store := (slot_expr N index).toNat
    let rec_ : pib_trace_entry := { entry with timestamp := clk.cycles, act := act.val }
    { dev with trace_data := some (Function.update base store rec_), trace_index := index }

/-- The C function `append_new_trace`. -/
def append_new_trace (N HZ : Nat) (dev : pib_dev) (clk : trace_clock) (act : pib_trace_act)
    (entry : pib_trace_entry) : pib_dev :=
  match dev.trace_data with
  | none => dev
  | some base =>
    let index := dev.trace_index
    let prev := (slot_expr N index).toNat
    if equals_trace_entries act entry (base prev) then
      if (base prev).repeat_ < 255 then
        { dev with
          trace_data :=
            some (Function.update base prev { base prev with repeat_ := (base prev).repeat_ + 1 }) }
      else dev
    else
      let last_record_time := dev.last_record_time
      let dev1 :=
        if time_record_due N HZ dev clk then
          insert_time_record N dev base clk index last_record_time
        else dev
      publish_record N dev1 clk act entry

/-- The device as `register_dev` leaves it: a zeroed ring and
`last_record_time_index = -PIB_TRACE_MAX_ENTRIES`. -/
def register_dev (N : Nat) : pib_dev :=
  { trace_data := some (fun _ => zero_entry),
    trace_index := 0,
    last_record_time := 0,
    last_record_time_index := wrap_int (-(N : Int)) }

/-- One call of a producer: the clock, the kind and the record it passes. -/
structure trace_call where
  clk : trace_clock
  act : pib_trace_act
  entry : pib_trace_entry
deriving DecidableEq, Repr

/-- A sequence of calls of `append_new_trace`, one after the other. -/
def append_all (N HZ : Nat) (dev : pib_dev) (calls : List trace_call) : pib_dev :=
  calls.foldl (fun d c => append_new_trace N HZ d c.clk c.act c.entry) dev

/-! ## The reader: `trace_open` and the `seq_file` callbacks -/

/-- The slot `(info->start + info->index) % PIB_TRACE_MAX_ENTRIES` in `u32`
arithmetic. -/
def info_slot (N : Nat) (start index : Nat) : Nat :=
  wrap_u32 ((start : Int) + (index : Int)) % N

/-- The `retry:` loop of `trace_open`: `some (some i)` when the loop leaves
with `index = i` on a time record, `some none` when it returns `-ENOENT`, and
`none` when the fuel runs out. -/
def trace_open_retry (N : Nat) (base : Nat → pib_trace_entry) (start : Nat) :
    Nat → Int → Option (Option Int)
  | 0, _ => none
  | fuel + 1, index =>
    if (N : Int) ≤ index then some none
    else if (base (info_slot N start (wrap_u32 index))).act ≠ PIB_TRACE_ACT_TIMEDATE.val then
      trace_open_retry N base start fuel (wrap_int (index + 1))
    else some (some index)

/-- How `trace_open` ends. -/
inductive trace_open_result where
  | ret (code : Int)
  | opened (info : pib_trace_info)
  | divide_error
  | out_of_fuel
deriving DecidableEq, Repr

/-- The `duration_ns` of `trace_open`. -/
def duration_ns (now base : timespec) : Nat :=
  wrap_u64 ((wrap_u64 (wrap_u64 (wrap_long (now.tv_sec - base.tv_sec)) * 1000000000) : Int)
    + (wrap_u64 (wrap_long (now.tv_nsec - base.tv_nsec)) : Int))

/-- The C function `trace_open`. `kzalloc_ok` tells whether `kzalloc`
succeeds, `now_timespec` and `now_timestamp` are what `getnstimeofday` and
`get_cycles` return, and `seq_open_ret` is the return value of `seq_open`. -/
def trace_open (N : Nat) (dev : pib_dev) (kzalloc_ok : Bool) (now_timespec : timespec)
    (now_timestamp : Nat) (seq_open_ret : Int) : trace_open_result :=
  match dev.trace_data with
  | none => .ret (-ENOSYS)
  | some base =>
    if !kzalloc_ok then .ret (-ENOMEM)
    else
      let start := wrap_u32 (Int.tmod dev.trace_index (N : Int))
      match trace_open_retry N base start (N + 1) 0 with
      | none => .out_of_fuel
      | some none => .ret (-ENOENT)
      | some (some index) =>
        let entry := base (info_slot N start (wrap_u32 index))
        let base_timespec := timedate_time entry.u
        let base_timestamp := entry.timestamp
        let divisor := wrap_u64 ((now_timestamp : Int) - (base_timestamp : Int))
        if divisor = 0 then .divide_error
        else
          let tsc_ratio :=
            wrap_u64 ((PIB_TSC_RATIO_BIAS : Int) * (duration_ns now_timespec base_timespec : Int))
              / divisor
          if seq_open_ret ≠ 0 then .ret seq_open_ret
          else
            .opened
              { start := start,
                index := wrap_u32 index,
                base_timespec := base_timespec,
                base_timestamp := base_timestamp,
                tsc_ratio := tsc_ratio }

/-- The C function `trace_seq_start`: `none` is NULL. -/
def trace_seq_start (N : Nat) (info : pib_trace_info) : Option pib_trace_info :=
  if N ≤ info.index then none else some info

/-- The C function `trace_seq_next`: the cursor as the call leaves it, and
whether the call returned `iter_ptr` (`true`) or NULL (`false`). -/
def trace_seq_next (N : Nat) (base : Nat → pib_trace_entry) (info : pib_trace_info) :
    pib_trace_info × Bool :=
  let info1 := { info with index := wrap_u32 ((info.index : Int) + 1) }
  if N ≤ info1.index then (info1, false)
  else
    let entry := base (info_slot N info1.start info1.index)
    if entry.act = PIB_TRACE_ACT_NONE.val then (info1, false)
    else if entry.act = PIB_TRACE_ACT_TIMEDATE.val then
      ({ info1 with base_timespec := timedate_time entry.u, base_timestamp := entry.timestamp },
        true)
    else (info1, true)

/-- The loop `while (tv_nsec >= 1000000000)` of `trace_seq_show`. -/
def normalize_nsec (t : timespec) : timespec :=
  if 1000000000 ≤ t.tv_nsec then
    normalize_nsec { tv_sec := wrap_long (t.tv_sec + 1), tv_nsec := t.tv_nsec - 1000000000 }
  else t
termination_by t.tv_nsec.toNat
decreasing_by
  simp_wf
  omega

/-- The time `trace_seq_show` hands to `show_timespec` for a record with
cycle stamp `timestamp`. -/
def show_time (info : pib_trace_info) (timestamp : Nat) : timespec :=
  let delta :=
    wrap_u64 ((wrap_u64 ((timestamp : Int) - (info.base_timestamp : Int)) : Int)
      * (info.tsc_ratio : Int)) / PIB_TSC_RATIO_BIAS
  normalize_nsec
    { info.base_timespec with
      tv_nsec := wrap_long (info.base_timespec.tv_nsec + (delta : Int)) }

/-- One line of the trace file: the time handed to `show_timespec`, the
record whose fields are printed, and whether the `switch` on `entry->act` ran
into its `default: BUG()`. -/
structure trace_line where
  time : timespec
  entry : pib_trace_entry
  bug : Bool
deriving DecidableEq, Repr

/-- The C function `trace_seq_show` (without the text formatting). -/
def trace_seq_show (N : Nat) (base : Nat → pib_trace_entry) (info : pib_trace_info) :
    trace_line :=
  let entry := base (info_slot N info.start info.index)
  { time := show_time info entry.timestamp,
    entry := entry,
    bug := decide (entry.act < 1 ∨ 9 < entry.act) }

/-- The traversal loop of `seq_file` after `start` returned a cursor: `show`,
then `next`, until `next` returns NULL (or `show` hits `BUG()`). The result is
the lines emitted and the cursor at the end; `none` when the fuel runs out. -/
def seq_loop (N : Nat) (base : Nat → pib_trace_entry) :
    Nat → pib_trace_info → Option (List trace_line × pib_trace_info)
  | 0, _ => none
  | fuel + 1, info =>
    let line := trace_seq_show N base info
    if line.bug then some ([line], info)
    else
      match trace_seq_next N base info with
      | (info1, false) => some ([line], info1)
      | (info1, true) =>
        match seq_loop N base fuel info1 with
        | none => none
        | some (lines, info2) => some (line :: lines, info2)

/-- One traversal by `seq_file`: `start`, then the loop. -/
def seq_traverse (N : Nat) (base : Nat → pib_trace_entry) (fuel : Nat) (info : pib_trace_info) :
    Option (List trace_line × pib_trace_info) :=
  match trace_seq_start N info with
  | none => some ([], info)
  | some info1 => seq_loop N base fuel info1

/-- Snapshot playback of a device: `trace_open`, then one traversal of the
ring as it is at that moment. The result is the list of lines, `none` when the
open fails or the fuel runs out. -/
def playback (N : Nat) (dev : pib_dev) (now_timespec : timespec) (now_timestamp : Nat) :
    Option (List trace_line) :=
  match dev.trace_data, trace_open N dev true now_timespec now_timestamp 0 with
  | some base, .opened info => (seq_traverse N base (N + 1) info).map Prod.fst
  | _, _ => none

/-! ## Notions used in the statements -/

/-- The fields `equals_trace_entries` compares: kind, op, port and payload. -/
def entry_key (e : pib_trace_entry) : Nat × Nat × Nat × List Nat := (e.act, e.op, e.port, e.u)

/-- The record `append_new_trace` publishes for the call `(clk, act, entry)`:
the copy of `*entry` with the cycle stamp and the kind set. -/
def stored_record (clk : trace_clock) (act : pib_trace_act) (entry : pib_trace_entry) :
    pib_trace_entry :=
  { entry with timestamp := clk.cycles, act := act.val }

/-- The time record `append_new_trace` publishes into a slot that held `old`. -/
def time_record (clk : trace_clock) (old : pib_trace_entry) : pib_trace_entry :=
  { old with
    u := timespec_bytes clk.nstime ++ old.u.drop 16,
    timestamp := clk.cycles_time,
    repeat_ := 0,
    act := PIB_TRACE_ACT_TIMEDATE.val }

/-- The slot published last when the append counter is `i`: slot
`(i - 1) mod N`. -/
def last_slot (N i : Nat) : Nat := (i + N - 1) % N

/-- The device with the `repeat` of one slot replaced by `r`. -/
def set_repeat (dev : pib_dev) (slot r : Nat) : pib_dev :=
  match dev.trace_data with
  | none => dev
  | some base =>
    { dev with trace_data := some (Function.update base slot { base slot with repeat_ := r }) }

/-- The same call `(act, entry)` made once for every clock of the list. -/
def same_calls (clks : List trace_clock) (act : pib_trace_act) (entry : pib_trace_entry) :
    List trace_call :=
  clks.map (fun c => { clk := c, act := act, entry := entry })

/-- A sample clock: `jiffies = j`, wall time `(sec, 5)`, cycle counter `c`
for a time record and `c + 1` for the record itself. -/
def sample_clock (j : Nat) (sec : Int) (c : Nat) : trace_clock :=
  { jiffies := j, nstime := { tv_sec := sec, tv_nsec := 5 }, cycles_time := c,
    jiffies_mark := j, cycles := c + 1 }

/-- A sample record as `pib_trace_api` builds it: zeroed, then `op` set. -/
def sample_entry (op : Nat) : pib_trace_entry := { zero_entry with op := op }

/-- The number of time records a non-duplicate call inserts: 1 when the
gate `time_record_due` fires, 0 otherwise. -/
def anchors_due (N HZ : Nat) (dev : pib_dev) (clk : trace_clock) : Nat :=
  if time_record_due N HZ dev clk then 1 else 0

/-- The offset, counted forward from slot `start`, of the first slot that
holds a time record: the first of the offsets `0 .. N - 1` whose slot
`(start + offset) mod N` has kind `PIB_TRACE_ACT_TIMEDATE`. -/
def first_time_record (N : Nat) (base : Nat → pib_trace_entry) (start : Nat) : Option Nat :=
  (List.range N).find?
    (fun m => decide ((base ((start + m) % N)).act = PIB_TRACE_ACT_TIMEDATE.val))

/-- The offset, counted forward from slot `start`, of the time record appended
most recently: the first one met when the slots are scanned backward from the
tail, from offset `N - 1` down to offset `0`. -/
def newest_time_record (N : Nat) (base : Nat → pib_trace_entry) (start : Nat) : Option Nat :=
  (List.range N).reverse.find?
    (fun m => decide ((base ((start + m) % N)).act = PIB_TRACE_ACT_TIMEDATE.val))

/-- The cursor `trace_open` builds when its scan stops at offset `m`. -/
def opened_info (N : Nat) (base : Nat → pib_trace_entry) (start m : Nat) (now_timespec : timespec)
    (now_timestamp : Nat) : pib_trace_info :=
  { start := start,
    index := m,
    base_timespec := timedate_time (base ((start + m) % N)).u,
    base_timestamp := (base ((start + m) % N)).timestamp,
    tsc_ratio :=
      wrap_u64 ((PIB_TSC_RATIO_BIAS : Int)
          * (duration_ns now_timespec (timedate_time (base ((start + m) % N)).u) : Int))
        / wrap_u64 ((now_timestamp : Int) - ((base ((start + m) % N)).timestamp : Int)) }

/-- The `n`-th sample call, as `pib_trace_api` makes it: kind API, op `n`,
wall time `100 + n` seconds, cycle counter `1000 + 10 n`, no jiffy passed. -/
def sample_call (n : Nat) : trace_call :=
  { clk := sample_clock 0 (100 + n) (1000 + 10 * n), act := PIB_TRACE_ACT_API,
    entry := sample_entry n }

/-- The sample calls `0 .. n - 1`, pairwise distinct. -/
def sample_calls (n : Nat) : List trace_call := (List.range n).map sample_call

/-- A full sample ring of 3 slots: records in slots 0 and 1, a time record in
slot 2. -/
def sample_ring (k : Nat) : pib_trace_entry :=
  if k = 2 then time_record (sample_clock 0 101 1010) zero_entry
  else stored_record (sample_clock 0 100 1000) PIB_TRACE_ACT_API (sample_entry k)

/-- The ring after the records of a list have been written to consecutive
slots, the first of them to slot `i mod N`. -/
def ring_write (N : Nat) :
    (Nat → pib_trace_entry) → Nat → List pib_trace_entry → (Nat → pib_trace_entry)
  | base, _, [] => base
  | base, i, e :: es => ring_write N (Function.update base (i % N) e) (i + 1) es

/-- What a duplicate append does to the record it meets: `repeat` goes up by
one unless it is 255. -/
def bump_repeat (e : pib_trace_entry) : pib_trace_entry :=
  if e.repeat_ < 255 then { e with repeat_ := e.repeat_ + 1 } else e

/-- The log with `bump_repeat` applied to its last record. -/
def bump_last (log : List pib_trace_entry) : List pib_trace_entry :=
  match log.getLast? with
  | none => log
  | some e => log.dropLast ++ [bump_repeat e]

/-- The log of slot writes after one more call of `append_new_trace`: a
duplicate bumps the last record, any other call adds its record, preceded by a
time record when the gate fires. -/
def log_step (N HZ : Nat) (dev : pib_dev) (log : List pib_trace_entry) (c : trace_call) :
    List pib_trace_entry :=
  match dev.trace_data with
  | none => log
  | some base =>
    if equals_trace_entries c.act c.entry (base (last_slot N dev.trace_index.toNat)) then
      bump_last log
    else if time_record_due N HZ dev c.clk then
      log ++ [time_record c.clk (base (dev.trace_index.toNat % N)),
        stored_record c.clk c.act c.entry]
    else log ++ [stored_record c.clk c.act c.entry]

/-- The log of slot writes of a sequence of calls: the records in the order
in which their slots were claimed, each with its final `repeat`. -/
def trace_log (N HZ : Nat) :
    pib_dev → List pib_trace_entry → List trace_call → List pib_trace_entry
  | _, log, [] => log
  | dev, log, c :: cs =>
    trace_log N HZ (append_new_trace N HZ dev c.clk c.act c.entry) (log_step N HZ dev log c) cs

/-- The device is what sequential appends make of a fresh ring, `log` being
the log of its slot writes: the ring holds the last `N` records of the log,
the counter is the length of the log, every record has a kind API .. BOOKMARK
and a cycle stamp below `bound`, the log starts with a time record, and the
gate's bookkeeping names a time record at most `max 2 (N / 16 + 1)` slots
back. -/
structure ring_inv (N bound : Nat) (dev : pib_dev) (log : List pib_trace_entry) : Prop where
  data : dev.trace_data = some (ring_write N (fun _ => zero_entry) 0 log)
  index : dev.trace_index = (log.length : Int)
  acts : ∀ e ∈ log, 1 ≤ e.act ∧ e.act ≤ 9
  stamps : ∀ e ∈ log, e.timestamp < bound
  head : log = [] ∨ (log.getD 0 zero_entry).act = PIB_TRACE_ACT_TIMEDATE.val
  anchor : (log = [] ∧ dev.last_record_time_index = -(N : Int))
    ∨ ∃ l : Nat, dev.last_record_time_index = (l : Int) ∧ l + 2 ≤ log.length
      ∧ (log.getD l zero_entry).act = PIB_TRACE_ACT_TIMEDATE.val
      ∧ log.length ≤ l + max 2 (N / 16 + 1)

/-- The record a call stores when it is not a duplicate. -/
def stored_call (c : trace_call) : pib_trace_entry := stored_record c.clk c.act c.entry

/-- The records of a list that are not time records. -/
def without_time_records (l : List pib_trace_entry) : List pib_trace_entry :=
  l.filter (fun e => !decide (e.act = PIB_TRACE_ACT_TIMEDATE.val))

/-- The end of `trace_seq_show`: the text it prints between the fields of the
record and the newline, `none` when it prints nothing there. -/
def repeat_text (repeat_ : Nat) : Option String :=
  if repeat_ = 255 then some " (This record is repeated 256 times or more)"
  else if repeat_ > 0 then
    some (" (This record is repeated " ++ toString (repeat_ + 1) ++ " times)")
  else none

/-- The repeat annotation of the line `trace_seq_show` prints at the cursor;
none when the `switch` before it ends in `BUG()`. -/
def show_repeat_text (N : Nat) (base : Nat → pib_trace_entry) (info : pib_trace_info) :
    Option String :=
  if (trace_seq_show N base info).bug then none
  else repeat_text (trace_seq_show N base info).entry.repeat_

/-! ## The stores of a publish -/

/-- The stores of the time-record publish of `append_new_trace`, in program
order, each as the change it makes to the slot. -/
def time_record_stores (clk : trace_clock) : List (pib_trace_entry → pib_trace_entry) :=
  [fun s => { s with act := PIB_TRACE_ACT_NONE.val },
    fun s => { s with u := timespec_bytes clk.nstime ++ s.u.drop 16 },
    fun s => { s with timestamp := clk.cycles_time },
    fun s => { s with repeat_ := 0 },
    fun s => { s with act := PIB_TRACE_ACT_TIMEDATE.val }]

/-- The stores of the record publish of `append_new_trace`, in program order:
`store->act = PIB_TRACE_ACT_NONE`, `*store = *entry`, the cycle stamp, and
`store->act = act`. -/
def record_stores (clk : trace_clock) (act : pib_trace_act) (entry : pib_trace_entry) :
    List (pib_trace_entry → pib_trace_entry) :=
  [fun s => { s with act := PIB_TRACE_ACT_NONE.val },
    fun _ => entry,
    fun s => { s with timestamp := clk.cycles },
    fun s => { s with act := act.val }]

/-- The contents of a slot before the first store, after the first, after the
second and so on. -/
def slot_states (old : pib_trace_entry) (stores : List (pib_trace_entry → pib_trace_entry)) :
    List pib_trace_entry :=
  List.scanl (fun s store => store s) old stores

/-- What every `pib_trace_*` function passes to `append_new_trace`: a record
cleared by `memset`, then `op`, `port` and members of the union `u` assigned;
`act`, `repeat` and `timestamp` stay zero. -/
def producer_entry (op port : Nat) (u : List Nat) : pib_trace_entry :=
  { zero_entry with op := op, port := port, u := u }

/-! ## The bookmark write channel -/

/-- The loop of `trace_write` over `i = 0 .. sizeof(message) - 1`: every
`'\n'` of the message becomes `'\0'`. -/
def clear_newlines (message : List Nat) : List Nat :=
  (List.range PIB_BOOKMARK_MESSAGE).foldl
    (fun m i => if m.getD i 0 = 10 then m.set i 0 else m) message

/-- The record `trace_write` builds from the `len = buf.length` bytes of the
user buffer: cleared by `memset`, the first `size = min(16, len)` bytes copied
into `u.bookmark.message`, the line breaks of the message cleared. -/
def bookmark_entry (buf : List Nat) : pib_trace_entry :=
  { zero_entry with
    u := clear_newlines
          (buf.take (min PIB_BOOKMARK_MESSAGE buf.length)
            ++ List.replicate (PIB_BOOKMARK_MESSAGE - min PIB_BOOKMARK_MESSAGE buf.length) 0)
        ++ zero_entry.u.drop PIB_BOOKMARK_MESSAGE }

/-- What a call of `trace_write` leaves: its return value, `*ppos` and the
trace state of the device. -/
structure trace_write_result where
  ret : Int
  ppos : Int
  dev : pib_dev

/-- The write handler of the trace file. `buf` holds the `len` bytes of the
user buffer, `copy_fault` says whether `copy_from_user` fails. -/
def trace_write (N HZ : Nat) (dev : pib_dev) (clk : trace_clock) (buf : List Nat) (ppos : Int)
    (copy_fault : Bool) : trace_write_result :=
  if ppos ≠ 0 then
    { ret := wrap_long buf.length, ppos := wrap_long buf.length, dev := dev }
  else if copy_fault then
    { ret := -EFAULT, ppos := ppos, dev := dev }
  else
    { ret := wrap_long buf.length, ppos := wrap_long buf.length,
      dev := append_new_trace N HZ dev clk PIB_TRACE_ACT_BOOKMARK (bookmark_entry buf) }

/-- The text of a stored bookmark: the bytes of `u.bookmark.message` up to its
first NUL, as `"%s"` prints them. -/
def stored_text (u : List Nat) : List Nat :=
  (u.take PIB_BOOKMARK_MESSAGE).takeWhile (fun b => b != 0)

/-- The input text truncated to 16 bytes and cut at its first line break or
NUL. -/
def cut_text (buf : List Nat) : List Nat :=
  (buf.take PIB_BOOKMARK_MESSAGE).takeWhile (fun b => b != 10 && b != 0)

/-- A ring of 4 slots whose last-published record, in slot 1, is the bookmark
"hi" with a saturated repeat counter. -/
def saturated_dev : pib_dev :=
  { trace_data := some (fun k =>
      if k = 1 then
        { stored_record (sample_clock 0 100 1000) PIB_TRACE_ACT_BOOKMARK
            (bookmark_entry [104, 105]) with repeat_ := 255 }
      else if k = 0 then time_record (sample_clock 0 100 1000) zero_entry
      else zero_entry),
    trace_index := 2,
    last_record_time := 0,
    last_record_time_index := 0 }

/-! ## Reads of the trace file -/

/-- The traversals `seq_file` makes for `reads` calls of `read()` in a row:
each is `start`, then the loop, and each goes on with the cursor the one before
it left in `file->private`. The result is the lines of each traversal. -/
def seq_reads (N : Nat) (base : Nat → pib_trace_entry) :
    Nat → pib_trace_info → Option (List (List trace_line))
  | 0, _ => some []
  | reads + 1, info =>
    match seq_traverse N base (N + 1) info with
    | none => none
    | some (lines, info1) =>
      match seq_reads N base reads info1 with
      | none => none
      | some rest => some (lines :: rest)

/-- The file opened by `trace_open` and read by `reads` calls of `read()`,
the ring staying as it is. -/
def resumed_playback (N : Nat) (dev : pib_dev) (now_timespec : timespec) (now_timestamp : Nat)
    (reads : Nat) : Option (List (List trace_line)) :=
  match dev.trace_data, trace_open N dev true now_timespec now_timestamp 0 with
  | some base, .opened info => seq_reads N base reads info
  | _, _ => none

/-- A ring of 4 slots in the middle of its first append: the time record is
published in slot 0, slot 1 is claimed for the record (`trace_index` is 2) and
its kind is `PIB_TRACE_ACT_NONE`; the store `store->act = act` has not been
executed yet. -/
def half_published_dev : pib_dev :=
  { trace_data := some (fun k =>
      if k = 0 then time_record (sample_clock 0 100 1000) zero_entry else zero_entry),
    trace_index := 2,
    last_record_time := 0,
    last_record_time_index := 0 }

/-- The cursor after `j` calls of `trace_seq_next`. -/
def cursor_after (N : Nat) (base : Nat → pib_trace_entry) : Nat → pib_trace_info → pib_trace_info
  | 0, info => info
  | j + 1, info => cursor_after N base j (trace_seq_next N base info).1

/-- A time in nanoseconds: `tv_sec * 10^9 + tv_nsec`. -/
def timespec_ns (t : timespec) : Int := t.tv_sec * 1000000000 + t.tv_nsec

/-- A full ring of 4 slots with two time records: (100 s, 5 ns) at 1000
cycles in slot 0 and (150 s, 5 ns) at 2000 cycles in slot 2, each followed by
a record. -/
def two_anchor_ring (k : Nat) : pib_trace_entry :=
  if k = 0 then time_record (sample_clock 0 100 1000) zero_entry
  else if k = 1 then stored_record (sample_clock 0 100 1000) PIB_TRACE_ACT_API (sample_entry 1)
  else if k = 2 then time_record (sample_clock 0 150 2000) zero_entry
  else stored_record (sample_clock 0 150 2010) PIB_TRACE_ACT_API (sample_entry 2)

/-- The device with the ring `two_anchor_ring`, after four slots were
claimed. -/
def two_anchor_dev : pib_dev :=
  { trace_data := some two_anchor_ring,
    trace_index := 4,
    last_record_time := 0,
    last_record_time_index := 2 }

/-- A ring of 4 slots with the time record (100 s, 5 ns) at 1000 cycles in
slot 0 and a record stamped 3000 cycles in slot 1. -/
def midpoint_ring (k : Nat) : pib_trace_entry :=
  if k = 0 then time_record (sample_clock 0 100 1000) zero_entry
  else if k = 1 then stored_record (sample_clock 0 100 2999) PIB_TRACE_ACT_API (sample_entry 1)
  else zero_entry

/-! ## A reader next to a producer -/

/-- One round of the traversal loop of `seq_file` while a producer is at
work: `trace_seq_next` runs on the ring as it is at that moment, and
`trace_seq_show`, when `trace_seq_next` returned the cursor, on the ring as it
is when it is called. -/
def next_then_show (N : Nat) (ring_next ring_show : Nat → pib_trace_entry)
    (info : pib_trace_info) : Option trace_line :=
  match trace_seq_next N ring_next info with
  | (info1, true) => some (trace_seq_show N ring_show info1)
  | (_, false) => none

/-- The ring `two_anchor_ring` after its file was opened (counter 4, cursor on
slot 0) and two more appends arrived: the first has overwritten slot 0, the
second is publishing its record into slot 1 and has executed `j` of the
stores of `record_stores`. -/
def lapped_ring (j : Nat) (k : Nat) : pib_trace_entry :=
  if k = 0 then stored_record (sample_clock 0 160 3000) PIB_TRACE_ACT_API (sample_entry 7)
  else if k = 1 then
    (slot_states (two_anchor_ring 1)
      (record_stores (sample_clock 0 160 3010) PIB_TRACE_ACT_API (sample_entry 8))).getD j
      zero_entry
  else two_anchor_ring k

/-- The cursor `trace_open` builds on `two_anchor_dev` for the reader's sample
(400 s, 5 ns) at 5000 cycles. -/
def lapped_info : pib_trace_info :=
  { start := 0, index := 0, base_timespec := { tv_sec := 100, tv_nsec := 5 },
    base_timestamp := 1000, tsc_ratio := 4915200000000 }

/-! ## Slot addressing -/

/-- The append counter after `n` slots were claimed on a fresh ring: the
`atomic_t` is a 32-bit `int` and `atomic_add_return` wraps. -/
def counter_after (n : Nat) : Int := wrap_int (n : Int)

/-- The value of `atomic_read(&dev->debugfs.trace_index) % PIB_TRACE_MAX_ENTRIES`
in `trace_open`, an `int`, before it is stored into `info->start`. -/
def reader_slot_expr (N : Nat) (index : Int) : Int := Int.tmod index (N : Int)

/-! ## The GID query of `pib_main.c` -/

/-- What a call of `pib_ib_query_gid` does: its return value and, when it
executes `*gid = dev->ports[port_num - 1].gid[index]`, the port and the index
of the table entry it reads. -/
structure query_gid_result where
  ret : Int
  read : Option (Nat × Int)
deriving DecidableEq, Repr

/-- The C function `pib_ib_query_gid`. `G` is `PIB_IB_GID_PER_PORT`;
`ibdev_null` and `gid_null` say whether the pointers are NULL. -/
def pib_ib_query_gid (G : Nat) (ibdev_null : Bool) (phys_port_cnt port_num : Nat) (index : Int)
    (gid_null : Bool) : query_gid_result :=
  if ibdev_null then { ret := -EINVAL, read := none }
  else if port_num < 1 ∨ phys_port_cnt < port_num then { ret := -EINVAL, read := none }
  else if index < 0 ∨ (G : Int) < index then { ret := -EINVAL, read := none }
  else if gid_null then { ret := -ENOMEM, read := none }
  else { ret := 0, read := some (port_num - 1, index) }

/-- The `gid_tbl_len` that `pib_ib_add` puts into the attributes of every
port: `PIB_IB_GID_PER_PORT`. -/
def gid_tbl_len (G : Nat) : Nat := G

/-! ## A ratio of zero -/

/-- A ring of 4 slots whose only time record, (100 s, 5 ns) at 1000 cycles,
is in slot 0, followed by one record. -/
def one_anchor_dev : pib_dev :=
  { trace_data := some (fun k =>
      if k = 0 then time_record (sample_clock 0 100 1000) zero_entry
      else if k = 1 then
        stored_record (sample_clock 0 100 1000) PIB_TRACE_ACT_API (sample_entry 1)
      else zero_entry),
    trace_index := 2,
    last_record_time := 0,
    last_record_time_index := 0 }

/-! ## Line breaks of a bookmark -/

/-- What the loop of `trace_write` makes of one byte of the message: `'\n'`
becomes NUL, every other byte stays. -/
def cleared_byte (b : Nat) : Nat := if b = 10 then 0 else b

/-- The key under which a call of `append_new_trace` stores its record. -/
def call_key (c : trace_call) : Nat × Nat × Nat × List Nat :=
  (c.act.val, c.entry.op, c.entry.port, c.entry.u)

/-! ## The compressed append history -/

/-- Run-length compression, one call further: a call with the key of the last
record of the history is counted in that record's `repeat`, any other call
adds its record. -/
def compress_step (hist : List pib_trace_entry) (c : trace_call) : List pib_trace_entry :=
  match hist.getLast? with
  | none => hist ++ [stored_call c]
  | some e =>
    if entry_key e = call_key c then hist.dropLast ++ [bump_repeat e]
    else hist ++ [stored_call c]

/-- The run-length-compressed history of a sequence of appends: one record
for every run of calls with the same kind, op, port and payload, stamped by
the first call of the run and counting the others in `repeat`. -/
def compressed_history (calls : List trace_call) : List pib_trace_entry :=
  calls.foldl compress_step []

/-- The last record of the log, if there is one, is not a time record. -/
def ends_with_record (log : List pib_trace_entry) : Prop :=
  ∀ e, log.getLast? = some e → e.act ≠ PIB_TRACE_ACT_TIMEDATE.val

/-! ## A non-decreasing cycle counter -/

/-- The cycle counter does not go back over a sequence of calls: every call
reads it, for its time record and then for its record, at values not below
`t`, the last value read before. -/
def clocks_sorted : Nat → List trace_call → Bool
  | _, [] => true
  | t, c :: cs =>
    decide (t ≤ c.clk.cycles_time) && decide (c.clk.cycles_time ≤ c.clk.cycles)
      && clocks_sorted c.clk.cycles cs

/-- A wall time as `getnstimeofday` returns it: the nanoseconds in
`0 .. 10^9 - 1`, the seconds at most `2^62` in absolute value. -/
def wall_time_ok (t : timespec) : Prop :=
  0 ≤ t.tv_nsec ∧ t.tv_nsec < 1000000000
    ∧ -4611686018427387904 ≤ t.tv_sec ∧ t.tv_sec ≤ 4611686018427387904

/-- The cycle stamps of the log do not decrease, none exceeds `t`, and every
time record of the log holds a wall time as `getnstimeofday` returns it. -/
def log_clocks_ok (t : Nat) (log : List pib_trace_entry) : Prop :=
  List.Pairwise (fun a b => a.timestamp ≤ b.timestamp) log
    ∧ (∀ e ∈ log, e.timestamp ≤ t)
    ∧ ∀ e ∈ log, e.act = PIB_TRACE_ACT_TIMEDATE.val → wall_time_ok (timedate_time e.u)

/-- The ring `two_anchor_ring` with another wall time, (50 s, 5 ns), in its
first time record; its cycle stamp, the second time record and both records
are the same. -/
def early_anchor_ring (k : Nat) : pib_trace_entry :=
  if k = 0 then time_record (sample_clock 0 50 1000) zero_entry else two_anchor_ring k

/-- The device with the ring `early_anchor_ring`, after four slots were
claimed. -/
def early_anchor_dev : pib_dev :=
  { trace_data := some early_anchor_ring,
    trace_index := 4,
    last_record_time := 0,
    last_record_time_index := 2 }

/-- The device after one API record was appended to a fresh ring of 4 slots
and the text "a\nb\n" was then written to the trace file at offset 0. -/
def bookmark_written_dev : pib_dev :=
  (trace_write 4 1000
    (append_new_trace 4 1000 (register_dev 4) (sample_clock 0 100 1000) PIB_TRACE_ACT_API
      (sample_entry 1))
    (sample_clock 0 101 1010) [97, 10, 98, 10] 0 false).dev

/-- The ring of `bookmark_written_dev`. -/
def bookmark_written_ring : Nat → pib_trace_entry :=
  match bookmark_written_dev.trace_data with
  | some base => base
  | none => fun _ => zero_entry

/-! ## Machine arithmetic inside its range -/

theorem wrap_int_of_range (x : Int) (h1 : -2147483648 ≤ x) (h2 : x ≤ 2147483647) :
    wrap_int x = x := by
  unfold wrap_int; omega

theorem wrap_long_of_range (x : Int) (h1 : -9223372036854775808 ≤ x)
    (h2 : x ≤ 9223372036854775807) : wrap_long x = x := by
  unfold wrap_long; omega

theorem wrap_u32_of_range (x : Nat) (h : x < 4294967296) : wrap_u32 (x : Int) = x := by
  unfold wrap_u32; omega

theorem wrap_u64_of_range (x : Nat) (h : x < 18446744073709551616) : wrap_u64 (x : Int) = x := by
  unfold wrap_u64; omega

theorem slot_expr_of_range (N i : Nat) (hN : 0 < N) (h : i + N ≤ 2147483647) :
    (slot_expr N (i : Int)).toNat = (i + N - 1) % N := by
  unfold slot_expr
  rw [wrap_int_of_range ((i : Int) - 1) (by omega) (by omega),
    wrap_int_of_range ((i : Int) - 1 + (N : Int)) (by omega) (by omega)]
  have e : (i : Int) - 1 + (N : Int) = ((i + N - 1 : Nat) : Int) := by omega
  rw [e, Int.tmod_eq_emod (by positivity) (by positivity), ← Int.natCast_mod, Int.toNat_natCast]

theorem slot_expr_succ (N i : Nat) (hN : 0 < N) (h : i + 1 + N ≤ 2147483647) :
    (slot_expr N ((i : Int) + 1)).toNat = i % N := by
  have := slot_expr_of_range N (i + 1) hN h
  have e : i + 1 + N - 1 = i + N := by omega
  rw [e, Nat.add_mod_right] at this
  exact_mod_cast this

theorem info_slot_of_range (N s k : Nat) (h : s + k < 4294967296) :
    info_slot N s k = (s + k) % N := by
  unfold info_slot
  rw [show ((s : Int) + (k : Int)) = ((s + k : Nat) : Int) by push_cast; rfl,
    wrap_u32_of_range _ h]

/-! ## The time record's wall time in memory -/

theorem le_bytes_length (k : Nat) : ∀ x, (le_bytes k x).length = k := by
  induction k with
  | zero => intro x; rfl
  | succ k ih => intro x; simp [le_bytes, ih]

theorem le_value_le_bytes (k : Nat) : ∀ x, le_value (le_bytes k x) = x % 256 ^ k := by
  induction k with
  | zero => intro x; simp [le_bytes, le_value, Nat.mod_one]
  | succ k ih =>
    intro x
    simp only [le_bytes, le_value, ih]
    rw [pow_succ, mul_comm (256 ^ k) 256, Nat.mod_mul]

theorem timedate_time_timespec_bytes (t : timespec) (rest : List Nat)
    (hs0 : -9223372036854775808 ≤ t.tv_sec) (hs1 : t.tv_sec ≤ 9223372036854775807)
    (hn0 : -9223372036854775808 ≤ t.tv_nsec) (hn1 : t.tv_nsec ≤ 9223372036854775807) :
    timedate_time (timespec_bytes t ++ rest) = t := by
  have h8 : ∀ x, (le_bytes 8 x).length = 8 := le_bytes_length 8
  have hv : ∀ x, le_value (le_bytes 8 x) = x % 18446744073709551616 := by
    intro x; rw [le_value_le_bytes]; rfl
  unfold timedate_time timespec_bytes
  rw [List.append_assoc, List.take_left' (h8 _), List.drop_left' (h8 _),
    List.take_left' (h8 _), hv, hv]
  have key : ∀ v : Int, -9223372036854775808 ≤ v → v ≤ 9223372036854775807 →
      wrap_long ((wrap_u64 v % 18446744073709551616 : Nat) : Int) = v := by
    intro v h0 h1
    unfold wrap_long wrap_u64
    omega
  rw [key _ hs0 hs1, key _ hn0 hn1]

theorem timedate_time_time_record (clk : trace_clock) (old : pib_trace_entry)
    (hs0 : -9223372036854775808 ≤ clk.nstime.tv_sec)
    (hs1 : clk.nstime.tv_sec ≤ 9223372036854775807)
    (hn0 : -9223372036854775808 ≤ clk.nstime.tv_nsec)
    (hn1 : clk.nstime.tv_nsec ≤ 9223372036854775807) :
    timedate_time (time_record clk old).u = clk.nstime :=
  timedate_time_timespec_bytes clk.nstime _ hs0 hs1 hn0 hn1

/-! ## What one call of `append_new_trace` does -/

theorem append_new_trace_dup (N HZ : Nat) (dev : pib_dev) (base : Nat → pib_trace_entry)
    (clk : trace_clock) (act : pib_trace_act) (entry : pib_trace_entry) (i : Nat)
    (hN : 0 < N) (hbase : dev.trace_data = some base) (hi : dev.trace_index = (i : Int))
    (hr : i + N ≤ 2147483647)
    (heq : equals_trace_entries act entry (base (last_slot N i)) = true) :
    append_new_trace N HZ dev clk act entry =
      if (base (last_slot N i)).repeat_ < 255 then
        { dev with
          trace_data :=
            some (Function.update base (last_slot N i)
              { base (last_slot N i) with repeat_ := (base (last_slot N i)).repeat_ + 1 }) }
      else dev := by
  unfold append_new_trace
  simp only [hbase, hi, slot_expr_of_range N i hN hr]
  unfold last_slot at heq ⊢
  simp only [heq, if_true]

theorem append_new_trace_new (N HZ : Nat) (dev : pib_dev) (base : Nat → pib_trace_entry)
    (clk : trace_clock) (act : pib_trace_act) (entry : pib_trace_entry) (i : Nat)
    (hN : 0 < N) (hbase : dev.trace_data = some base) (hi : dev.trace_index = (i : Int))
    (hr : i + N + 2 ≤ 2147483647)
    (hne : equals_trace_entries act entry (base (last_slot N i)) = false) :
    append_new_trace N HZ dev clk act entry =
      if time_record_due N HZ dev clk then
        { trace_data :=
            some (Function.update (Function.update base (i % N) (time_record clk (base (i % N))))
              ((i + 1) % N) (stored_record clk act entry)),
          trace_index := (i : Int) + 2,
          last_record_time := clk.jiffies_mark,
          last_record_time_index := (i : Int) }
      else
        { dev with
          trace_data := some (Function.update base (i % N) (stored_record clk act entry)),
          trace_index := (i : Int) + 1 } := by
  unfold append_new_trace
  simp only [hbase, hi, slot_expr_of_range N i hN (by omega)]
  unfold last_slot at hne
  simp only [hne]
  have w1 : wrap_int ((i : Int) + 1) = (i : Int) + 1 := wrap_int_of_range _ (by omega) (by omega)
  have w2 : wrap_int ((i : Int) + 1 + 1) = (i : Int) + 2 := by
    rw [wrap_int_of_range _ (by omega) (by omega)]; ring
  have w3 : wrap_int ((i : Int) + 1 - 1) = (i : Int) := by
    rw [wrap_int_of_range _ (by omega) (by omega)]; ring
  have s1 : (slot_expr N ((i : Int) + 1)).toNat = i % N := slot_expr_succ N i hN (by omega)
  have s2 : (slot_expr N ((i : Int) + 2)).toNat = (i + 1) % N := by
    have h2 := slot_expr_succ N (i + 1) hN (by omega)
    have e : ((i + 1 : Nat) : Int) + 1 = (i : Int) + 2 := by push_cast; ring
    rw [e] at h2
    exact h2
  cases hd : time_record_due N HZ dev clk
  · unfold publish_record
    simp only [Bool.false_eq_true, if_false, hbase, hi, w1, s1]
    rfl
  · unfold insert_time_record publish_record
    simp only [Bool.false_eq_true, if_false, if_true, hi, ne_eq, not_true_eq_false, or_self,
      w1, w2, w3, s1, s2]
    rfl


theorem set_repeat_set_repeat (dev : pib_dev) (slot r1 r2 : Nat) :
    set_repeat (set_repeat dev slot r1) slot r2 = set_repeat dev slot r2 := by
  unfold set_repeat
  cases h : dev.trace_data with
  | none => simp [h]
  | some base => simp [Function.update_same, Function.update_idem]

theorem set_repeat_self (dev : pib_dev) (base : Nat → pib_trace_entry) (slot : Nat)
    (hbase : dev.trace_data = some base) : set_repeat dev slot (base slot).repeat_ = dev := by
  unfold set_repeat
  simp only [hbase]
  rw [Function.update_eq_self]
  cases dev
  simp_all

theorem equals_trace_entries_iff (act : pib_trace_act) (entry e2 : pib_trace_entry) :
    equals_trace_entries act entry e2 = true ↔
      act.val = e2.act ∧ entry.op = e2.op ∧ entry.port = e2.port ∧ entry.u = e2.u := by
  unfold equals_trace_entries
  by_cases h1 : act.val = e2.act <;> by_cases h2 : entry.op = e2.op <;>
    by_cases h3 : entry.port = e2.port <;> simp [h1, h2, h3]

theorem append_all_dups (N HZ : Nat) (act : pib_trace_act) (entry : pib_trace_entry) (j : Nat)
    (hN : 0 < N) (hr : j + N ≤ 2147483647) (clks : List trace_clock) :
    ∀ (dev : pib_dev) (base : Nat → pib_trace_entry), dev.trace_data = some base →
      dev.trace_index = (j : Int) →
      equals_trace_entries act entry (base (last_slot N j)) = true →
      (base (last_slot N j)).repeat_ ≤ 255 →
      append_all N HZ dev (same_calls clks act entry) =
        set_repeat dev (last_slot N j) (min ((base (last_slot N j)).repeat_ + clks.length) 255) := by
  induction clks with
  | nil =>
    intro dev base hbase _ _ hle
    simp only [same_calls, append_all, List.map_nil, List.foldl_nil, List.length_nil, add_zero]
    rw [min_eq_left hle, set_repeat_self dev base _ hbase]
  | cons c cs ih =>
    intro dev base hbase hi heq hle
    have step := append_new_trace_dup N HZ dev base c act entry j hN hbase hi hr heq
    simp only [same_calls, append_all, List.map_cons, List.foldl_cons] at ih ⊢
    rw [step]
    by_cases hlt : (base (last_slot N j)).repeat_ < 255
    · simp only [hlt, if_true]
      have heq2 : equals_trace_entries act entry
          (Function.update base (last_slot N j)
            { base (last_slot N j) with repeat_ := (base (last_slot N j)).repeat_ + 1 }
            (last_slot N j)) = true := by
        rw [Function.update_same]
        rw [equals_trace_entries_iff] at heq ⊢
        exact heq
      have := ih
        { dev with
          trace_data :=
            some (Function.update base (last_slot N j)
              { base (last_slot N j) with repeat_ := (base (last_slot N j)).repeat_ + 1 }) }
        _ rfl hi heq2 (by rw [Function.update_same]; simp only; omega)
      rw [this]
      have e : min ((base (last_slot N j)).repeat_ + 1 + cs.length) 255
          = min ((base (last_slot N j)).repeat_ + (cs.length + 1)) 255 := by
        congr 1; omega
      simp only [Function.update_same, set_repeat, hbase, Function.update_idem, List.length_cons, e]
    · simp only [hlt, if_false]
      rw [ih dev base hbase hi heq hle]
      congr 1
      simp only [List.length_cons]
      omega


theorem last_slot_succ (N i : Nat) (hN : 0 < N) : last_slot N (i + 1) = i % N := by
  unfold last_slot
  have e : i + 1 + N - 1 = i + N := by omega
  rw [e, Nat.add_mod_right]

/-! ## Duplicate compression -/

/-- C1. Duplicate compression with saturation. On a ring with a buffer and
a record (zeroed by its producer, so with `repeat` 0) that differs from the
last-published slot in kind, op, port or payload, `k = 1 + clks.length` calls
of `append_new_trace` in a row leave the device as the first call alone does,
except that the `repeat` of the slot that holds the record is
`min (k - 1) 255`; that slot holds the record as the first call stored it. -/
theorem duplicate_compression (N HZ : Nat) (dev : pib_dev) (base : Nat → pib_trace_entry)
    (clk : trace_clock) (act : pib_trace_act) (entry : pib_trace_entry) (i : Nat)
    (clks : List trace_clock)
    (hN : 0 < N) (hbase : dev.trace_data = some base) (hi : dev.trace_index = (i : Int))
    (hr : i + N + 2 ≤ 2147483647) (hrep : entry.repeat_ = 0)
    (hne : equals_trace_entries act entry (base (last_slot N i)) = false) :
    append_all N HZ dev (same_calls (clk :: clks) act entry) =
        set_repeat (append_new_trace N HZ dev clk act entry)
          ((i + (if time_record_due N HZ dev clk then 1 else 0)) % N) (min clks.length 255)
      ∧ ∃ b1 bk,
        (append_new_trace N HZ dev clk act entry).trace_data = some b1
        ∧ b1 ((i + (if time_record_due N HZ dev clk then 1 else 0)) % N)
            = stored_record clk act entry
        ∧ (stored_record clk act entry).repeat_ = 0
        ∧ (append_all N HZ dev (same_calls (clk :: clks) act entry)).trace_data = some bk
        ∧ bk ((i + (if time_record_due N HZ dev clk then 1 else 0)) % N)
            = { stored_record clk act entry with repeat_ := min clks.length 255 } := by
  have hnew := append_new_trace_new N HZ dev base clk act entry i hN hbase hi hr hne
  have hkey : ∀ e : pib_trace_entry, e = stored_record clk act entry →
      equals_trace_entries act entry e = true := by
    intro e he
    rw [equals_trace_entries_iff, he]
    simp [stored_record]
  have hall : append_all N HZ dev (same_calls (clk :: clks) act entry) =
      append_all N HZ (append_new_trace N HZ dev clk act entry) (same_calls clks act entry) := by
    simp [append_all, same_calls]
  rw [hall]
  cases hd : time_record_due N HZ dev clk
  · simp only [hd, Bool.false_eq_true, if_false] at hnew ⊢
    have hslot : last_slot N (i + 1) = i % N := last_slot_succ N i hN
    have hd1 : (append_new_trace N HZ dev clk act entry).trace_data
        = some (Function.update base (i % N) (stored_record clk act entry)) := by rw [hnew]
    have hi1 : (append_new_trace N HZ dev clk act entry).trace_index = ((i + 1 : Nat) : Int) := by
      rw [hnew]; push_cast; rfl
    have := append_all_dups N HZ act entry (i + 1) hN (by omega) clks _ _ hd1 hi1
      (by rw [hslot, Function.update_same]; exact hkey _ rfl)
      (by rw [hslot, Function.update_same]; simp [stored_record, hrep])
    rw [hslot, Function.update_same] at this
    have e0 : (stored_record clk act entry).repeat_ = 0 := by simp [stored_record, hrep]
    rw [e0, Nat.zero_add] at this
    simp only [Nat.add_zero]
    refine ⟨this, Function.update base (i % N) (stored_record clk act entry),
      Function.update (Function.update base (i % N) (stored_record clk act entry)) (i % N)
        { stored_record clk act entry with repeat_ := min clks.length 255 },
      hd1, by simp, e0, ?_, ?_⟩
    · rw [this]; simp only [set_repeat, hd1, Function.update_same]
    · simp
  · simp only [hd, if_true] at hnew ⊢
    have hslot : last_slot N (i + 1 + 1) = (i + 1) % N := last_slot_succ N (i + 1) hN
    have hd1 : (append_new_trace N HZ dev clk act entry).trace_data
        = some (Function.update (Function.update base (i % N) (time_record clk (base (i % N))))
            ((i + 1) % N) (stored_record clk act entry)) := by rw [hnew]
    have hi1 : (append_new_trace N HZ dev clk act entry).trace_index
        = ((i + 1 + 1 : Nat) : Int) := by
      rw [hnew]; push_cast; ring
    have := append_all_dups N HZ act entry (i + 1 + 1) hN (by omega) clks _ _ hd1 hi1
      (by rw [hslot, Function.update_same]; exact hkey _ rfl)
      (by rw [hslot, Function.update_same]; simp [stored_record, hrep])
    rw [hslot, Function.update_same] at this
    have e0 : (stored_record clk act entry).repeat_ = 0 := by simp [stored_record, hrep]
    rw [e0, Nat.zero_add] at this
    refine ⟨this,
      Function.update (Function.update base (i % N) (time_record clk (base (i % N))))
        ((i + 1) % N) (stored_record clk act entry),
      Function.update
        (Function.update (Function.update base (i % N) (time_record clk (base (i % N))))
          ((i + 1) % N) (stored_record clk act entry))
        ((i + 1) % N) { stored_record clk act entry with repeat_ := min clks.length 255 },
      hd1, by simp, e0, ?_, ?_⟩
    · rw [this]; simp only [set_repeat, hd1, Function.update_same]
    · simp


/-- Witness of `duplicate_compression` on a fresh ring of 4 slots: 2, 3 and
300 appends of one record give `repeat` 1, 2 and 255. -/
theorem duplicate_compression_witness :
    equals_trace_entries PIB_TRACE_ACT_API (sample_entry 3)
        ((fun _ => zero_entry) (last_slot 4 0)) = false
      ∧ (∃ b, (append_all 4 1000 (register_dev 4)
            (same_calls (List.replicate 2 (sample_clock 0 100 1000)) PIB_TRACE_ACT_API
              (sample_entry 3))).trace_data = some b ∧ (b 1).repeat_ = 1)
      ∧ (∃ b, (append_all 4 1000 (register_dev 4)
            (same_calls (List.replicate 3 (sample_clock 0 100 1000)) PIB_TRACE_ACT_API
              (sample_entry 3))).trace_data = some b ∧ (b 1).repeat_ = 2)
      ∧ (∃ b, (append_all 4 1000 (register_dev 4)
            (same_calls (List.replicate 300 (sample_clock 0 100 1000)) PIB_TRACE_ACT_API
              (sample_entry 3))).trace_data = some b ∧ (b 1).repeat_ = 255) := by
  have hne : equals_trace_entries PIB_TRACE_ACT_API (sample_entry 3)
      ((fun _ => zero_entry) (last_slot 4 0)) = false := by decide
  have hslot : (0 + (if time_record_due 4 1000 (register_dev 4) (sample_clock 0 100 1000)
      then 1 else 0)) % 4 = 1 := by decide
  refine ⟨hne, ?_, ?_, ?_⟩
  · obtain ⟨_, _, bk, _, _, _, h4, h5⟩ :=
      duplicate_compression 4 1000 (register_dev 4) (fun _ => zero_entry)
        (sample_clock 0 100 1000) PIB_TRACE_ACT_API (sample_entry 3) 0
        (List.replicate 1 (sample_clock 0 100 1000)) (by decide) rfl rfl (by decide) rfl hne
    rw [hslot] at h5
    exact ⟨bk, h4, by rw [h5]; rfl⟩
  · obtain ⟨_, _, bk, _, _, _, h4, h5⟩ :=
      duplicate_compression 4 1000 (register_dev 4) (fun _ => zero_entry)
        (sample_clock 0 100 1000) PIB_TRACE_ACT_API (sample_entry 3) 0
        (List.replicate 2 (sample_clock 0 100 1000)) (by decide) rfl rfl (by decide) rfl hne
    rw [hslot] at h5
    exact ⟨bk, h4, by rw [h5]; rfl⟩
  · obtain ⟨_, _, bk, _, _, _, h4, h5⟩ :=
      duplicate_compression 4 1000 (register_dev 4) (fun _ => zero_entry)
        (sample_clock 0 100 1000) PIB_TRACE_ACT_API (sample_entry 3) 0
        (List.replicate 299 (sample_clock 0 100 1000)) (by decide) rfl rfl (by decide) rfl hne
    rw [hslot] at h5
    exact ⟨bk, h4, by rw [h5, List.length_replicate]; rfl⟩


/-! ## Placement of a new record -/

theorem mod_succ_ne (N i : Nat) (hN : 2 ≤ N) : i % N ≠ (i + 1) % N := by
  intro h
  have h1 := Nat.mod_lt i (by omega : N > 0)
  by_cases hlt : i % N + 1 < N
  · have : (i + 1) % N = i % N + 1 := by
      rw [Nat.add_mod, Nat.mod_eq_of_lt (by omega : 1 < N), Nat.mod_eq_of_lt hlt]
    omega
  · have hl : i % N = N - 1 := by omega
    have : (i + 1) % N = 0 := by
      rw [Nat.add_mod, hl, Nat.mod_eq_of_lt (by omega : 1 < N)]
      have : N - 1 + 1 = N := by omega
      rw [this, Nat.mod_self]
    omega

/-- C4. Placement of a new record. On a ring of `N >= 2` slots with a
buffer, a call of `append_new_trace` with pre-append counter `i` and a record
(zeroed by its producer) that is not structurally equal to the last-published
slot stores the record, with the given kind, its op, port and payload and
`repeat` 0, in slot `(i + a) mod N` and sets the counter to `i + 1 + a`, where
`a = 1` when the time-record gate fires and `a = 0` otherwise; when `a = 1`,
slot `i mod N` holds the time record; every other slot is as before. -/
theorem placement_of_new_record (N HZ : Nat) (dev : pib_dev) (base : Nat → pib_trace_entry)
    (clk : trace_clock) (act : pib_trace_act) (entry : pib_trace_entry) (i : Nat)
    (hN : 2 ≤ N) (hbase : dev.trace_data = some base) (hi : dev.trace_index = (i : Int))
    (hr : i + N + 2 ≤ 2147483647) (hrep : entry.repeat_ = 0)
    (hne : equals_trace_entries act entry (base (last_slot N i)) = false) :
    ∃ b1, (append_new_trace N HZ dev clk act entry).trace_data = some b1
      ∧ (append_new_trace N HZ dev clk act entry).trace_index
          = (i : Int) + 1 + (anchors_due N HZ dev clk : Int)
      ∧ b1 ((i + anchors_due N HZ dev clk) % N) = stored_record clk act entry
      ∧ (b1 ((i + anchors_due N HZ dev clk) % N)).act = act.val
      ∧ (b1 ((i + anchors_due N HZ dev clk) % N)).op = entry.op
      ∧ (b1 ((i + anchors_due N HZ dev clk) % N)).port = entry.port
      ∧ (b1 ((i + anchors_due N HZ dev clk) % N)).u = entry.u
      ∧ (b1 ((i + anchors_due N HZ dev clk) % N)).repeat_ = 0
      ∧ (anchors_due N HZ dev clk = 1 →
          b1 (i % N) = time_record clk (base (i % N))
          ∧ (b1 (i % N)).act = PIB_TRACE_ACT_TIMEDATE.val)
      ∧ ∀ k, k ≠ (i + anchors_due N HZ dev clk) % N →
          (anchors_due N HZ dev clk = 1 → k ≠ i % N) → b1 k = base k := by
  have hnew := append_new_trace_new N HZ dev base clk act entry i (by omega) hbase hi hr hne
  unfold anchors_due
  cases hd : time_record_due N HZ dev clk
  · simp only [hd, Bool.false_eq_true, if_false] at hnew ⊢
    refine ⟨Function.update base (i % N) (stored_record clk act entry), by rw [hnew], ?_, ?_⟩
    · rw [hnew]; simp
    · simp only [Nat.add_zero, Function.update_same, stored_record, hrep, true_and]
      refine ⟨by simp, ?_⟩
      intro k hk _
      exact Function.update_noteq hk _ _
  · simp only [hd, if_true] at hnew ⊢
    refine ⟨Function.update (Function.update base (i % N) (time_record clk (base (i % N))))
      ((i + 1) % N) (stored_record clk act entry), by rw [hnew], ?_, ?_⟩
    · rw [hnew]; push_cast; ring
    · simp only [Function.update_same, stored_record, hrep, true_and]
      refine ⟨?_, ?_⟩
      · intro _
        rw [Function.update_noteq (mod_succ_ne N i hN), Function.update_same]
        exact ⟨rfl, rfl⟩
      · intro k hk1 hk2
        rw [Function.update_noteq hk1, Function.update_noteq (hk2 trivial)]

/-- Witness of `placement_of_new_record`: the first append to a fresh ring of
4 slots puts a time record in slot 0 and the record in slot 1. -/
theorem placement_of_new_record_witness :
    anchors_due 4 1000 (register_dev 4) (sample_clock 0 100 1000) = 1
      ∧ ∃ b1, (append_new_trace 4 1000 (register_dev 4) (sample_clock 0 100 1000)
            PIB_TRACE_ACT_API (sample_entry 3)).trace_data = some b1
          ∧ (append_new_trace 4 1000 (register_dev 4) (sample_clock 0 100 1000)
            PIB_TRACE_ACT_API (sample_entry 3)).trace_index = 2
          ∧ (b1 1).act = 1 ∧ (b1 1).op = 3 ∧ (b1 1).repeat_ = 0 ∧ (b1 0).act = 8
          ∧ b1 2 = zero_entry ∧ b1 3 = zero_entry := by
  have ha : anchors_due 4 1000 (register_dev 4) (sample_clock 0 100 1000) = 1 := by decide
  obtain ⟨b1, h1, h2, _, h4, h5, _, _, h8, h9, h10⟩ :=
    placement_of_new_record 4 1000 (register_dev 4) (fun _ => zero_entry)
      (sample_clock 0 100 1000) PIB_TRACE_ACT_API (sample_entry 3) 0
      (by decide) rfl rfl (by decide) rfl (by decide)
  rw [ha] at h2 h4 h5 h8 h9 h10
  exact ⟨ha, b1, h1, h2, h4, h5, h8, (h9 rfl).2, h10 2 (by decide) (fun _ => by decide),
    h10 3 (by decide) (fun _ => by decide)⟩


/-! ## The time-record gate -/

theorem trace_open_retry_eq (N : Nat) (base : Nat → pib_trace_entry) (start : Nat)
    (hN : N ≤ 2147483647) (hs : start < N) :
    ∀ (r k : Nat), k + r = N →
      trace_open_retry N base start (r + 1) (k : Int) =
        some (((List.range' k r).find?
          (fun m => decide ((base ((start + m) % N)).act = PIB_TRACE_ACT_TIMEDATE.val))).map
            Int.ofNat) := by
  intro r
  induction r with
  | zero =>
    intro k hk
    have : (N : Int) ≤ (k : Int) := by omega
    simp [trace_open_retry, this]
  | succ r ih =>
    intro k hk
    have hlt : ¬ (N : Int) ≤ (k : Int) := by omega
    have hw : wrap_u32 (k : Int) = k := wrap_u32_of_range k (by omega)
    have hslot : info_slot N start (wrap_u32 (k : Int)) = (start + k) % N := by
      rw [hw, info_slot_of_range N start k (by omega)]
    have hnext : wrap_int ((k : Int) + 1) = ((k + 1 : Nat) : Int) := by
      rw [wrap_int_of_range _ (by omega) (by omega)]; push_cast; rfl
    rw [trace_open_retry]
    simp only [hlt, if_false, hslot, hnext]
    rw [List.range'_succ, List.find?_cons]
    by_cases hact : (base ((start + k) % N)).act = PIB_TRACE_ACT_TIMEDATE.val
    · simp [hact]
    · simp only [hact, ne_eq, not_false_eq_true, if_true, decide_False]
      exact ih (k + 1) (by omega)

theorem trace_open_eq (N : Nat) (dev : pib_dev) (base : Nat → pib_trace_entry) (i : Nat)
    (now_timespec : timespec) (now_timestamp : Nat) (seq_open_ret : Int)
    (hN : 0 < N) (hN2 : N ≤ 2147483647) (hbase : dev.trace_data = some base)
    (hi : dev.trace_index = (i : Int)) :
    trace_open N dev true now_timespec now_timestamp seq_open_ret =
      match first_time_record N base (i % N) with
      | none => .ret (-ENOENT)
      | some m =>
        if wrap_u64 ((now_timestamp : Int) - ((base ((i % N + m) % N)).timestamp : Int)) = 0 then
          .divide_error
        else if seq_open_ret ≠ 0 then .ret seq_open_ret
        else .opened (opened_info N base (i % N) m now_timespec now_timestamp) := by
  have hstart : wrap_u32 (Int.tmod (i : Int) (N : Int)) = i % N := by
    rw [Int.tmod_eq_emod (by positivity) (by positivity), ← Int.natCast_mod]
    exact wrap_u32_of_range _ (by have := Nat.mod_lt i hN; omega)
  have hscan := trace_open_retry_eq N base (i % N) hN2 (Nat.mod_lt i hN) N 0 (by omega)
  unfold trace_open
  simp only [hbase, hi, hstart, Bool.not_true, Bool.false_eq_true, if_false]
  have h0 : ((0 : Nat) : Int) = 0 := rfl
  rw [h0] at hscan
  rw [hscan]
  unfold first_time_record
  rw [List.range_eq_range']
  cases hf : (List.range' 0 N).find?
      (fun m => decide ((base ((i % N + m) % N)).act = PIB_TRACE_ACT_TIMEDATE.val)) with
  | none => simp
  | some m =>
    have hm : m < N := by
      have := List.mem_of_find?_eq_some hf
      rw [List.mem_range'_1] at this
      omega
    have hw : wrap_u32 (Int.ofNat m) = m := wrap_u32_of_range m (by omega)
    have hslot : info_slot N (i % N) m = (i % N + m) % N :=
      info_slot_of_range N _ _ (by have := Nat.mod_lt i hN; omega)
    simp only [Option.map_some', hw, hslot, opened_info]


theorem offset_of_slot (N s k : Nat) (hs : s < N) (hk : k < N) :
    ∃ m, m < N ∧ (s + m) % N = k := by
  by_cases h : s ≤ k
  · exact ⟨k - s, by omega, by rw [show s + (k - s) = k by omega, Nat.mod_eq_of_lt hk]⟩
  · refine ⟨k + N - s, by omega, ?_⟩
    rw [show s + (k + N - s) = k + N by omega, Nat.add_mod_right, Nat.mod_eq_of_lt hk]

theorem first_time_record_eq_none (N : Nat) (base : Nat → pib_trace_entry) (s : Nat)
    (hs : s < N) :
    first_time_record N base s = none ↔
      ∀ k, k < N → (base k).act ≠ PIB_TRACE_ACT_TIMEDATE.val := by
  unfold first_time_record
  rw [List.find?_eq_none]
  constructor
  · intro h k hk
    obtain ⟨m, hm, hmk⟩ := offset_of_slot N s k hs hk
    have := h m (List.mem_range.mpr hm)
    rw [hmk] at this
    simpa using this
  · intro h m hm
    have hN : 0 < N := by omega
    simpa using h ((s + m) % N) (Nat.mod_lt _ hN)

/-! ## Unavailable snapshot -/

/-- C6. Unavailable snapshot. For every ring whose buffer is present (the
counter not negative, `kzalloc` succeeding and `seq_open` returning 0 or
`-ENOMEM`), `trace_open` returns `-ENOENT` if and only if none of the `N`
slots holds a record of kind `PIB_TRACE_ACT_TIMEDATE`; in particular it
returns `-ENOENT` on the ring as `register_dev` leaves it. -/
theorem unavailable_snapshot (N : Nat) (dev : pib_dev) (base : Nat → pib_trace_entry) (i : Nat)
    (now_timespec : timespec) (now_timestamp : Nat) (seq_open_ret : Int)
    (hN : 0 < N) (hN2 : N ≤ 2147483647) (hbase : dev.trace_data = some base)
    (hi : dev.trace_index = (i : Int)) (hseq : seq_open_ret = 0 ∨ seq_open_ret = -ENOMEM) :
    (trace_open N dev true now_timespec now_timestamp seq_open_ret = .ret (-ENOENT) ↔
        ∀ k, k < N → (base k).act ≠ PIB_TRACE_ACT_TIMEDATE.val)
      ∧ trace_open N (register_dev N) true now_timespec now_timestamp seq_open_ret
          = .ret (-ENOENT) := by
  have key : ∀ (d : pib_dev) (b : Nat → pib_trace_entry) (j : Nat), d.trace_data = some b →
      d.trace_index = (j : Int) →
      (trace_open N d true now_timespec now_timestamp seq_open_ret = .ret (-ENOENT) ↔
        ∀ k, k < N → (b k).act ≠ PIB_TRACE_ACT_TIMEDATE.val) := by
    intro d b j hb hj
    rw [trace_open_eq N d b j now_timespec now_timestamp seq_open_ret hN hN2 hb hj,
      ← first_time_record_eq_none N b (j % N) (Nat.mod_lt j hN)]
    cases hf : first_time_record N b (j % N) with
    | none => simp
    | some m =>
      simp only [reduceCtorEq, iff_false]
      split_ifs with h1 h2
      · simp
      · intro h
        injection h with h
        rcases hseq with h0 | h0
        · exact h2 h0
        · rw [h0] at h; simp [ENOMEM, ENOENT] at h
      · simp
  refine ⟨key dev base i hbase hi, ?_⟩
  rw [key (register_dev N) (fun _ => zero_entry) 0 rfl rfl]
  intro k _
  simp [zero_entry, pib_trace_act.val]

/-- Witness of `unavailable_snapshot` on a ring of 4 slots that holds two
records and no time record. -/
theorem unavailable_snapshot_witness :
    trace_open 4
        { trace_data := some (fun k => if k < 2 then stored_record (sample_clock 0 100 1000)
            PIB_TRACE_ACT_API (sample_entry k) else zero_entry),
          trace_index := 2, last_record_time := 0, last_record_time_index := 0 }
        true { tv_sec := 200, tv_nsec := 0 } 5000 0 = .ret (-ENOENT) :=
  ((unavailable_snapshot 4 _ (fun k => if k < 2 then stored_record (sample_clock 0 100 1000)
      PIB_TRACE_ACT_API (sample_entry k) else zero_entry) 2 { tv_sec := 200, tv_nsec := 0 } 5000 0
    (by decide) (by decide) rfl rfl (Or.inl rfl)).1).2
    (fun k _ => by by_cases h : k < 2 <;> simp [h, stored_record, zero_entry, pib_trace_act.val])


/-! ## The anchor chosen at open -/

theorem find_range'_some (p : Nat → Bool) :
    ∀ (r k m : Nat), (List.range' k r).find? p = some m →
      k ≤ m ∧ m < k + r ∧ p m = true ∧ ∀ j, k ≤ j → j < m → p j = false := by
  intro r
  induction r with
  | zero => intro k m h; simp at h
  | succ r ih =>
    intro k m h
    rw [List.range'_succ, List.find?_cons] at h
    cases hp : p k with
    | true =>
      rw [hp] at h
      injection h with h
      subst h
      exact ⟨le_refl _, by omega, hp, fun j h1 h2 => by omega⟩
    | false =>
      rw [hp] at h
      obtain ⟨h1, h2, h3, h4⟩ := ih (k + 1) m h
      refine ⟨by omega, by omega, h3, fun j hj1 hj2 => ?_⟩
      by_cases hjk : j = k
      · rw [hjk]; exact hp
      · exact h4 j (by omega) hj2

theorem first_time_record_some (N : Nat) (base : Nat → pib_trace_entry) (s m : Nat)
    (h : first_time_record N base s = some m) :
    m < N ∧ (base ((s + m) % N)).act = PIB_TRACE_ACT_TIMEDATE.val
      ∧ ∀ j, j < m → (base ((s + j) % N)).act ≠ PIB_TRACE_ACT_TIMEDATE.val := by
  unfold first_time_record at h
  rw [List.range_eq_range'] at h
  obtain ⟨_, h2, h3, h4⟩ := find_range'_some _ N 0 m h
  refine ⟨by omega, by simpa using h3, fun j hj => ?_⟩
  simpa using h4 j (Nat.zero_le _) hj

/-- C7, as the claim states it, fails. A ring of 4 slots after two appends
holds `time(100 s), E0, time(101 s), E1`; the tail is slot 0. `trace_open`
takes its basis (100 s, 1000 cycles) from the time record in slot 0, while the
time record appended most recently, the first one met scanning backward from
the tail, is in slot 2 and carries (101 s, 1010 cycles). -/
theorem open_basis_is_not_newest :
    trace_open 4 (append_all 4 1000 (register_dev 4) (sample_calls 2)) true
        { tv_sec := 200, tv_nsec := 0 } 5000 0
      = .opened
          { start := 0, index := 0, base_timespec := { tv_sec := 100, tv_nsec := 5 },
            base_timestamp := 1000, tsc_ratio := 1638399999918 }
    ∧ (append_all 4 1000 (register_dev 4) (sample_calls 2)).trace_data.map
        (fun b => (newest_time_record 4 b 0, timedate_time (b 2).u, (b 2).timestamp))
      = some (some 2, { tv_sec := 101, tv_nsec := 5 }, 1010) := by
  decide

/-- C7, amended. For every ring that holds at least one time record,
`trace_open` stops its scan at the first time record met when scanning
forward from the tail slot, that is the oldest one in playback order: no slot
at a smaller offset holds a time record. The basis it records is the wall
time and cycle stamp of that record, the ratio is computed from that basis,
and the cursor is left on that record. (The open ends in a division by zero
when the reader's cycle sample equals that stamp, and returns the error of
`seq_open` when that fails.) -/
theorem anchor_chosen_at_open (N : Nat) (dev : pib_dev) (base : Nat → pib_trace_entry)
    (i : Nat) (now_timespec : timespec) (now_timestamp : Nat) (seq_open_ret : Int)
    (hN : 0 < N) (hN2 : N ≤ 2147483647) (hbase : dev.trace_data = some base)
    (hi : dev.trace_index = (i : Int))
    (hanchor : ∃ k, k < N ∧ (base k).act = PIB_TRACE_ACT_TIMEDATE.val) :
    ∃ m, m < N
      ∧ (base ((i % N + m) % N)).act = PIB_TRACE_ACT_TIMEDATE.val
      ∧ (∀ j, j < m → (base ((i % N + j) % N)).act ≠ PIB_TRACE_ACT_TIMEDATE.val)
      ∧ trace_open N dev true now_timespec now_timestamp seq_open_ret
          = (if wrap_u64 ((now_timestamp : Int) - ((base ((i % N + m) % N)).timestamp : Int)) = 0
              then .divide_error
            else if seq_open_ret ≠ 0 then .ret seq_open_ret
            else .opened (opened_info N base (i % N) m now_timespec now_timestamp))
      ∧ (opened_info N base (i % N) m now_timespec now_timestamp).index = m
      ∧ (opened_info N base (i % N) m now_timespec now_timestamp).base_timespec
          = timedate_time (base ((i % N + m) % N)).u
      ∧ (opened_info N base (i % N) m now_timespec now_timestamp).base_timestamp
          = (base ((i % N + m) % N)).timestamp
      ∧ (opened_info N base (i % N) m now_timespec now_timestamp).tsc_ratio
          = wrap_u64 ((PIB_TSC_RATIO_BIAS : Int)
              * (duration_ns now_timespec (timedate_time (base ((i % N + m) % N)).u) : Int))
            / wrap_u64 ((now_timestamp : Int) - ((base ((i % N + m) % N)).timestamp : Int)) := by
  have hopen := trace_open_eq N dev base i now_timespec now_timestamp seq_open_ret hN hN2 hbase hi
  cases hf : first_time_record N base (i % N) with
  | none =>
    rw [first_time_record_eq_none N base (i % N) (Nat.mod_lt i hN)] at hf
    obtain ⟨k, hk, hk2⟩ := hanchor
    exact absurd hk2 (hf k hk)
  | some m =>
    obtain ⟨h1, h2, h3⟩ := first_time_record_some N base (i % N) m hf
    rw [hf] at hopen
    exact ⟨m, h1, h2, h3, hopen, rfl, rfl, rfl, rfl⟩

/-- Witness of `anchor_chosen_at_open` on a ring of 4 slots whose slot 1
holds the only time record. -/
theorem anchor_chosen_at_open_witness :
    ∃ m, m < 4
      ∧ trace_open 4
          { trace_data := some (fun k => if k = 1 then time_record (sample_clock 0 100 1000)
              zero_entry else zero_entry),
            trace_index := 2, last_record_time := 0, last_record_time_index := 1 }
          true { tv_sec := 200, tv_nsec := 0 } 5000 0
        = .opened (opened_info 4 (fun k => if k = 1 then time_record (sample_clock 0 100 1000)
              zero_entry else zero_entry) (2 % 4) m { tv_sec := 200, tv_nsec := 0 } 5000) := by
  obtain ⟨m, h1, h2, _, h4, _⟩ := anchor_chosen_at_open 4
    { trace_data := some (fun k => if k = 1 then time_record (sample_clock 0 100 1000)
        zero_entry else zero_entry),
      trace_index := 2, last_record_time := 0, last_record_time_index := 1 }
    (fun k => if k = 1 then time_record (sample_clock 0 100 1000) zero_entry else zero_entry)
    2 { tv_sec := 200, tv_nsec := 0 } 5000 0 (by decide) (by decide) rfl rfl
    ⟨1, by decide, by decide⟩
  refine ⟨m, h1, ?_⟩
  rw [h4]
  have hm : m = 0 ∨ m = 1 ∨ m = 2 ∨ m = 3 := by omega
  rcases hm with h | h | h | h <;> subst h
  · exact absurd h2 (by decide)
  · exact absurd h2 (by decide)
  · exact absurd h2 (by decide)
  · rfl


/-! ## Time arithmetic -/

theorem normalize_nsec_eq (n : Nat) :
    ∀ t : timespec, 0 ≤ t.tv_nsec → (t.tv_nsec / 1000000000).toNat = n →
      -9223372036854775808 ≤ t.tv_sec →
      t.tv_sec + t.tv_nsec / 1000000000 ≤ 9223372036854775807 →
      normalize_nsec t
        = { tv_sec := t.tv_sec + t.tv_nsec / 1000000000, tv_nsec := t.tv_nsec % 1000000000 } := by
  induction n with
  | zero =>
    intro t h0 hn _ _
    rw [normalize_nsec]
    have hlt : ¬ (1000000000 ≤ t.tv_nsec) := by omega
    simp only [hlt, if_false]
    have h1 : t.tv_nsec / 1000000000 = 0 := by omega
    have h2 : t.tv_nsec % 1000000000 = t.tv_nsec := by omega
    rw [h1, h2, add_zero]
  | succ n ih =>
    intro t h0 hn hs1 hs2
    rw [normalize_nsec]
    have hge : 1000000000 ≤ t.tv_nsec := by omega
    simp only [hge, if_true]
    have hw : wrap_long (t.tv_sec + 1) = t.tv_sec + 1 :=
      wrap_long_of_range _ (by omega) (by omega)
    rw [hw, ih { tv_sec := t.tv_sec + 1, tv_nsec := t.tv_nsec - 1000000000 }
      (by simp only; omega) (by simp only; omega) (by simp only; omega) (by simp only; omega)]
    simp only
    congr 1 <;> omega

theorem wrap_u64_cast (x : Int) : ((wrap_u64 x : Nat) : Int) = x % 18446744073709551616 := by
  unfold wrap_u64
  exact Int.toNat_of_nonneg (Int.emod_nonneg _ (by decide))

theorem wrap_long_emod (x : Int) :
    wrap_long x % 18446744073709551616 = x % 18446744073709551616 := by
  unfold wrap_long
  omega

theorem duration_ns_eq (now base : timespec)
    (h0 : 0 ≤ (now.tv_sec - base.tv_sec) * 1000000000 + (now.tv_nsec - base.tv_nsec))
    (h1 : (now.tv_sec - base.tv_sec) * 1000000000 + (now.tv_nsec - base.tv_nsec)
      < 18446744073709551616) :
    (duration_ns now base : Int)
      = (now.tv_sec - base.tv_sec) * 1000000000 + (now.tv_nsec - base.tv_nsec) := by
  unfold duration_ns
  rw [wrap_u64_cast, wrap_u64_cast, wrap_u64_cast]
  rw [wrap_u64_cast, wrap_long_emod, wrap_long_emod]
  generalize now.tv_sec - base.tv_sec = ds at h0 h1 ⊢
  generalize now.tv_nsec - base.tv_nsec = dn at h0 h1 ⊢
  omega


/-- C9. Estimated wall time. For the record `trace_seq_show` renders, with
cycle stamp `c`, a basis `(baseSec, baseNsec, baseCycles)` with
`0 <= baseNsec < 10^9` and `baseCycles <= c`, and a ratio `R`, without 64-bit
overflow (`c < 2^64`, `(c - baseCycles) * R < 2^64`, the seconds staying a
`long`), the time `(sec, nsec)` handed to `show_timespec` satisfies
`sec * 10^9 + nsec = baseSec * 10^9 + baseNsec + (c - baseCycles) * R / 65536`
and `0 <= nsec < 10^9`. The normalising loop `normalize_nsec` is a total
function: it terminates on every input. -/
theorem estimated_wall_time (N : Nat) (base : Nat → pib_trace_entry) (info : pib_trace_info)
    (hns0 : 0 ≤ info.base_timespec.tv_nsec) (hns1 : info.base_timespec.tv_nsec < 1000000000)
    (hc : info.base_timestamp ≤ (base (info_slot N info.start info.index)).timestamp)
    (hc2 : (base (info_slot N info.start info.index)).timestamp < 18446744073709551616)
    (hmul : ((base (info_slot N info.start info.index)).timestamp - info.base_timestamp)
      * info.tsc_ratio < 18446744073709551616)
    (hsec0 : -9223372036854775808 ≤ info.base_timespec.tv_sec)
    (hsec1 : info.base_timespec.tv_sec
      + (info.base_timespec.tv_nsec
          + ((((base (info_slot N info.start info.index)).timestamp - info.base_timestamp)
              * info.tsc_ratio / 65536 : Nat) : Int)) / 1000000000 ≤ 9223372036854775807) :
    (trace_seq_show N base info).time.tv_sec * 1000000000
        + (trace_seq_show N base info).time.tv_nsec
      = info.base_timespec.tv_sec * 1000000000 + info.base_timespec.tv_nsec
        + ((((base (info_slot N info.start info.index)).timestamp - info.base_timestamp)
            * info.tsc_ratio / 65536 : Nat) : Int)
    ∧ 0 ≤ (trace_seq_show N base info).time.tv_nsec
    ∧ (trace_seq_show N base info).time.tv_nsec < 1000000000 := by
  generalize hcdef : (base (info_slot N info.start info.index)).timestamp = c at *
  have htime : (trace_seq_show N base info).time = show_time info c := by
    unfold trace_seq_show; simp only [hcdef]
  rw [htime]
  unfold show_time
  have h1 : wrap_u64 ((c : Int) - (info.base_timestamp : Int)) = c - info.base_timestamp := by
    rw [show (c : Int) - (info.base_timestamp : Int) = ((c - info.base_timestamp : Nat) : Int) by
      omega]
    exact wrap_u64_of_range _ (by omega)
  have h2 : wrap_u64 (((c - info.base_timestamp : Nat) : Int) * (info.tsc_ratio : Int))
      = (c - info.base_timestamp) * info.tsc_ratio := by
    rw [show ((c - info.base_timestamp : Nat) : Int) * (info.tsc_ratio : Int)
      = (((c - info.base_timestamp) * info.tsc_ratio : Nat) : Int) by push_cast; rfl]
    exact wrap_u64_of_range _ hmul
  simp only [h1, h2, PIB_TSC_RATIO_BIAS]
  generalize hd : (c - info.base_timestamp) * info.tsc_ratio / 65536 = delta at *
  have hdelta : delta < 281474976710656 := by
    rw [← hd]; omega
  have hw : wrap_long (info.base_timespec.tv_nsec + (delta : Int))
      = info.base_timespec.tv_nsec + (delta : Int) :=
    wrap_long_of_range _ (by omega) (by omega)
  rw [hw, normalize_nsec_eq _ _ (by simp only; omega) rfl (by simp only; omega)
    (by simp only; omega)]
  simp only
  omega

/-- Witness of `estimated_wall_time`: basis (100 s, 999999999 ns, 1000
cycles), ratio 65536 (one nanosecond per cycle), a record at 1011 cycles. -/
theorem estimated_wall_time_witness :
    (trace_seq_show 4 (fun _ => { zero_entry with act := 1, timestamp := 1011 })
        { start := 0, index := 0, base_timespec := { tv_sec := 100, tv_nsec := 999999999 },
          base_timestamp := 1000, tsc_ratio := 65536 }).time.tv_sec * 1000000000
      + (trace_seq_show 4 (fun _ => { zero_entry with act := 1, timestamp := 1011 })
        { start := 0, index := 0, base_timespec := { tv_sec := 100, tv_nsec := 999999999 },
          base_timestamp := 1000, tsc_ratio := 65536 }).time.tv_nsec
      = 101000000010 :=
  (estimated_wall_time 4 (fun _ => { zero_entry with act := 1, timestamp := 1011 })
    { start := 0, index := 0, base_timespec := { tv_sec := 100, tv_nsec := 999999999 },
      base_timestamp := 1000, tsc_ratio := 65536 }
    (by decide) (by decide) (by decide) (by decide) (by decide) (by decide) (by decide)).1

/-- C10. Ratio computation. When `trace_open` succeeds with the cursor `info`,
the reader's cycle sample is later than the basis (`base_timestamp <
now_timestamp < 2^64`) and the elapsed wall time
`D = (nowSec - baseSec) * 10^9 + (nowNsec - baseNsec)` satisfies `0 <= D` and
`65536 * D < 2^64`, then `tsc_ratio = 65536 * D / (now_timestamp -
base_timestamp)`, rounded down; the sign of `nowNsec - baseNsec` plays no
part. -/
theorem ratio_computation (N : Nat) (dev : pib_dev) (base : Nat → pib_trace_entry) (i : Nat)
    (now_timespec : timespec) (now_timestamp : Nat) (info : pib_trace_info)
    (hN : 0 < N) (hN2 : N ≤ 2147483647) (hbase : dev.trace_data = some base)
    (hi : dev.trace_index = (i : Int))
    (hopen : trace_open N dev true now_timespec now_timestamp 0 = .opened info)
    (hts : now_timestamp < 18446744073709551616) (hlater : info.base_timestamp < now_timestamp)
    (hD0 : 0 ≤ (now_timespec.tv_sec - info.base_timespec.tv_sec) * 1000000000
      + (now_timespec.tv_nsec - info.base_timespec.tv_nsec))
    (hD1 : 65536 * ((now_timespec.tv_sec - info.base_timespec.tv_sec) * 1000000000
      + (now_timespec.tv_nsec - info.base_timespec.tv_nsec)) < 18446744073709551616) :
    (info.tsc_ratio : Int)
      = 65536 * ((now_timespec.tv_sec - info.base_timespec.tv_sec) * 1000000000
          + (now_timespec.tv_nsec - info.base_timespec.tv_nsec))
        / ((now_timestamp : Int) - (info.base_timestamp : Int)) := by
  rw [trace_open_eq N dev base i now_timespec now_timestamp 0 hN hN2 hbase hi] at hopen
  cases hf : first_time_record N base (i % N) with
  | none => rw [hf] at hopen; simp at hopen
  | some m =>
    rw [hf] at hopen
    simp only [ne_eq, not_true_eq_false, if_false] at hopen
    split_ifs at hopen with hz
    injection hopen with hinfo
    subst hinfo
    simp only [opened_info] at hlater hD0 hD1 ⊢
    generalize (base ((i % N + m) % N)).timestamp = bts at *
    generalize timedate_time (base ((i % N + m) % N)).u = bt at *
    rw [Int.natCast_ediv, wrap_u64_cast, wrap_u64_cast, duration_ns_eq now_timespec bt hD0 (by omega)]
    simp only [PIB_TSC_RATIO_BIAS, Nat.cast_ofNat]
    rw [Int.emod_eq_of_lt (by omega) hD1, Int.emod_eq_of_lt (by omega) (by omega)]
    rfl


/-- Witness of `ratio_computation`: a time record (100 s, 5 ns, 1000 cycles)
in slot 1 and a reader sample (200 s, 0 ns, 5000 cycles), so with
`nowNsec < baseNsec`; the ratio is `65536 * 99999999995 / 4000`. -/
theorem ratio_computation_witness :
    ((1638399999918 : Nat) : Int)
      = 65536 * (((200 : Int) - 100) * 1000000000 + ((0 : Int) - 5))
        / (((5000 : Nat) : Int) - ((1000 : Nat) : Int)) :=
  ratio_computation 4
    { trace_data := some (fun k => if k = 1 then time_record (sample_clock 0 100 1000)
        zero_entry else zero_entry),
      trace_index := 2, last_record_time := 0, last_record_time_index := 1 }
    (fun k => if k = 1 then time_record (sample_clock 0 100 1000) zero_entry else zero_entry)
    2 { tv_sec := 200, tv_nsec := 0 } 5000
    { start := 2, index := 3, base_timespec := { tv_sec := 100, tv_nsec := 5 },
      base_timestamp := 1000, tsc_ratio := 1638399999918 }
    (by decide) (by decide) rfl rfl (by decide) (by decide) (by decide) (by decide) (by decide)


/-! ## The traversal -/

theorem seq_loop_entries (N : Nat) (base : Nat → pib_trace_entry) (s : Nat)
    (hN2 : N ≤ 2147483647) (hs : s < N) :
    ∀ (r m : Nat) (info : pib_trace_info) (fuel : Nat), m + r + 1 = N → info.start = s →
      info.index = m → r + 1 ≤ fuel →
      (∀ k, m ≤ k → k < N → 1 ≤ (base ((s + k) % N)).act ∧ (base ((s + k) % N)).act ≤ 9) →
      ∃ lines info1, seq_loop N base fuel info = some (lines, info1)
        ∧ lines.map (fun l => l.entry)
            = (List.range' m (r + 1)).map (fun k => base ((s + k) % N)) := by
  intro r
  induction r with
  | zero =>
    intro m info fuel hm hst hidx hfuel hact
    obtain ⟨f, rfl⟩ : ∃ f, fuel = f + 1 := ⟨fuel - 1, by omega⟩
    have hslot : info_slot N info.start info.index = (s + m) % N := by
      rw [hst, hidx, info_slot_of_range N s m (by omega)]
    have ha := hact m (le_refl _) (by omega)
    have hbug : (trace_seq_show N base info).bug = false := by
      simp only [trace_seq_show, hslot, decide_eq_false_iff_not]; omega
    have hw : wrap_u32 ((info.index : Int) + 1) = m + 1 := by
      rw [hidx]; exact_mod_cast wrap_u32_of_range (m + 1) (by omega)
    have hnext : (trace_seq_next N base info).2 = false := by
      simp only [trace_seq_next, hw]
      rw [if_pos (by omega)]
    rw [seq_loop]
    simp only [hbug, Bool.false_eq_true, if_false]
    cases hn : trace_seq_next N base info with
    | mk info1 b =>
      rw [hn] at hnext
      simp only at hnext
      subst hnext
      refine ⟨_, _, rfl, ?_⟩
      simp [trace_seq_show, hslot]
  | succ r ih =>
    intro m info fuel hm hst hidx hfuel hact
    obtain ⟨f, rfl⟩ : ∃ f, fuel = f + 1 := ⟨fuel - 1, by omega⟩
    have hslot : info_slot N info.start info.index = (s + m) % N := by
      rw [hst, hidx, info_slot_of_range N s m (by omega)]
    have ha := hact m (le_refl _) (by omega)
    have hbug : (trace_seq_show N base info).bug = false := by
      simp only [trace_seq_show, hslot, decide_eq_false_iff_not]; omega
    have hw : wrap_u32 ((info.index : Int) + 1) = m + 1 := by
      rw [hidx]; exact_mod_cast wrap_u32_of_range (m + 1) (by omega)
    have hslot1 : info_slot N info.start (m + 1) = (s + (m + 1)) % N := by
      rw [hst, info_slot_of_range N s (m + 1) (by omega)]
    have ha1 := hact (m + 1) (by omega) (by omega)
    have hnext : (trace_seq_next N base info).2 = true
        ∧ (trace_seq_next N base info).1.start = s
        ∧ (trace_seq_next N base info).1.index = m + 1 := by
      simp only [trace_seq_next, hw, hslot1]
      rw [if_neg (by omega), if_neg (by simp only [pib_trace_act.val]; omega)]
      split_ifs <;> exact ⟨rfl, hst, rfl⟩
    rw [seq_loop]
    simp only [hbug, Bool.false_eq_true, if_false]
    cases hn : trace_seq_next N base info with
    | mk info1 b =>
      rw [hn] at hnext
      simp only at hnext
      obtain ⟨hb, hst1, hidx1⟩ := hnext
      subst hb
      obtain ⟨lines, info2, hl, hmap⟩ := ih (m + 1) info1 f (by omega) hst1 hidx1 (by omega)
        (fun k hk1 hk2 => hact k (by omega) hk2)
      simp only [hl]
      refine ⟨_, _, rfl, ?_⟩
      rw [List.map_cons, hmap, List.range'_succ m (r + 1), List.map_cons]
      simp [trace_seq_show, hslot]


theorem playback_entries (N : Nat) (dev : pib_dev) (base : Nat → pib_trace_entry) (i m : Nat)
    (now_timespec : timespec) (now_timestamp : Nat)
    (hN : 0 < N) (hN2 : N ≤ 2147483647) (hbase : dev.trace_data = some base)
    (hi : dev.trace_index = (i : Int))
    (hm : first_time_record N base (i % N) = some m)
    (hdiv : wrap_u64 ((now_timestamp : Int) - ((base ((i % N + m) % N)).timestamp : Int)) ≠ 0)
    (hact : ∀ k, m ≤ k → k < N →
      1 ≤ (base ((i % N + k) % N)).act ∧ (base ((i % N + k) % N)).act ≤ 9) :
    ∃ lines, playback N dev now_timespec now_timestamp = some lines
      ∧ lines.map (fun l => l.entry)
          = (List.range' m (N - m)).map (fun k => base ((i % N + k) % N)) := by
  have hopen := trace_open_eq N dev base i now_timespec now_timestamp 0 hN hN2 hbase hi
  rw [hm] at hopen
  simp only [hdiv, if_false, ne_eq, not_true_eq_false] at hopen
  obtain ⟨hmN, _, _⟩ := first_time_record_some N base (i % N) m hm
  obtain ⟨lines, info1, hl, hmap⟩ := seq_loop_entries N base (i % N) hN2 (Nat.mod_lt i hN)
    (N - m - 1) m (opened_info N base (i % N) m now_timespec now_timestamp) (N + 1)
    (by omega) rfl rfl (by omega) hact
  refine ⟨lines, ?_, ?_⟩
  · unfold playback
    rw [hopen, hbase]
    simp only [seq_traverse, trace_seq_start]
    rw [if_neg (by simp only [opened_info]; omega)]
    simp only [hl, Option.map_some']
  · rw [hmap, show N - m - 1 + 1 = N - m by omega]

/-! ## Playback start -/

/-- C8, as the claim states it, fails. A ring of 3 slots after two appends is
full: slot 0 holds E1, slot 1 holds E0, slot 2 the second time record; the
counter is 4, so the tail slot is slot 1. Playback emits the time record of
slot 2 and then E1: its first line is not for the record in the tail slot, and
the retained record E0 is not emitted. -/
theorem playback_skips_tail_slot :
    (append_all 3 1000 (register_dev 3) (sample_calls 2)).trace_index = 4
    ∧ (append_all 3 1000 (register_dev 3) (sample_calls 2)).trace_data.map
        (fun b => [((b 0).act, (b 0).op), ((b 1).act, (b 1).op), ((b 2).act, (b 2).op)])
      = some [(1, 1), (1, 0), (8, 0)]
    ∧ (playback 3 (append_all 3 1000 (register_dev 3) (sample_calls 2))
          { tv_sec := 200, tv_nsec := 0 } 5000).map
        (fun lines => lines.map (fun l => (l.entry.act, l.entry.op)))
      = some [(8, 0), (1, 1)] := by
  decide

/-- C8, amended. Iteration runs oldest to newest and starts at the first time
record at or after the tail slot. For every full ring (every slot of a kind
API .. BOOKMARK) that holds a time record, read with a cycle sample that
differs from that record's stamp, there is an offset `m < N`, the offset from
the tail slot `i mod N` of the first time record, such that playback emits
exactly the records of the slots `(i + m) mod N, .., (i + N - 1) mod N`, in
that order: the first line is for that time record, and the `m` records
between the tail slot and it are not emitted. -/
theorem playback_start (N : Nat) (dev : pib_dev) (base : Nat → pib_trace_entry) (i : Nat)
    (now_timespec : timespec) (now_timestamp : Nat)
    (hN : 0 < N) (hN2 : N ≤ 2147483647) (hbase : dev.trace_data = some base)
    (hi : dev.trace_index = (i : Int))
    (hfull : ∀ k, k < N → 1 ≤ (base k).act ∧ (base k).act ≤ 9)
    (hanchor : ∃ k, k < N ∧ (base k).act = PIB_TRACE_ACT_TIMEDATE.val)
    (hdiv : ∀ k, k < N → (base k).act = PIB_TRACE_ACT_TIMEDATE.val →
      wrap_u64 ((now_timestamp : Int) - ((base k).timestamp : Int)) ≠ 0) :
    ∃ m lines, m < N
      ∧ (base ((i % N + m) % N)).act = PIB_TRACE_ACT_TIMEDATE.val
      ∧ (∀ j, j < m → (base ((i % N + j) % N)).act ≠ PIB_TRACE_ACT_TIMEDATE.val)
      ∧ playback N dev now_timespec now_timestamp = some lines
      ∧ lines.map (fun l => l.entry)
          = (List.range' m (N - m)).map (fun k => base ((i % N + k) % N))
      ∧ lines.length = N - m
      ∧ (lines.head?.map (fun l => l.entry)) = some (base ((i % N + m) % N)) := by
  cases hf : first_time_record N base (i % N) with
  | none =>
    rw [first_time_record_eq_none N base (i % N) (Nat.mod_lt i hN)] at hf
    obtain ⟨k, hk, hk2⟩ := hanchor
    exact absurd hk2 (hf k hk)
  | some m =>
    obtain ⟨h1, h2, h3⟩ := first_time_record_some N base (i % N) m hf
    obtain ⟨lines, hp, hmap⟩ := playback_entries N dev base i m now_timespec now_timestamp
      hN hN2 hbase hi hf (hdiv _ (Nat.mod_lt _ hN) h2)
      (fun k _ _ => hfull _ (Nat.mod_lt _ hN))
    have hlen : lines.length = N - m := by
      have := congrArg List.length hmap
      simpa using this
    refine ⟨m, lines, h1, h2, h3, hp, hmap, hlen, ?_⟩
    have hh := congrArg List.head? hmap
    rw [List.head?_map] at hh
    rw [hh, show N - m = (N - m - 1) + 1 by omega, List.range'_succ]
    rfl


/-- Witness of `playback_start`: the full ring `sample_ring` with counter 4,
so with tail slot 1; playback emits 2 of the 3 records, the first of them the
time record of slot 2. -/
theorem playback_start_witness :
    ∃ lines, playback 3
        { trace_data := some sample_ring, trace_index := 4, last_record_time := 0,
          last_record_time_index := 2 } { tv_sec := 200, tv_nsec := 0 } 5000 = some lines
      ∧ lines.length = 2
      ∧ lines.head?.map (fun l => l.entry) = some (sample_ring 2) := by
  obtain ⟨m, lines, h1, h2, h3, h4, _, h6, h7⟩ := playback_start 3
    { trace_data := some sample_ring, trace_index := 4, last_record_time := 0,
      last_record_time_index := 2 } sample_ring 4 { tv_sec := 200, tv_nsec := 0 } 5000
    (by decide) (by decide) rfl rfl
    (by intro k hk; interval_cases k <;> decide)
    ⟨2, by decide, by decide⟩
    (by intro k hk; interval_cases k <;> decide)
  have hm : m = 1 := by
    have hm3 : m = 0 ∨ m = 1 ∨ m = 2 := by omega
    rcases hm3 with h | h | h
    · subst h; exact absurd h2 (by decide)
    · exact h
    · subst h; exact absurd (h3 1 (by decide)) (by decide)
  subst hm
  exact ⟨lines, h4, h6, h7⟩


/-! ## The ring as a window on the log of slot writes -/

theorem ring_write_append (N : Nat) (l1 l2 : List pib_trace_entry) :
    ∀ (base : Nat → pib_trace_entry) (i : Nat),
      ring_write N base i (l1 ++ l2)
        = ring_write N (ring_write N base i l1) (i + l1.length) l2 := by
  induction l1 with
  | nil => intro base i; simp [ring_write]
  | cons e es ih =>
    intro base i
    rw [List.cons_append]
    simp only [ring_write, List.length_cons]
    rw [ih, show i + 1 + es.length = i + (es.length + 1) by omega]

theorem ring_write_untouched (N : Nat) (l : List pib_trace_entry) :
    ∀ (base : Nat → pib_trace_entry) (i q : Nat),
      (∀ j, j < l.length → (i + j) % N ≠ q) → ring_write N base i l q = base q := by
  induction l with
  | nil => intro base i q _; rfl
  | cons e es ih =>
    intro base i q h
    simp only [ring_write]
    rw [ih _ (i + 1) q (fun j hj => by
      have := h (j + 1) (by simp only [List.length_cons]; omega)
      rwa [show i + (j + 1) = i + 1 + j by omega] at this)]
    have h0 := h 0 (by simp)
    rw [Nat.add_zero] at h0
    exact Function.update_noteq (Ne.symm h0) _ _

theorem mod_add_ne (N i d : Nat) (h1 : 0 < d) (h2 : d < N) : (i + d) % N ≠ i % N := by
  intro h
  have e1 := Nat.mod_add_div i N
  have e2 := Nat.mod_add_div (i + d) N
  rw [h] at e2
  have hlt := Nat.mod_lt i (by omega : 0 < N)
  have : N * ((i + d) / N) = N * (i / N) + d := by omega
  rcases Nat.lt_trichotomy ((i + d) / N) (i / N) with hc | hc | hc
  · have := Nat.mul_le_mul_left N (Nat.succ_le_of_lt hc)
    rw [Nat.mul_succ] at this
    omega
  · rw [hc] at this; omega
  · have := Nat.mul_le_mul_left N (Nat.succ_le_of_lt hc)
    rw [Nat.mul_succ] at this
    omega

theorem ring_write_get (N : Nat) (l : List pib_trace_entry) :
    ∀ (base : Nat → pib_trace_entry) (i j : Nat), j < l.length → l.length ≤ j + N →
      ring_write N base i l ((i + j) % N) = l.getD j zero_entry := by
  induction l with
  | nil => intro base i j hj; simp at hj
  | cons e es ih =>
    intro base i j hj hlen
    simp only [ring_write]
    cases j with
    | zero =>
      simp only [List.length_cons] at hlen
      simp only [Nat.add_zero]
      rw [ring_write_untouched N es _ (i + 1) (i % N) (fun j hj2 => by
        rw [show i + 1 + j = i + (j + 1) by omega]
        exact mod_add_ne N i (j + 1) (by omega) (by omega))]
      simp
    | succ j =>
      simp only [List.length_cons] at hj hlen
      rw [show i + (j + 1) = i + 1 + j by omega, ih _ (i + 1) j (by omega) (by omega)]
      simp


theorem ring_write_concat (N : Nat) (log : List pib_trace_entry) (e : pib_trace_entry)
    (base : Nat → pib_trace_entry) :
    ring_write N base 0 (log ++ [e])
      = Function.update (ring_write N base 0 log) (log.length % N) e := by
  rw [ring_write_append]
  simp [ring_write]

theorem ring_inv_register_dev (N bound : Nat) (hN : N ≤ 2147483647) :
    ring_inv N bound (register_dev N) [] where
  data := rfl
  index := rfl
  acts := by simp
  stamps := by simp
  head := Or.inl rfl
  anchor := Or.inl ⟨rfl, by
    simp only [register_dev]
    exact wrap_int_of_range _ (by omega) (by omega)⟩

theorem time_record_due_of_empty (N HZ : Nat) (dev : pib_dev) (clk : trace_clock)
    (hN : 0 < N) (hN2 : N ≤ 2147483647) (hi : dev.trace_index = 0)
    (hL : dev.last_record_time_index = -(N : Int)) : time_record_due N HZ dev clk = true := by
  unfold time_record_due
  rw [hi, hL, wrap_int_of_range _ (by omega) (by omega)]
  have : N / 16 < N := Nat.div_lt_self hN (by decide)
  simp only [Bool.or_eq_true, decide_eq_true_eq]
  left
  omega

theorem time_record_due_false_bound (N HZ : Nat) (dev : pib_dev) (clk : trace_clock) (i l : Nat)
    (hi : dev.trace_index = (i : Int)) (hL : dev.last_record_time_index = (l : Int))
    (hr : i ≤ 2147483647) (hl : l ≤ i)
    (hd : time_record_due N HZ dev clk = false) : i ≤ l + N / 16 := by
  unfold time_record_due at hd
  rw [hi, hL, wrap_int_of_range _ (by omega) (by omega)] at hd
  simp only [Bool.or_eq_false_iff, decide_eq_false_iff_not] at hd
  omega


theorem act_val_range (act : pib_trace_act) (h : act ≠ PIB_TRACE_ACT_NONE) :
    1 ≤ act.val ∧ act.val ≤ 9 := by
  cases act <;> simp_all [pib_trace_act.val]

theorem bump_repeat_act (e : pib_trace_entry) : (bump_repeat e).act = e.act := by
  unfold bump_repeat; split_ifs <;> rfl

theorem bump_repeat_timestamp (e : pib_trace_entry) :
    (bump_repeat e).timestamp = e.timestamp := by
  unfold bump_repeat; split_ifs <;> rfl

theorem bump_last_concat (init : List pib_trace_entry) (e : pib_trace_entry) :
    bump_last (init ++ [e]) = init ++ [bump_repeat e] := by
  unfold bump_last
  rw [List.getLast?_concat, List.dropLast_concat]

theorem ring_inv_step_new (N HZ bound : Nat) (dev : pib_dev) (log : List pib_trace_entry)
    (c : trace_call) (hN : 2 ≤ N) (hr : log.length + N + 2 ≤ 2147483647)
    (hinv : ring_inv N bound dev log) (hact : c.act ≠ PIB_TRACE_ACT_NONE)
    (hc1 : c.clk.cycles < bound) (hc2 : c.clk.cycles_time < bound)
    (hne : equals_trace_entries c.act c.entry
      (ring_write N (fun _ => zero_entry) 0 log (last_slot N log.length)) = false) :
    ring_inv N bound (append_new_trace N HZ dev c.clk c.act c.entry)
        (log_step N HZ dev log c)
      ∧ log_step N HZ dev log c
        = log ++ (if time_record_due N HZ dev c.clk then
            [time_record c.clk (ring_write N (fun _ => zero_entry) 0 log (log.length % N))]
          else []) ++ [stored_record c.clk c.act c.entry] := by
  have hbase := hinv.data
  have hi := hinv.index
  have hnew := append_new_trace_new N HZ dev _ c.clk c.act c.entry log.length (by omega)
    hbase hi hr hne
  have hstored := act_val_range c.act hact
  cases hd : time_record_due N HZ dev c.clk
  · have hls : log_step N HZ dev log c = log ++ [stored_record c.clk c.act c.entry] := by
      unfold log_step
      simp only [hbase, hi, Int.toNat_natCast, hne, hd, Bool.false_eq_true, if_false]
    simp only [hd, Bool.false_eq_true, if_false] at hnew
    rw [hnew, hls]
    simp only [Bool.false_eq_true, if_false, List.append_nil, and_true]
    have hlog : ∃ l : Nat, dev.last_record_time_index = (l : Int) ∧ l + 2 ≤ log.length
        ∧ (log.getD l zero_entry).act = PIB_TRACE_ACT_TIMEDATE.val
        ∧ log.length ≤ l + max 2 (N / 16 + 1) := by
      rcases hinv.anchor with ⟨h1, h2⟩ | h
      · have := time_record_due_of_empty N HZ dev c.clk (by omega) (by omega)
          (by rw [hi, h1]; rfl) h2
        rw [hd] at this; exact absurd this (by decide)
      · exact h
    obtain ⟨l, hl1, hl2, hl3, _⟩ := hlog
    have hgate := time_record_due_false_bound N HZ dev c.clk log.length l hi hl1 (by omega)
      (by omega) hd
    refine { data := ?_, index := ?_, acts := ?_, stamps := ?_, head := ?_, anchor := ?_ }
    · simp only [ring_write_concat]
    · simp
    · intro e he
      rw [List.mem_append, List.mem_singleton] at he
      rcases he with he | he
      · exact hinv.acts e he
      · rw [he]; exact hstored
    · intro e he
      rw [List.mem_append, List.mem_singleton] at he
      rcases he with he | he
      · exact hinv.stamps e he
      · rw [he]; exact hc1
    · right
      rcases hinv.head with h | h
      · rw [h] at hl2; simp at hl2
      · rw [List.getD_append _ _ _ _ (by omega)]; exact h
    · right
      refine ⟨l, hl1, by simp only [List.length_append, List.length_singleton]; omega, ?_, ?_⟩
      · rw [List.getD_append _ _ _ _ (by omega)]; exact hl3
      · simp only [List.length_append, List.length_singleton]
        have := le_max_right 2 (N / 16 + 1)
        omega
  · have hls : log_step N HZ dev log c
        = log ++ [time_record c.clk
            (ring_write N (fun _ => zero_entry) 0 log (log.length % N)),
          stored_record c.clk c.act c.entry] := by
      unfold log_step
      simp only [hbase, hi, Int.toNat_natCast, hne, hd, Bool.false_eq_true, if_false, if_true]
    simp only [hd, if_true] at hnew
    rw [hnew, hls]
    simp only [if_true, List.append_assoc, List.singleton_append, and_true]
    refine { data := ?_, index := ?_, acts := ?_, stamps := ?_, head := ?_, anchor := ?_ }
    · have e2 : log ++ [time_record c.clk
            (ring_write N (fun _ => zero_entry) 0 log (log.length % N)),
          stored_record c.clk c.act c.entry]
          = (log ++ [time_record c.clk
            (ring_write N (fun _ => zero_entry) 0 log (log.length % N))])
            ++ [stored_record c.clk c.act c.entry] := by simp
      rw [e2, ring_write_concat, ring_write_concat]
      simp
    · simp only [List.length_append, List.length_cons, List.length_nil]; push_cast; ring
    · intro e he
      simp only [List.mem_append, List.mem_cons, List.mem_nil_iff, or_false] at he
      rcases he with he | he | he
      · exact hinv.acts e he
      · rw [he]; simp [time_record, pib_trace_act.val]
      · rw [he]; exact hstored
    · intro e he
      simp only [List.mem_append, List.mem_cons, List.mem_nil_iff, or_false] at he
      rcases he with he | he | he
      · exact hinv.stamps e he
      · rw [he]; exact hc2
      · rw [he]; exact hc1
    · right
      rcases hinv.head with h | h
      · rw [h]; rfl
      · have hpos : 0 < log.length := by
          rcases List.eq_nil_or_concat log with h0 | ⟨L, b, h0⟩
          · rw [h0] at h; simp [zero_entry, pib_trace_act.val] at h
          · rw [h0]; simp
        rw [List.getD_append _ _ _ _ hpos]; exact h
    · right
      refine ⟨log.length, rfl, by simp, ?_, ?_⟩
      · rw [List.getD_append_right _ _ _ _ (le_refl _)]
        simp [time_record]
      · simp only [List.length_append, List.length_cons, List.length_nil]
        have := le_max_left 2 (N / 16 + 1)
        omega


theorem ring_inv_step_dup (N HZ bound : Nat) (dev : pib_dev) (log : List pib_trace_entry)
    (c : trace_call) (hN : 2 ≤ N) (hr : log.length + N + 2 ≤ 2147483647)
    (hinv : ring_inv N bound dev log) (hact : c.act ≠ PIB_TRACE_ACT_NONE)
    (heq : equals_trace_entries c.act c.entry
      (ring_write N (fun _ => zero_entry) 0 log (last_slot N log.length)) = true) :
    ring_inv N bound (append_new_trace N HZ dev c.clk c.act c.entry)
        (log_step N HZ dev log c)
      ∧ log_step N HZ dev log c = bump_last log
      ∧ ∃ init e, log = init ++ [e]
        ∧ c.act.val = e.act ∧ c.entry.op = e.op ∧ c.entry.port = e.port ∧ c.entry.u = e.u := by
  have hbase := hinv.data
  have hi := hinv.index
  have hls : log_step N HZ dev log c = bump_last log := by
    unfold log_step
    simp only [hbase, hi, Int.toNat_natCast, heq, if_true]
  rcases List.eq_nil_or_concat log with h0 | ⟨init, e, h0⟩
  · exfalso
    rw [h0] at heq
    simp only [ring_write, equals_trace_entries_iff, zero_entry] at heq
    have := act_val_range c.act hact
    omega
  · rw [List.concat_eq_append] at h0
    subst h0
    have hslot : last_slot N (init ++ [e]).length = init.length % N := by
      rw [List.length_append, List.length_singleton, last_slot_succ N _ (by omega)]
    have hre : ring_write N (fun _ => zero_entry) 0 (init ++ [e]) (init.length % N) = e := by
      rw [ring_write_concat, Function.update_same]
    rw [hslot, hre] at heq
    have hdup := append_new_trace_dup N HZ dev _ c.clk c.act c.entry (init ++ [e]).length
      (by omega) hbase hi (by omega) (by rw [hslot, hre]; exact heq)
    rw [hslot, hre] at hdup
    have hkey := (equals_trace_entries_iff _ _ _).mp heq
    refine ⟨?_, hls, init, e, rfl, hkey⟩
    rw [hls, bump_last_concat, hdup]
    have hlen2 : 2 ≤ (init ++ [e]).length := by
      rcases hinv.anchor with ⟨h1, _⟩ | ⟨l, _, h2, _⟩
      · simp at h1
      · omega
    simp only [List.length_append, List.length_singleton] at hlen2
    have hdata : (if e.repeat_ < 255 then
          ({ dev with
            trace_data := some (Function.update
              (ring_write N (fun _ => zero_entry) 0 (init ++ [e])) (init.length % N)
              { e with repeat_ := e.repeat_ + 1 }) } : pib_dev)
        else dev).trace_data
        = some (ring_write N (fun _ => zero_entry) 0 (init ++ [bump_repeat e])) := by
      unfold bump_repeat
      split_ifs with hlt
      · simp only [ring_write_concat, Function.update_idem]
      · exact hbase
    have hrest : ∀ d : pib_dev, d = (if e.repeat_ < 255 then
          ({ dev with
            trace_data := some (Function.update
              (ring_write N (fun _ => zero_entry) 0 (init ++ [e])) (init.length % N)
              { e with repeat_ := e.repeat_ + 1 }) } : pib_dev)
        else dev) →
        d.trace_index = dev.trace_index
          ∧ d.last_record_time_index = dev.last_record_time_index := by
      intro d hd
      rw [hd]
      split_ifs <;> exact ⟨rfl, rfl⟩
    obtain ⟨hidx, hlri⟩ := hrest _ rfl
    refine { data := hdata, index := ?_, acts := ?_, stamps := ?_, head := ?_, anchor := ?_ }
    · rw [hidx, hi]; simp
    · intro x hx
      rw [List.mem_append, List.mem_singleton] at hx
      rcases hx with hx | hx
      · exact hinv.acts x (List.mem_append_left _ hx)
      · rw [hx, bump_repeat_act]
        exact hinv.acts e (by simp)
    · intro x hx
      rw [List.mem_append, List.mem_singleton] at hx
      rcases hx with hx | hx
      · exact hinv.stamps x (List.mem_append_left _ hx)
      · rw [hx, bump_repeat_timestamp]
        exact hinv.stamps e (by simp)
    · right
      rcases hinv.head with h | h
      · simp at h
      · rw [List.getD_append _ _ _ _ (by omega)] at h ⊢
        exact h
    · right
      rcases hinv.anchor with ⟨h1, _⟩ | ⟨l, h1, h2, h3, h4⟩
      · simp at h1
      · simp only [List.length_append, List.length_singleton] at h2 h4
        refine ⟨l, by rw [hlri]; exact h1, by simpa using h2, ?_, by simpa using h4⟩
        rw [List.getD_append _ _ _ _ (by omega)] at h3 ⊢
        exact h3

theorem ring_inv_step (N HZ bound : Nat) (dev : pib_dev) (log : List pib_trace_entry)
    (c : trace_call) (hN : 2 ≤ N) (hr : log.length + N + 2 ≤ 2147483647)
    (hinv : ring_inv N bound dev log) (hact : c.act ≠ PIB_TRACE_ACT_NONE)
    (hc1 : c.clk.cycles < bound) (hc2 : c.clk.cycles_time < bound) :
    ring_inv N bound (append_new_trace N HZ dev c.clk c.act c.entry)
        (log_step N HZ dev log c)
      ∧ (log_step N HZ dev log c).length ≤ log.length + 2 := by
  cases heq : equals_trace_entries c.act c.entry
      (ring_write N (fun _ => zero_entry) 0 log (last_slot N log.length))
  · obtain ⟨h1, h2⟩ := ring_inv_step_new N HZ bound dev log c hN hr hinv hact hc1 hc2 heq
    refine ⟨h1, ?_⟩
    rw [h2]
    split_ifs <;> simp
  · obtain ⟨h1, h2, init, e, h3, _⟩ := ring_inv_step_dup N HZ bound dev log c hN hr hinv hact heq
    refine ⟨h1, ?_⟩
    rw [h2, h3, bump_last_concat]
    simp


theorem ring_inv_append_all (N HZ bound : Nat) (hN : 2 ≤ N) (calls : List trace_call) :
    ∀ (dev : pib_dev) (log : List pib_trace_entry), ring_inv N bound dev log →
      log.length + 2 * calls.length + N + 2 ≤ 2147483647 →
      (∀ c ∈ calls, c.act ≠ PIB_TRACE_ACT_NONE ∧ c.clk.cycles < bound
        ∧ c.clk.cycles_time < bound) →
      ring_inv N bound (append_all N HZ dev calls) (trace_log N HZ dev log calls)
        ∧ (trace_log N HZ dev log calls).length ≤ log.length + 2 * calls.length := by
  induction calls with
  | nil => intro dev log hinv _ _; exact ⟨hinv, by simp [trace_log]⟩
  | cons c cs ih =>
    intro dev log hinv hr hc
    simp only [List.length_cons] at hr
    obtain ⟨h1, h2, h3⟩ := hc c (List.mem_cons_self _ _)
    obtain ⟨hstep, hlen⟩ := ring_inv_step N HZ bound dev log c hN (by omega) hinv h1 h2 h3
    obtain ⟨hfin, hlen2⟩ := ih _ _ hstep (by omega) (fun x hx => hc x (List.mem_cons_of_mem _ hx))
    refine ⟨hfin, ?_⟩
    simp only [trace_log, List.length_cons]
    omega

theorem ring_window (N : Nat) (log : List pib_trace_entry) (k : Nat) (hk : k < N) :
    ring_write N (fun _ => zero_entry) 0 log ((log.length % N + k) % N)
      = if N ≤ log.length + k then log.getD (log.length + k - N) zero_entry else zero_entry := by
  rw [Nat.mod_add_mod]
  split_ifs with h
  · have e : log.length + k = (log.length + k - N) + N := by omega
    have e2 : (log.length + k) % N = (0 + (log.length + k - N)) % N := by
      rw [Nat.zero_add]
      conv_lhs => rw [e]
      rw [Nat.add_mod_right]
    rw [e2]
    exact ring_write_get N log _ 0 _ (by omega) (by omega)
  · rw [Nat.mod_eq_of_lt (by omega)]
    rw [ring_write_untouched N log _ 0 _ (fun j hj => by
      rw [Nat.zero_add, Nat.mod_eq_of_lt (by omega)]; omega)]

theorem map_range'_eq_drop (log : List pib_trace_entry) (f : Nat → pib_trace_entry)
    (m r d : Nat) (hd : d + r = log.length)
    (hf : ∀ n, n < r → f (m + n) = log.getD (d + n) zero_entry) :
    (List.range' m r).map f = log.drop d := by
  apply List.ext_getElem
  · simp only [List.length_map, List.length_range', List.length_drop]; omega
  · intro n h1 h2
    simp only [List.length_map, List.length_range'] at h1
    rw [List.getElem_map, List.getElem_range', List.getElem_drop, Nat.one_mul, hf n h1,
      List.getD_eq_getElem]

theorem getD_mem (log : List pib_trace_entry) (j : Nat) (h : j < log.length) :
    log.getD j zero_entry ∈ log := by
  rw [List.getD_eq_getElem _ _ h]
  exact List.getElem_mem h

theorem playback_of_ring_inv (N bound : Nat) (dev : pib_dev) (log : List pib_trace_entry)
    (now_timespec : timespec) (now_timestamp : Nat)
    (hN : 2 ≤ N) (hN2 : N ≤ 2147483647) (hinv : ring_inv N bound dev log) (hlog : log ≠ [])
    (hts : bound ≤ now_timestamp) (hts2 : now_timestamp < 18446744073709551616) :
    ∃ lines d, playback N dev now_timespec now_timestamp = some lines
      ∧ lines.map (fun l => l.entry) = log.drop d
      ∧ d < log.length ∧ log.length ≤ d + N
      ∧ (log.getD d zero_entry).act = PIB_TRACE_ACT_TIMEDATE.val
      ∧ ∀ j, j < d → log.length ≤ j + N →
          (log.getD j zero_entry).act ≠ PIB_TRACE_ACT_TIMEDATE.val := by
  have hN0 : 0 < N := by omega
  have hwin := fun k hk => ring_window N log k hk
  obtain ⟨l, _, hl2, hl3, hl4⟩ : ∃ l : Nat, dev.last_record_time_index = (l : Int)
      ∧ l + 2 ≤ log.length ∧ (log.getD l zero_entry).act = PIB_TRACE_ACT_TIMEDATE.val
      ∧ log.length ≤ l + max 2 (N / 16 + 1) := by
    rcases hinv.anchor with ⟨h1, _⟩ | h
    · exact absurd h1 hlog
    · exact h
  have hmax : max 2 (N / 16 + 1) ≤ N := by
    apply max_le hN
    omega
  cases hf : first_time_record N (ring_write N (fun _ => zero_entry) 0 log) (log.length % N) with
  | none =>
    exfalso
    rw [first_time_record_eq_none N _ _ (Nat.mod_lt _ hN0)] at hf
    have := hf ((log.length % N + (l + N - log.length)) % N) (Nat.mod_lt _ hN0)
    rw [hwin _ (by omega), if_pos (by omega),
      show log.length + (l + N - log.length) - N = l by omega] at this
    exact this hl3
  | some m =>
    obtain ⟨hm1, hm2, hm3⟩ := first_time_record_some N _ _ m hf
    have hmN : N ≤ log.length + m := by
      by_contra hcon
      rw [hwin m hm1, if_neg hcon] at hm2
      simp [zero_entry, pib_trace_act.val] at hm2
    rw [hwin m hm1, if_pos hmN] at hm2
    have hstamp := hinv.stamps _ (getD_mem log (log.length + m - N) (by omega))
    obtain ⟨lines, hp, hmap⟩ := playback_entries N dev _ log.length m now_timespec now_timestamp
      hN0 hN2 hinv.data hinv.index hf
      (by
        rw [hwin m hm1, if_pos hmN, show ((now_timestamp : Int)
          - ((log.getD (log.length + m - N) zero_entry).timestamp : Int))
          = ((now_timestamp - (log.getD (log.length + m - N) zero_entry).timestamp : Nat) : Int)
          by omega, wrap_u64_of_range _ (by omega)]
        omega)
      (fun k hk1 hk2 => by
        rw [hwin k hk2, if_pos (by omega)]
        exact hinv.acts _ (getD_mem log _ (by omega)))
    refine ⟨lines, log.length + m - N, hp, ?_, by omega, by omega, hm2, ?_⟩
    · rw [hmap]
      apply map_range'_eq_drop log _ m (N - m) (log.length + m - N) (by omega)
      intro n hn
      rw [hwin (m + n) (by omega), if_pos (by omega)]
      congr 1
      omega
    · intro j hj1 hj2
      have := hm3 (j + N - log.length) (by omega)
      rw [hwin _ (by omega), if_pos (by omega),
        show log.length + (j + N - log.length) - N = j by omega] at this
      exact this


/-! ## The log of a sequence of distinct records -/

theorem equals_trace_entries_false_of_key (c : trace_call) (e : pib_trace_entry)
    (h : entry_key e ≠ call_key c) : equals_trace_entries c.act c.entry e = false := by
  cases heq : equals_trace_entries c.act c.entry e
  · rfl
  · exfalso
    rw [equals_trace_entries_iff] at heq
    apply h
    simp only [entry_key, call_key]
    rw [heq.1, heq.2.1, heq.2.2.1, heq.2.2.2]

theorem trace_log_distinct (N HZ bound : Nat) (hN : 2 ≤ N) (calls : List trace_call) :
    ∀ (dev : pib_dev) (log : List pib_trace_entry) (k : Nat × Nat × Nat × List Nat),
      ring_inv N bound dev log →
      log.length + 2 * calls.length + N + 2 ≤ 2147483647 →
      (∀ c ∈ calls, c.act ≠ PIB_TRACE_ACT_NONE ∧ c.act ≠ PIB_TRACE_ACT_TIMEDATE
        ∧ c.clk.cycles < bound ∧ c.clk.cycles_time < bound) →
      entry_key (ring_write N (fun _ => zero_entry) 0 log (last_slot N log.length)) = k →
      List.Chain (fun a b => a ≠ b) k (calls.map call_key) →
      without_time_records (trace_log N HZ dev log calls)
        = without_time_records log ++ calls.map stored_call := by
  induction calls with
  | nil => intro dev log k _ _ _ _ _; simp [trace_log]
  | cons c cs ih =>
    intro dev log k hinv hr hc hk hchain
    simp only [List.length_cons] at hr
    simp only [List.map_cons, List.chain_cons] at hchain
    obtain ⟨h1, h1b, h2, h3⟩ := hc c (List.mem_cons_self _ _)
    have hne := equals_trace_entries_false_of_key c _ (by rw [hk]; exact hchain.1)
    obtain ⟨hstep, hls⟩ := ring_inv_step_new N HZ bound dev log c hN (by omega) hinv h1 h2 h3 hne
    have hlen : (log_step N HZ dev log c).length ≤ log.length + 2 := by
      rw [hls]; split_ifs <;> simp
    have hlast : entry_key (ring_write N (fun _ => zero_entry) 0 (log_step N HZ dev log c)
        (last_slot N (log_step N HZ dev log c).length)) = call_key c := by
      rw [hls]
      generalize (log ++ if time_record_due N HZ dev c.clk = true then
          [time_record c.clk (ring_write N (fun _ => zero_entry) 0 log (log.length % N))]
        else []) = X
      rw [ring_write_concat, List.length_append, List.length_singleton,
        last_slot_succ N _ (by omega), Function.update_same]
      rfl
    have := ih _ _ (call_key c) hstep (by omega)
      (fun x hx => hc x (List.mem_cons_of_mem _ hx)) hlast hchain.2
    simp only [trace_log]
    rw [this, hls]
    have hst : (stored_record c.clk c.act c.entry).act ≠ PIB_TRACE_ACT_TIMEDATE.val := by
      simp only [stored_record]
      cases hca : c.act <;> simp_all [pib_trace_act.val]
    unfold without_time_records
    split_ifs
    · simp [List.filter_append, List.filter_cons, time_record, hst, stored_call]
    · simp [List.filter_append, List.filter_cons, hst, stored_call]

theorem filter_drop_eq_drop_filter (p : pib_trace_entry → Bool) (l : List pib_trace_entry) :
    ∀ d, ∃ j, (l.drop d).filter p = (l.filter p).drop j := by
  induction l with
  | nil => intro d; exact ⟨0, by simp⟩
  | cons a as ih =>
    intro d
    cases d with
    | zero => exact ⟨0, by simp⟩
    | succ d =>
      obtain ⟨j, hj⟩ := ih d
      by_cases hp : p a = true
      · exact ⟨j + 1, by simp [List.filter_cons, hp, hj]⟩
      · exact ⟨j, by simp [List.filter_cons, hp, hj]⟩

theorem chain_of_distinct_calls (calls : List trace_call)
    (hacts : ∀ c ∈ calls, c.act ≠ PIB_TRACE_ACT_NONE)
    (hdistinct : List.Chain' (fun a b => call_key a ≠ call_key b) calls) :
    List.Chain (fun a b => a ≠ b) (entry_key zero_entry) (calls.map call_key) := by
  cases calls with
  | nil => exact List.Chain.nil
  | cons c cs =>
    rw [List.map_cons, List.chain_cons]
    constructor
    · intro h
      have h0 := act_val_range c.act (hacts c (List.mem_cons_self _ _))
      simp only [entry_key, call_key, zero_entry, Prod.mk.injEq] at h
      omega
    · have : List.Chain' (fun a b => a ≠ b) ((c :: cs).map call_key) := by
        rw [List.chain'_map]
        exact hdistinct
      exact this


/-! ## Order preservation and wraparound -/

theorem sample_calls_distinct (n : Nat) (hn : n ≤ 10) :
    List.Chain' (fun a b => call_key a ≠ call_key b) (sample_calls n) := by
  interval_cases n
  all_goals
    first
    | exact List.chain'_nil
    | exact List.chain'_singleton _
    | (simp only [sample_calls, List.range, List.range.loop, List.map_cons, List.map_nil,
        List.chain'_cons, List.chain'_singleton, and_true]
       repeat' constructor
       all_goals decide)

/-- C2, as the claim states it, fails. Three distinct records E0, E1, E2
appended to a fresh ring of 4 slots (3 <= capacity) each bring a time record
with them, so six slots are claimed and the ring wraps: playback emits
`time, E1, time, E2`. E0 is lost, and time records are among the lines. -/
theorem order_preservation_fails :
    (sample_calls 3).map (fun c => (c.act.val, c.entry.op)) = [(1, 0), (1, 1), (1, 2)]
    ∧ (playback 4 (append_all 4 1000 (register_dev 4) (sample_calls 3))
          { tv_sec := 200, tv_nsec := 0 } 5000).map
        (fun lines => lines.map (fun l => (l.entry.act, l.entry.op)))
      = some [(8, 0), (1, 1), (8, 0), (1, 2)] := by
  decide

theorem playback_of_calls (N HZ : Nat) (calls : List trace_call) (now_timespec : timespec)
    (now_timestamp : Nat) (hN : 2 ≤ N) (hr : 2 * calls.length + N + 2 ≤ 2147483647)
    (hcalls : calls ≠ [])
    (hacts : ∀ c ∈ calls, c.act ≠ PIB_TRACE_ACT_NONE ∧ c.act ≠ PIB_TRACE_ACT_TIMEDATE)
    (hdistinct : List.Chain' (fun a b => call_key a ≠ call_key b) calls)
    (hclk : ∀ c ∈ calls, c.clk.cycles < now_timestamp ∧ c.clk.cycles_time < now_timestamp)
    (hts : now_timestamp < 18446744073709551616) :
    ∃ lines log d,
      ring_inv N now_timestamp (append_all N HZ (register_dev N) calls) log
      ∧ without_time_records log = calls.map stored_call
      ∧ log.length ≤ 2 * calls.length
      ∧ playback N (append_all N HZ (register_dev N) calls) now_timespec now_timestamp
          = some lines
      ∧ lines.map (fun l => l.entry) = log.drop d
      ∧ d < log.length ∧ log.length ≤ d + N
      ∧ (log.getD d zero_entry).act = PIB_TRACE_ACT_TIMEDATE.val
      ∧ ∀ j, j < d → log.length ≤ j + N →
          (log.getD j zero_entry).act ≠ PIB_TRACE_ACT_TIMEDATE.val := by
  have hinv0 := ring_inv_register_dev N now_timestamp (by omega)
  have hall : ∀ c ∈ calls, c.act ≠ PIB_TRACE_ACT_NONE ∧ c.act ≠ PIB_TRACE_ACT_TIMEDATE
      ∧ c.clk.cycles < now_timestamp ∧ c.clk.cycles_time < now_timestamp :=
    fun c hc => ⟨(hacts c hc).1, (hacts c hc).2, (hclk c hc).1, (hclk c hc).2⟩
  obtain ⟨hinv, hlen⟩ := ring_inv_append_all N HZ now_timestamp hN calls (register_dev N) []
    hinv0 (by simp only [List.length_nil]; omega)
    (fun c hc => ⟨(hall c hc).1, (hall c hc).2.2.1, (hall c hc).2.2.2⟩)
  have hrec := trace_log_distinct N HZ now_timestamp hN calls (register_dev N) []
    (entry_key zero_entry) hinv0 (by simp only [List.length_nil]; omega) hall rfl
    (chain_of_distinct_calls calls (fun c hc => (hacts c hc).1) hdistinct)
  have hrec2 : without_time_records (trace_log N HZ (register_dev N) [] calls)
      = calls.map stored_call := by
    rw [hrec]; simp [without_time_records]
  have hlog : trace_log N HZ (register_dev N) [] calls ≠ [] := by
    intro h
    rw [h] at hrec2
    simp only [without_time_records, List.filter_nil] at hrec2
    exact hcalls (List.map_eq_nil_iff.mp hrec2.symm)
  obtain ⟨lines, d, h1, h2, h3, h4, h5, h6⟩ := playback_of_ring_inv N now_timestamp _ _
    now_timespec now_timestamp hN (by omega) hinv hlog (le_refl _) hts
  exact ⟨lines, _, d, hinv, hrec2, by simpa using hlen, h1, h2, h3, h4, h5, h6⟩

/-- C2, amended. Order preservation. For every sequence of records of the
kinds the producers pass (neither NONE nor TIMEDATE), each structurally
different from the one before it, appended
sequentially to a fresh ring of `N >= 2` slots such that the records and the
time records inserted with them fit into the ring (the counter ends at `N` at
most, which `2 * calls.length <= N` ensures), playback, read with a later
cycle sample, emits one line for every slot claimed, in the order of the
claims: its first line is a time record, and the other lines, the time records
left out, are exactly the appended records in append order. -/
theorem order_preservation (N HZ : Nat) (calls : List trace_call) (now_timespec : timespec)
    (now_timestamp : Nat) (hN : 2 ≤ N) (hr : 2 * calls.length + N + 2 ≤ 2147483647)
    (hcalls : calls ≠ [])
    (hacts : ∀ c ∈ calls, c.act ≠ PIB_TRACE_ACT_NONE ∧ c.act ≠ PIB_TRACE_ACT_TIMEDATE)
    (hdistinct : List.Chain' (fun a b => call_key a ≠ call_key b) calls)
    (hclk : ∀ c ∈ calls, c.clk.cycles < now_timestamp ∧ c.clk.cycles_time < now_timestamp)
    (hts : now_timestamp < 18446744073709551616)
    (hfit : 2 * calls.length ≤ N
      ∨ (append_all N HZ (register_dev N) calls).trace_index ≤ (N : Int)) :
    ∃ lines,
      playback N (append_all N HZ (register_dev N) calls) now_timespec now_timestamp
          = some lines
      ∧ ((lines.length : Nat) : Int) = (append_all N HZ (register_dev N) calls).trace_index
      ∧ lines.head?.map (fun l => l.entry.act) = some PIB_TRACE_ACT_TIMEDATE.val
      ∧ without_time_records (lines.map (fun l => l.entry)) = calls.map stored_call := by
  obtain ⟨lines, log, d, hinv, hrec, hlen, hp, hmap, hd1, hd2, hd3, hd4⟩ :=
    playback_of_calls N HZ calls now_timespec now_timestamp hN hr hcalls hacts hdistinct hclk hts
  have hidx := hinv.index
  have hfit2 : log.length ≤ N := by
    rcases hfit with h | h
    · omega
    · rw [hidx] at h; exact_mod_cast h
  have hd0 : d = 0 := by
    by_contra hne
    rcases hinv.head with h | h
    · rw [h] at hd1; simp at hd1
    · exact hd4 0 (by omega) (by omega) h
  subst hd0
  rw [List.drop_zero] at hmap
  refine ⟨lines, hp, ?_, ?_, by rw [hmap]; exact hrec⟩
  · rw [hidx]
    have := congrArg List.length hmap
    simp only [List.length_map] at this
    rw [this]
  · have hh := congrArg List.head? hmap
    rw [List.head?_map] at hh
    have h2 : lines.head?.map (fun l => l.entry.act)
        = (lines.head?.map (fun l => l.entry)).map (fun e => e.act) := by
      rw [Option.map_map]; rfl
    rw [h2, hh]
    cases hl : log with
    | nil => rw [hl] at hd1; simp at hd1
    | cons a as =>
      rw [hl] at hd3
      simpa using hd3

/-- Witness of `order_preservation`: two sample records on a fresh ring of 4
slots. -/
theorem order_preservation_witness :
    ∃ lines,
      playback 4 (append_all 4 1000 (register_dev 4) (sample_calls 2))
          { tv_sec := 200, tv_nsec := 0 } 5000 = some lines
      ∧ ((lines.length : Nat) : Int)
          = (append_all 4 1000 (register_dev 4) (sample_calls 2)).trace_index
      ∧ lines.head?.map (fun l => l.entry.act) = some PIB_TRACE_ACT_TIMEDATE.val
      ∧ without_time_records (lines.map (fun l => l.entry))
          = (sample_calls 2).map stored_call :=
  order_preservation 4 1000 (sample_calls 2) { tv_sec := 200, tv_nsec := 0 } 5000
    (by decide) (by decide) (by decide) (by decide) (sample_calls_distinct 2 (by decide))
    (by decide) (by decide) (Or.inl (by decide))

/-! ## Frame of a duplicate append -/

/-- C13. Frame of a duplicate append. When the appended record is
structurally equal to the last-published slot `p`, `append_new_trace` changes
nothing but the `repeat` of that slot, which goes up by one, or stays as it
is at 255; the timestamp, kind, op, port and payload of that slot, the
append counter, the gate's bookkeeping (index and time of the last time
record) and every other slot are as before. -/
theorem duplicate_append_frame (N HZ : Nat) (dev : pib_dev) (base : Nat → pib_trace_entry)
    (clk : trace_clock) (act : pib_trace_act) (entry : pib_trace_entry) (i : Nat)
    (hN : 0 < N) (hbase : dev.trace_data = some base) (hi : dev.trace_index = (i : Int))
    (hr : i + N ≤ 2147483647)
    (heq : equals_trace_entries act entry (base (last_slot N i)) = true) :
    ∃ b1, (append_new_trace N HZ dev clk act entry).trace_data = some b1
      ∧ (b1 (last_slot N i)).repeat_
          = (if (base (last_slot N i)).repeat_ < 255 then (base (last_slot N i)).repeat_ + 1
            else (base (last_slot N i)).repeat_)
      ∧ (b1 (last_slot N i)).timestamp = (base (last_slot N i)).timestamp
      ∧ (b1 (last_slot N i)).act = (base (last_slot N i)).act
      ∧ (b1 (last_slot N i)).op = (base (last_slot N i)).op
      ∧ (b1 (last_slot N i)).port = (base (last_slot N i)).port
      ∧ (b1 (last_slot N i)).u = (base (last_slot N i)).u
      ∧ (append_new_trace N HZ dev clk act entry).trace_index = dev.trace_index
      ∧ (append_new_trace N HZ dev clk act entry).last_record_time_index
          = dev.last_record_time_index
      ∧ (append_new_trace N HZ dev clk act entry).last_record_time = dev.last_record_time
      ∧ ∀ k, k ≠ last_slot N i → b1 k = base k := by
  have hdup := append_new_trace_dup N HZ dev base clk act entry i hN hbase hi hr heq
  rw [hdup]
  by_cases hlt : (base (last_slot N i)).repeat_ < 255
  · rw [if_pos hlt, if_pos hlt]
    refine ⟨_, rfl, ?_, ?_, ?_, ?_, ?_, ?_, rfl, rfl, rfl, ?_⟩
    all_goals first
      | (rw [Function.update_same])
      | (intro k hk; exact Function.update_noteq hk _ _)
  · rw [if_neg hlt, if_neg hlt]
    exact ⟨base, hbase, rfl, rfl, rfl, rfl, rfl, rfl, rfl, rfl, rfl, fun k _ => rfl⟩

/-- Witness of `duplicate_append_frame`: the record of slot 1 of a ring of 4
slots appended once more, at a later time. -/
theorem duplicate_append_frame_witness :
    ∃ b1, (append_new_trace 4 1000
          { trace_data := some (fun k => if k = 1 then stored_record (sample_clock 0 100 1000)
              PIB_TRACE_ACT_API (sample_entry 3) else zero_entry),
            trace_index := 2, last_record_time := 0, last_record_time_index := 0 }
          (sample_clock 7 200 2000) PIB_TRACE_ACT_API (sample_entry 3)).trace_data = some b1
      ∧ (b1 1).repeat_ = 1 ∧ (b1 1).timestamp = 1001 ∧ (b1 1).op = 3
      ∧ b1 0 = zero_entry := by
  obtain ⟨b1, h1, h2, h3, _, h5, _, _, _, _, _, h11⟩ := duplicate_append_frame 4 1000
    { trace_data := some (fun k => if k = 1 then stored_record (sample_clock 0 100 1000)
        PIB_TRACE_ACT_API (sample_entry 3) else zero_entry),
      trace_index := 2, last_record_time := 0, last_record_time_index := 0 }
    (fun k => if k = 1 then stored_record (sample_clock 0 100 1000)
        PIB_TRACE_ACT_API (sample_entry 3) else zero_entry)
    (sample_clock 7 200 2000) PIB_TRACE_ACT_API (sample_entry 3) 2
    (by decide) rfl rfl (by decide) (by decide)
  exact ⟨b1, h1, h2, h3, h5, h11 0 (by decide)⟩

/-! ## Disabled trace -/

/-- C17. Disabled trace. When the ring buffer is absent
(`dev->debugfs.trace_data` is NULL), every call of `append_new_trace`, and so
every sequence of producer calls, leaves the device's trace state as it is,
and `trace_open` returns `-ENOSYS` whatever `kzalloc`, the clocks and
`seq_open` would return: it returns before it allocates or reads anything. -/
theorem disabled_trace (N HZ : Nat) (dev : pib_dev) (h : dev.trace_data = none) :
    (∀ clk act entry, append_new_trace N HZ dev clk act entry = dev)
      ∧ (∀ calls, append_all N HZ dev calls = dev)
      ∧ ∀ kzalloc_ok now_timespec now_timestamp seq_open_ret,
          trace_open N dev kzalloc_ok now_timespec now_timestamp seq_open_ret
            = .ret (-ENOSYS) := by
  have h1 : ∀ clk act entry, append_new_trace N HZ dev clk act entry = dev := by
    intro clk act entry
    unfold append_new_trace
    simp only [h]
  refine ⟨h1, ?_, ?_⟩
  · intro calls
    induction calls with
    | nil => rfl
    | cons c cs ih =>
      simp only [append_all, List.foldl_cons] at ih ⊢
      rw [h1]
      exact ih
  · intro kz now ts ret
    unfold trace_open
    simp only [h]

/-- Witness of `disabled_trace`: a device without a ring. -/
theorem disabled_trace_witness :
    append_new_trace 4 1000
        { trace_data := none, trace_index := 0, last_record_time := 0,
          last_record_time_index := 0 }
        (sample_clock 0 100 1000) PIB_TRACE_ACT_API (sample_entry 3)
      = { trace_data := none, trace_index := 0, last_record_time := 0,
          last_record_time_index := 0 }
    ∧ trace_open 4
        { trace_data := none, trace_index := 0, last_record_time := 0,
          last_record_time_index := 0 }
        true { tv_sec := 200, tv_nsec := 0 } 5000 0 = .ret (-ENOSYS) :=
  ⟨(disabled_trace 4 1000 _ rfl).1 _ _ _, (disabled_trace 4 1000 _ rfl).2.2 _ _ _ _⟩

/-! ## Repeat annotation -/

theorem same_calls_slot (N HZ : Nat) (dev : pib_dev) (base : Nat → pib_trace_entry)
    (clk : trace_clock) (act : pib_trace_act) (entry : pib_trace_entry) (i : Nat)
    (clks : List trace_clock)
    (hN : 0 < N) (hbase : dev.trace_data = some base) (hi : dev.trace_index = (i : Int))
    (hr : i + N + 2 ≤ 2147483647) (hrep : entry.repeat_ = 0)
    (hne : equals_trace_entries act entry (base (last_slot N i)) = false) :
    ∃ bk, (append_all N HZ dev (same_calls (clk :: clks) act entry)).trace_data = some bk
      ∧ bk ((i + anchors_due N HZ dev clk) % N)
          = { stored_record clk act entry with repeat_ := min clks.length 255 } := by
  have hnew := append_new_trace_new N HZ dev base clk act entry i hN hbase hi hr hne
  have hall : append_all N HZ dev (same_calls (clk :: clks) act entry) =
      append_all N HZ (append_new_trace N HZ dev clk act entry) (same_calls clks act entry) := by
    simp [append_all, same_calls]
  have hkey : equals_trace_entries act entry (stored_record clk act entry) = true := by
    rw [equals_trace_entries_iff]; simp [stored_record]
  have e0 : (stored_record clk act entry).repeat_ = 0 := by simp [stored_record, hrep]
  rw [hall]
  unfold anchors_due
  cases hd : time_record_due N HZ dev clk
  · simp only [hd, Bool.false_eq_true, if_false] at hnew ⊢
    have hd1 : (append_new_trace N HZ dev clk act entry).trace_data
        = some (Function.update base (i % N) (stored_record clk act entry)) := by rw [hnew]
    have hi1 : (append_new_trace N HZ dev clk act entry).trace_index = ((i + 1 : Nat) : Int) := by
      rw [hnew]; push_cast; rfl
    have hslot : last_slot N (i + 1) = i % N := last_slot_succ N i hN
    have := append_all_dups N HZ act entry (i + 1) hN (by omega) clks _ _ hd1 hi1
      (by rw [hslot, Function.update_same]; exact hkey)
      (by rw [hslot, Function.update_same, e0]; omega)
    rw [hslot, Function.update_same, e0, Nat.zero_add] at this
    rw [this]
    simp only [set_repeat, hd1, Nat.add_zero]
    exact ⟨_, rfl, by rw [Function.update_same, Function.update_same]⟩
  · simp only [hd, if_true] at hnew ⊢
    have hd1 : (append_new_trace N HZ dev clk act entry).trace_data
        = some (Function.update (Function.update base (i % N) (time_record clk (base (i % N))))
            ((i + 1) % N) (stored_record clk act entry)) := by rw [hnew]
    have hi1 : (append_new_trace N HZ dev clk act entry).trace_index
        = ((i + 1 + 1 : Nat) : Int) := by
      rw [hnew]; push_cast; ring
    have hslot : last_slot N (i + 1 + 1) = (i + 1) % N := last_slot_succ N (i + 1) hN
    have := append_all_dups N HZ act entry (i + 1 + 1) hN (by omega) clks _ _ hd1 hi1
      (by rw [hslot, Function.update_same]; exact hkey)
      (by rw [hslot, Function.update_same, e0]; omega)
    rw [hslot, Function.update_same, e0, Nat.zero_add] at this
    rw [this]
    simp only [set_repeat, hd1]
    exact ⟨_, rfl, by rw [Function.update_same, Function.update_same]⟩

/-- C16. Repeat annotation. A line that `trace_seq_show` renders (its
`switch` not ending in `BUG()`) carries a repeat annotation if and only if
the record's `repeat` is greater than 0; for `0 < repeat < 255` the
annotation is ` (This record is repeated N times)` with `N = repeat + 1`, and
for `repeat = 255` it is the variant `256 times or more`. After `k` appends in
a row of one record that differs from the last-published slot, with
`2 <= k <= 255`, the `N` of the stored record's annotation is `k`, the number
of appends compressed into it. -/
theorem repeat_annotation_rendered (N : Nat) (base : Nat → pib_trace_entry)
    (info : pib_trace_info) (hbug : (trace_seq_show N base info).bug = false) :
    ((show_repeat_text N base info).isSome = true
        ↔ 0 < (base (info_slot N info.start info.index)).repeat_)
      ∧ (0 < (base (info_slot N info.start info.index)).repeat_ →
          (base (info_slot N info.start info.index)).repeat_ < 255 →
          show_repeat_text N base info
            = some (" (This record is repeated "
                ++ toString ((base (info_slot N info.start info.index)).repeat_ + 1)
                ++ " times)"))
      ∧ ((base (info_slot N info.start info.index)).repeat_ = 255 →
          show_repeat_text N base info = some " (This record is repeated 256 times or more)")
      ∧ ∀ (HZ : Nat) (dev : pib_dev) (ring : Nat → pib_trace_entry) (clk : trace_clock)
          (act : pib_trace_act) (entry : pib_trace_entry) (i : Nat) (clks : List trace_clock),
          0 < N → dev.trace_data = some ring → dev.trace_index = (i : Int) →
          i + N + 2 ≤ 2147483647 → entry.repeat_ = 0 →
          equals_trace_entries act entry (ring (last_slot N i)) = false →
          1 ≤ clks.length → clks.length + 1 ≤ 255 →
          ∃ bk, (append_all N HZ dev (same_calls (clk :: clks) act entry)).trace_data = some bk
            ∧ repeat_text (bk ((i + anchors_due N HZ dev clk) % N)).repeat_
                = some (" (This record is repeated "
                    ++ toString ((clk :: clks).length) ++ " times)") := by
  have hentry : (trace_seq_show N base info).entry = base (info_slot N info.start info.index) :=
    rfl
  unfold show_repeat_text
  rw [hbug, hentry]
  simp only [Bool.false_eq_true, if_false]
  generalize (base (info_slot N info.start info.index)).repeat_ = r
  refine ⟨?_, ?_, ?_, ?_⟩
  · unfold repeat_text
    by_cases h255 : r = 255
    · simp [h255]
    · by_cases h0 : r > 0
      · simp [h255, h0]
      · simp only [h255, h0, if_false, Option.isSome_none, Bool.false_eq_true, false_iff]
  · intro h0 h255
    unfold repeat_text
    rw [if_neg (by omega), if_pos h0]
  · intro h255
    unfold repeat_text
    rw [if_pos h255]
  · intro HZ dev ring clk act entry i clks hN hring hi hr hrep hne hk1 hk2
    obtain ⟨bk, h1, h2⟩ := same_calls_slot N HZ dev ring clk act entry i clks hN hring hi hr
      hrep hne
    refine ⟨bk, h1, ?_⟩
    rw [h2]
    simp only [List.length_cons]
    unfold repeat_text
    have hmin : min clks.length 255 = clks.length := min_eq_left (by omega)
    rw [hmin, if_neg (by omega), if_pos (by omega)]

/-- Witness of `repeat_annotation_rendered`: a record with `repeat` 2, the
result of three appends, is annotated "repeated 3 times". -/
theorem repeat_annotation_rendered_witness :
    show_repeat_text 4 (fun _ => { sample_entry 3 with act := 1, repeat_ := 2 })
        { start := 0, index := 0, base_timespec := { tv_sec := 100, tv_nsec := 5 },
          base_timestamp := 0, tsc_ratio := 65536 }
      = some (" (This record is repeated " ++ toString (2 + 1) ++ " times)") :=
  (repeat_annotation_rendered 4 (fun _ => { sample_entry 3 with act := 1, repeat_ := 2 })
    { start := 0, index := 0, base_timespec := { tv_sec := 100, tv_nsec := 5 },
      base_timestamp := 0, tsc_ratio := 65536 } (by decide)).2.1 (by decide) (by decide)

/-! ## Publish order -/

/-- C20. Publish order. In both publishes of `append_new_trace`, seen as
their stores in program order, the first store sets the kind of the slot to
NONE and the last store sets the real kind, and the slot ends as the time
record, or as the record, that the call is to publish. In the time-record
publish the kind reads NONE at every point in between. In the record publish
the kind reads NONE after the first store and, after `*store = *entry`, it
reads the kind byte of the copied record until the last store: it reads NONE
at every point in between exactly when that byte is zero, as it is in the
records of the `pib_trace_*` functions. -/
theorem publish_order (clk : trace_clock) (old : pib_trace_entry) (act : pib_trace_act)
    (entry : pib_trace_entry) :
    (slot_states old (time_record_stores clk)).map (fun s => s.act)
        = [old.act, PIB_TRACE_ACT_NONE.val, PIB_TRACE_ACT_NONE.val, PIB_TRACE_ACT_NONE.val,
            PIB_TRACE_ACT_NONE.val, PIB_TRACE_ACT_TIMEDATE.val]
      ∧ (slot_states old (time_record_stores clk)).getLast? = some (time_record clk old)
      ∧ (slot_states old (record_stores clk act entry)).map (fun s => s.act)
        = [old.act, PIB_TRACE_ACT_NONE.val, entry.act, entry.act, act.val]
      ∧ (slot_states old (record_stores clk act entry)).getLast?
        = some (stored_record clk act entry)
      ∧ (entry.act = PIB_TRACE_ACT_NONE.val ↔
          ∀ s ∈ ((slot_states old (record_stores clk act entry)).drop 1).dropLast,
            s.act = PIB_TRACE_ACT_NONE.val)
      ∧ ∀ op port u, (producer_entry op port u).act = PIB_TRACE_ACT_NONE.val := by
  refine ⟨rfl, rfl, rfl, rfl, ?_, fun _ _ _ => rfl⟩
  simp only [slot_states, record_stores, List.scanl, List.drop_succ_cons, List.drop_zero,
    List.dropLast_cons₂, List.dropLast_single, List.mem_cons, List.mem_nil_iff, or_false,
    forall_eq_or_imp, forall_eq]
  constructor
  · intro h
    exact ⟨trivial, h, h⟩
  · intro h
    exact h.2.1

/-! ## Bookmark truncation -/

theorem clear_newlines_loop (m : List Nat) (n : Nat) :
    ((List.range n).foldl (fun m i => if m.getD i 0 = 10 then m.set i 0 else m) m).length
        = m.length
      ∧ ∀ j, ((List.range n).foldl
            (fun m i => if m.getD i 0 = 10 then m.set i 0 else m) m)[j]?
          = if j < n then m[j]?.map (fun b => if b = 10 then 0 else b) else m[j]? := by
  induction n with
  | zero => simp
  | succ n ih =>
    rw [List.range_succ, List.foldl_append]
    simp only [List.foldl_cons, List.foldl_nil]
    generalize (List.range n).foldl (fun m i => if m.getD i 0 = 10 then m.set i 0 else m) m = r
      at ih ⊢
    obtain ⟨hl, hj⟩ := ih
    have hn := hj n
    simp only [lt_irrefl, if_false] at hn
    have hg : r.getD n 0 = (m[n]?).getD 0 := by
      rw [List.getD_eq_getElem?_getD, hn]
    constructor
    · split
      · rw [List.length_set, hl]
      · exact hl
    · intro j
      by_cases h10 : r.getD n 0 = 10
      · rw [if_pos h10, List.getElem?_set]
        by_cases hjn : n = j
        · subst hjn
          rw [if_pos rfl, if_pos (Nat.lt_succ_self _)]
          rw [hg] at h10
          cases hm : m[n]? with
          | none => rw [hm] at h10; simp at h10
          | some b =>
            rw [hm] at h10
            have hb : b = 10 := h10
            have : n < r.length := by
              rw [hl]
              exact (List.getElem?_eq_some_iff.mp hm).1
            simp [this, hb]
        · rw [if_neg hjn, hj j]
          by_cases hlt : j < n
          · rw [if_pos hlt, if_pos (by omega)]
          · rw [if_neg hlt, if_neg (by omega)]
      · rw [if_neg h10, hj j]
        by_cases hlt : j < n
        · rw [if_pos hlt, if_pos (by omega)]
        · rw [if_neg hlt]
          by_cases hjn : j = n
          · subst hjn
            rw [if_pos (Nat.lt_succ_self _)]
            rw [hg] at h10
            cases hm : m[j]? with
            | none => rfl
            | some b =>
              rw [hm] at h10
              have hb : b ≠ 10 := h10
              simp [hb]
          · rw [if_neg (by omega)]

theorem clear_newlines_eq (m : List Nat) (h : m.length = PIB_BOOKMARK_MESSAGE) :
    clear_newlines m = m.map (fun b => if b = 10 then 0 else b) := by
  obtain ⟨hl, hj⟩ := clear_newlines_loop m PIB_BOOKMARK_MESSAGE
  unfold clear_newlines
  apply List.ext_getElem?
  intro j
  rw [hj j, List.getElem?_map]
  by_cases hlt : j < PIB_BOOKMARK_MESSAGE
  · rw [if_pos hlt]
  · rw [if_neg hlt]
    have : m[j]? = none := by
      rw [List.getElem?_eq_none_iff]
      omega
    rw [this]
    rfl

theorem takeWhile_append_zeros (l : List Nat) (n : Nat) :
    (l ++ List.replicate n 0).takeWhile (fun b => b != 10 && b != 0)
      = l.takeWhile (fun b => b != 10 && b != 0) := by
  induction l with
  | nil =>
    cases n with
    | zero => rfl
    | succ n => simp [List.replicate_succ, List.takeWhile_cons]
  | cons a l ih =>
    simp only [List.cons_append, List.takeWhile_cons]
    split
    · rw [ih]
    · rfl

theorem takeWhile_cleared (l : List Nat) :
    (l.map (fun b => if b = 10 then 0 else b)).takeWhile (fun b => b != 0)
      = l.takeWhile (fun b => b != 10 && b != 0) := by
  induction l with
  | nil => rfl
  | cons a l ih =>
    simp only [List.map_cons, List.takeWhile_cons]
    by_cases h10 : a = 10
    · simp [h10]
    · by_cases h0 : a = 0
      · simp [h0]
      · simp [h10, h0, ih]

theorem bookmark_message_length (buf : List Nat) :
    (buf.take (min PIB_BOOKMARK_MESSAGE buf.length)
      ++ List.replicate (PIB_BOOKMARK_MESSAGE - min PIB_BOOKMARK_MESSAGE buf.length) 0).length
      = PIB_BOOKMARK_MESSAGE := by
  rw [List.length_append, List.length_take, List.length_replicate]
  omega

theorem stored_text_bookmark_entry (buf : List Nat) :
    stored_text (bookmark_entry buf).u = cut_text buf := by
  have hlen := bookmark_message_length buf
  unfold stored_text cut_text bookmark_entry
  simp only
  rw [clear_newlines_eq _ hlen]
  rw [List.take_append_of_le_length (by rw [List.length_map, hlen])]
  rw [List.take_of_length_le (by rw [List.length_map, hlen])]
  rw [takeWhile_cleared, takeWhile_append_zeros]
  congr 1
  by_cases h : PIB_BOOKMARK_MESSAGE ≤ buf.length
  · rw [min_eq_left h]
  · rw [min_eq_right (by omega), List.take_length, List.take_of_length_le (by omega)]

theorem trace_write_at_zero (N HZ : Nat) (dev : pib_dev) (clk : trace_clock) (buf : List Nat) :
    (trace_write N HZ dev clk buf 0 false).dev
      = append_new_trace N HZ dev clk PIB_TRACE_ACT_BOOKMARK (bookmark_entry buf) := by
  simp [trace_write]

theorem last_published_after_append (N HZ : Nat) (dev : pib_dev) (base : Nat → pib_trace_entry)
    (clk : trace_clock) (act : pib_trace_act) (entry : pib_trace_entry) (i : Nat)
    (hN : 0 < N) (hbase : dev.trace_data = some base) (hi : dev.trace_index = (i : Int))
    (hr : i + N + 2 ≤ 2147483647) :
    ∃ (b1 : Nat → pib_trace_entry) (j : Nat),
      (append_new_trace N HZ dev clk act entry).trace_data = some b1
        ∧ (append_new_trace N HZ dev clk act entry).trace_index = (j : Int)
        ∧ (b1 (last_slot N j)).act = act.val
        ∧ (b1 (last_slot N j)).op = entry.op
        ∧ (b1 (last_slot N j)).port = entry.port
        ∧ (b1 (last_slot N j)).u = entry.u := by
  cases heq : equals_trace_entries act entry (base (last_slot N i))
  · rw [append_new_trace_new N HZ dev base clk act entry i hN hbase hi hr heq]
    by_cases hd : time_record_due N HZ dev clk = true
    · rw [if_pos hd]
      refine ⟨_, i + 1 + 1, rfl, by push_cast; ring, ?_⟩
      rw [last_slot_succ N (i + 1) hN, Function.update_same]
      exact ⟨rfl, rfl, rfl, rfl⟩
    · rw [if_neg hd]
      refine ⟨_, i + 1, rfl, by push_cast; rfl, ?_⟩
      rw [last_slot_succ N i hN, Function.update_same]
      exact ⟨rfl, rfl, rfl, rfl⟩
  · rw [append_new_trace_dup N HZ dev base clk act entry i hN hbase hi (by omega) heq]
    obtain ⟨h1, h2, h3, h4⟩ := (equals_trace_entries_iff act entry _).1 heq
    by_cases hlt : (base (last_slot N i)).repeat_ < 255
    · rw [if_pos hlt]
      refine ⟨_, i, rfl, hi, ?_⟩
      rw [Function.update_same]
      exact ⟨h1.symm, h2.symm, h3.symm, h4.symm⟩
    · rw [if_neg hlt]
      exact ⟨base, i, hbase, hi, h1.symm, h2.symm, h3.symm, h4.symm⟩

/-- C14. Bookmark truncation. After `trace_write` at offset 0 (with
`copy_from_user` succeeding) the last-published slot of the ring is a
bookmark whose stored text, the bytes of its message up to the first NUL, is
the input truncated to `PIB_BOOKMARK_MESSAGE` = 16 bytes and cut at its first
line break or NUL. -/
theorem bookmark_truncation (N HZ : Nat) (dev : pib_dev) (base : Nat → pib_trace_entry)
    (clk : trace_clock) (buf : List Nat) (i : Nat)
    (hN : 0 < N) (hbase : dev.trace_data = some base) (hi : dev.trace_index = (i : Int))
    (hr : i + N + 2 ≤ 2147483647) :
    ∃ (b1 : Nat → pib_trace_entry) (j : Nat),
      (trace_write N HZ dev clk buf 0 false).dev.trace_data = some b1
        ∧ (trace_write N HZ dev clk buf 0 false).dev.trace_index = (j : Int)
        ∧ (b1 (last_slot N j)).act = PIB_TRACE_ACT_BOOKMARK.val
        ∧ stored_text (b1 (last_slot N j)).u = cut_text buf := by
  rw [trace_write_at_zero]
  obtain ⟨b1, j, h1, h2, h3, _, _, h6⟩ := last_published_after_append N HZ dev base clk
    PIB_TRACE_ACT_BOOKMARK (bookmark_entry buf) i hN hbase hi hr
  refine ⟨b1, j, h1, h2, h3, ?_⟩
  rw [h6]
  exact stored_text_bookmark_entry buf

/-- Witness of `bookmark_truncation`: the text "hi", a line break and "x"
written to an empty ring of 4 slots is stored as "hi". -/
theorem bookmark_truncation_witness :
    cut_text [104, 105, 10, 120] = [104, 105]
      ∧ ∃ (b1 : Nat → pib_trace_entry) (j : Nat),
        (trace_write 4 1000
            { trace_data := some (fun _ => zero_entry), trace_index := 0, last_record_time := 0,
              last_record_time_index := -4 }
            (sample_clock 0 100 1000) [104, 105, 10, 120] 0 false).dev.trace_data = some b1
        ∧ (trace_write 4 1000
            { trace_data := some (fun _ => zero_entry), trace_index := 0, last_record_time := 0,
              last_record_time_index := -4 }
            (sample_clock 0 100 1000) [104, 105, 10, 120] 0 false).dev.trace_index = (j : Int)
        ∧ (b1 (last_slot 4 j)).act = PIB_TRACE_ACT_BOOKMARK.val
        ∧ stored_text (b1 (last_slot 4 j)).u = cut_text [104, 105, 10, 120] :=
  ⟨by decide, bookmark_truncation 4 1000 _ (fun _ => zero_entry) _ _ 0 (by decide) rfl rfl
    (by decide)⟩

/-! ## Bookmark write channel -/

theorem append_all_same_calls_succ (N HZ : Nat) (dev : pib_dev) (c : trace_clock)
    (act : pib_trace_act) (entry : pib_trace_entry) (n : Nat) :
    append_all N HZ dev (same_calls (List.replicate (n + 1) c) act entry)
      = append_all N HZ (append_new_trace N HZ dev c act entry)
          (same_calls (List.replicate n c) act entry) := by
  simp only [append_all, same_calls, List.replicate_succ, List.map_cons, List.foldl_cons]

theorem saturated_dev_reached (n : Nat) (hn : 255 ≤ n) :
    append_all 4 1000 (register_dev 4)
        (same_calls (List.replicate (n + 1) (sample_clock 0 100 1000)) PIB_TRACE_ACT_BOOKMARK
          (bookmark_entry [104, 105])) = saturated_dev := by
  have h1 := append_new_trace_new 4 1000 (register_dev 4) (fun _ => zero_entry)
    (sample_clock 0 100 1000) PIB_TRACE_ACT_BOOKMARK (bookmark_entry [104, 105]) 0
    (by decide) rfl rfl (by decide) (by decide)
  rw [if_pos (by decide)] at h1
  rw [append_all_same_calls_succ, h1]
  refine Eq.trans (append_all_dups 4 1000 PIB_TRACE_ACT_BOOKMARK (bookmark_entry [104, 105]) 2
    (by decide) (by decide) (List.replicate n (sample_clock 0 100 1000)) _ _ rfl rfl
    ?_ ?_) ?_
  · decide
  · decide
  · rw [List.length_replicate]
    have hmin : min ((Function.update
        (Function.update (fun _ => zero_entry) (0 % 4)
          (time_record (sample_clock 0 100 1000) zero_entry))
        ((0 + 1) % 4)
        (stored_record (sample_clock 0 100 1000) PIB_TRACE_ACT_BOOKMARK
          (bookmark_entry [104, 105])) (last_slot 4 2)).repeat_ + n) 255 = 255 :=
      min_eq_right (by omega)
    rw [hmin]
    unfold set_repeat saturated_dev
    simp only
    congr 2
    funext k
    by_cases hk1 : k = 1
    · subst hk1
      simp [last_slot, Function.update_same, stored_record]
    · by_cases hk0 : k = 0
      · subst hk0
        simp [last_slot, Function.update]
      · simp [last_slot, Function.update, hk1, hk0]

/-- Counterexample to C15 as stated: a write that starts at offset 0 and
leaves the ring as it was. The ring `saturated_dev` is what 256 appends of the
bookmark "hi" to a fresh ring of 4 slots leave; one more write of "hi" at
offset 0 returns 2 and sets the position to 2, and the trace state of the
device, the ring included, is unchanged: the bookmark is a duplicate of the
last-published record and its `repeat` is already 255. -/
theorem bookmark_write_unmodified :
    append_all 4 1000 (register_dev 4)
        (same_calls (List.replicate (255 + 1) (sample_clock 0 100 1000)) PIB_TRACE_ACT_BOOKMARK
          (bookmark_entry [104, 105])) = saturated_dev
      ∧ (trace_write 4 1000 saturated_dev (sample_clock 7 200 2000) [104, 105] 0 false).ret = 2
      ∧ (trace_write 4 1000 saturated_dev (sample_clock 7 200 2000) [104, 105] 0 false).ppos = 2
      ∧ (trace_write 4 1000 saturated_dev (sample_clock 7 200 2000) [104, 105] 0 false).dev
          = saturated_dev := by
  refine ⟨saturated_dev_reached 255 (le_refl _), by decide, by decide, ?_⟩
  rw [trace_write_at_zero]
  have h := append_new_trace_dup 4 1000 saturated_dev _ (sample_clock 7 200 2000)
    PIB_TRACE_ACT_BOOKMARK (bookmark_entry [104, 105]) 2 (by decide) rfl rfl (by decide)
    (by decide)
  rw [h]
  exact if_neg (by decide)

/-- C15, amended. For `len = buf.length < 2^63`, when `copy_from_user`
succeeds, `trace_write` returns `len` and sets the file position to `len`. A
write that starts at a nonzero offset leaves the trace state of the device,
the ring included, unchanged. A write that starts at offset 0 passes the
bookmark to `append_new_trace`, and it modifies the ring unless the bookmark
is a duplicate of the last-published record and the `repeat` of that record
has reached 255. -/
theorem bookmark_write_channel (N HZ : Nat) (dev : pib_dev) (base : Nat → pib_trace_entry)
    (clk : trace_clock) (buf : List Nat) (ppos : Int) (i : Nat)
    (hN : 0 < N) (hbase : dev.trace_data = some base) (hi : dev.trace_index = (i : Int))
    (hr : i + N + 2 ≤ 2147483647) (hlen : buf.length < 2 ^ 63) :
    (trace_write N HZ dev clk buf ppos false).ret = (buf.length : Int)
      ∧ (trace_write N HZ dev clk buf ppos false).ppos = (buf.length : Int)
      ∧ (ppos ≠ 0 → (trace_write N HZ dev clk buf ppos false).dev = dev)
      ∧ (ppos = 0 →
          (trace_write N HZ dev clk buf ppos false).dev
            = append_new_trace N HZ dev clk PIB_TRACE_ACT_BOOKMARK (bookmark_entry buf))
      ∧ (ppos = 0 →
          ((trace_write N HZ dev clk buf ppos false).dev = dev
            ↔ equals_trace_entries PIB_TRACE_ACT_BOOKMARK (bookmark_entry buf)
                  (base (last_slot N i)) = true
                ∧ 255 ≤ (base (last_slot N i)).repeat_)) := by
  have hw : wrap_long (buf.length : Int) = (buf.length : Int) :=
    wrap_long_of_range _ (by omega) (by omega)
  refine ⟨?_, ?_, ?_, ?_, ?_⟩
  · unfold trace_write
    by_cases hp : ppos ≠ 0
    · rw [if_pos hp]; exact hw
    · rw [if_neg hp]; exact hw
  · unfold trace_write
    by_cases hp : ppos ≠ 0
    · rw [if_pos hp]; exact hw
    · rw [if_neg hp]; exact hw
  · intro hp
    unfold trace_write
    rw [if_pos hp]
  · intro hp
    subst hp
    exact trace_write_at_zero N HZ dev clk buf
  · intro hp
    subst hp
    rw [trace_write_at_zero]
    cases heq : equals_trace_entries PIB_TRACE_ACT_BOOKMARK (bookmark_entry buf)
        (base (last_slot N i))
    · rw [append_new_trace_new N HZ dev base clk _ _ i hN hbase hi hr heq]
      simp only [Bool.false_eq_true, false_and, iff_false]
      by_cases hd : time_record_due N HZ dev clk = true
      · rw [if_pos hd]
        intro h
        have h1 := congrArg pib_dev.trace_index h
        simp only [hi] at h1
        omega
      · rw [if_neg hd]
        intro h
        have h1 := congrArg pib_dev.trace_index h
        simp only [hi] at h1
        omega
    · rw [append_new_trace_dup N HZ dev base clk _ _ i hN hbase hi (by omega) heq]
      simp only [true_and]
      by_cases hlt : (base (last_slot N i)).repeat_ < 255
      · rw [if_pos hlt]
        constructor
        · intro h
          have h0 := congrArg pib_dev.trace_data h
          simp only [hbase] at h0
          have h1 := congrFun (Option.some.inj h0) (last_slot N i)
          rw [Function.update_same] at h1
          have h2 := congrArg pib_trace_entry.repeat_ h1
          simp only at h2
          omega
        · intro h
          omega
      · rw [if_neg hlt]
        exact ⟨fun _ => by omega, fun _ => rfl⟩

/-- Witness of `bookmark_write_channel`: "hi" written at offset 0 to an empty
ring of 4 slots. -/
theorem bookmark_write_channel_witness :
    (trace_write 4 1000
        { trace_data := some (fun _ => zero_entry), trace_index := 0, last_record_time := 0,
          last_record_time_index := -4 }
        (sample_clock 0 100 1000) [104, 105] 0 false).ret = ((2 : Nat) : Int)
      ∧ (trace_write 4 1000
        { trace_data := some (fun _ => zero_entry), trace_index := 0, last_record_time := 0,
          last_record_time_index := -4 }
        (sample_clock 0 100 1000) [104, 105] 0 false).dev
          = append_new_trace 4 1000
              { trace_data := some (fun _ => zero_entry), trace_index := 0,
                last_record_time := 0, last_record_time_index := -4 }
              (sample_clock 0 100 1000) PIB_TRACE_ACT_BOOKMARK (bookmark_entry [104, 105]) :=
  ⟨(bookmark_write_channel 4 1000 _ (fun _ => zero_entry) _ [104, 105] 0 0 (by decide) rfl rfl
      (by decide) (by decide)).1,
    (bookmark_write_channel 4 1000 _ (fun _ => zero_entry) _ [104, 105] 0 0 (by decide) rfl rfl
      (by decide) (by decide)).2.2.2.1 rfl⟩

/-! ## Early stop at an unwritten slot -/

/-- C18 fails in the code. On the ring `half_published_dev` (time record in
slot 0, slot 1 claimed and of kind NONE, slots 2 and 3 never written, counter
2) `trace_open` succeeds with the cursor on slot 0. The first traversal emits
the line of the time record and ends when `trace_seq_next` meets the NONE
slot 1, leaving `info->index` on it. The traversal of the next `read()` starts
with `trace_seq_start`, which tests the index against the capacity only and
returns the cursor, and `trace_seq_show` is called for the NONE slot: it looks
up `str_act[PIB_TRACE_ACT_NONE]` and runs into `default: BUG()`. -/
theorem resumed_playback_renders_none_slot :
    (resumed_playback 4 half_published_dev { tv_sec := 200, tv_nsec := 0 } 5000 2).map
        (fun reads => reads.map (fun lines => lines.map (fun l => (l.entry.act, l.bug))))
      = some [[(PIB_TRACE_ACT_TIMEDATE.val, false)], [(PIB_TRACE_ACT_NONE.val, true)]] := by
  decide

/-! ## Re-anchoring -/

theorem trace_seq_next_fields (N : Nat) (base : Nat → pib_trace_entry) (info : pib_trace_info)
    (h : info.index + 1 < 4294967296) :
    (trace_seq_next N base info).1.index = info.index + 1
      ∧ (trace_seq_next N base info).1.start = info.start
      ∧ (trace_seq_next N base info).1.tsc_ratio = info.tsc_ratio := by
  have hw : wrap_u32 ((info.index : Int) + 1) = info.index + 1 := by
    have := wrap_u32_of_range (info.index + 1) h
    push_cast at this
    exact this
  unfold trace_seq_next
  simp only [hw]
  split_ifs <;> exact ⟨rfl, rfl, rfl⟩

theorem trace_seq_next_returns (N : Nat) (base : Nat → pib_trace_entry) (info : pib_trace_info)
    (h : info.index + 1 < 4294967296) (hN : info.index + 1 < N)
    (hact : (base (info_slot N info.start (info.index + 1))).act ≠ PIB_TRACE_ACT_NONE.val) :
    (trace_seq_next N base info).2 = true := by
  have hw : wrap_u32 ((info.index : Int) + 1) = info.index + 1 := by
    have := wrap_u32_of_range (info.index + 1) h
    push_cast at this
    exact this
  unfold trace_seq_next
  simp only [hw]
  rw [if_neg (by omega), if_neg hact]
  split_ifs <;> rfl

theorem trace_seq_next_basis (N : Nat) (base : Nat → pib_trace_entry) (info : pib_trace_info)
    (h : info.index + 1 < 4294967296) (hN : info.index + 1 < N) :
    ((base (info_slot N info.start (info.index + 1))).act = PIB_TRACE_ACT_TIMEDATE.val →
        (trace_seq_next N base info).1.base_timespec
            = timedate_time (base (info_slot N info.start (info.index + 1))).u
          ∧ (trace_seq_next N base info).1.base_timestamp
            = (base (info_slot N info.start (info.index + 1))).timestamp)
      ∧ ((base (info_slot N info.start (info.index + 1))).act ≠ PIB_TRACE_ACT_TIMEDATE.val →
        (trace_seq_next N base info).1.base_timespec = info.base_timespec
          ∧ (trace_seq_next N base info).1.base_timestamp = info.base_timestamp) := by
  have hw : wrap_u32 ((info.index : Int) + 1) = info.index + 1 := by
    have := wrap_u32_of_range (info.index + 1) h
    push_cast at this
    exact this
  unfold trace_seq_next
  simp only [hw]
  rw [if_neg (by omega)]
  constructor
  · intro hA
    rw [if_neg (by rw [hA]; decide), if_pos hA]
    exact ⟨rfl, rfl⟩
  · intro hA
    rw [if_neg hA]
    split_ifs <;> exact ⟨rfl, rfl⟩

theorem cursor_after_succ (N : Nat) (base : Nat → pib_trace_entry) :
    ∀ (j : Nat) (info : pib_trace_info),
      cursor_after N base (j + 1) info = (trace_seq_next N base (cursor_after N base j info)).1 := by
  intro j
  induction j with
  | zero => intro info; rfl
  | succ j ih =>
    intro info
    rw [cursor_after, ih (trace_seq_next N base info).1]
    rfl

theorem cursor_after_fields (N : Nat) (base : Nat → pib_trace_entry) (info : pib_trace_info) :
    ∀ j, info.index + j < 4294967296 →
      (cursor_after N base j info).index = info.index + j
        ∧ (cursor_after N base j info).start = info.start
        ∧ (cursor_after N base j info).tsc_ratio = info.tsc_ratio := by
  intro j
  induction j with
  | zero => intro _; exact ⟨rfl, rfl, rfl⟩
  | succ j ih =>
    intro h
    obtain ⟨h1, h2, h3⟩ := ih (by omega)
    obtain ⟨g1, g2, g3⟩ := trace_seq_next_fields N base (cursor_after N base j info)
      (by rw [h1]; omega)
    rw [cursor_after_succ]
    exact ⟨by rw [g1, h1]; rfl, by rw [g2, h2], by rw [g3, h3]⟩

/-- The basis of the cursor at offset `k` is that of the time record at offset
`a`, the last one at or before `k`. -/
theorem cursor_after_basis (N : Nat) (base : Nat → pib_trace_entry) (info : pib_trace_info)
    (hN2 : N ≤ 2147483647) (a : Nat)
    (hA : (base (info_slot N info.start (info.index + (a + 1)))).act
      = PIB_TRACE_ACT_TIMEDATE.val) :
    ∀ d, info.index + (a + 1 + d) < N →
      (∀ t, a + 1 < t → t ≤ a + 1 + d →
        (base (info_slot N info.start (info.index + t))).act ≠ PIB_TRACE_ACT_TIMEDATE.val) →
      (cursor_after N base (a + 1 + d) info).base_timespec
          = timedate_time (base (info_slot N info.start (info.index + (a + 1)))).u
        ∧ (cursor_after N base (a + 1 + d) info).base_timestamp
          = (base (info_slot N info.start (info.index + (a + 1)))).timestamp := by
  intro d
  induction d with
  | zero =>
    intro hk _
    obtain ⟨h1, h2, _⟩ := cursor_after_fields N base info a (by omega)
    rw [Nat.add_zero, cursor_after_succ]
    have hb := (trace_seq_next_basis N base (cursor_after N base a info) (by rw [h1]; omega)
      (by rw [h1]; omega)).1
    rw [h1, h2] at hb
    exact hb hA
  | succ d ih =>
    intro hk hnone
    obtain ⟨i1, i2⟩ := ih (by omega) (fun t h1 h2 => hnone t h1 (by omega))
    obtain ⟨h1, h2, _⟩ := cursor_after_fields N base info (a + 1 + d) (by omega)
    rw [show a + 1 + (d + 1) = a + 1 + d + 1 by omega, cursor_after_succ]
    have hb := (trace_seq_next_basis N base (cursor_after N base (a + 1 + d) info)
      (by rw [h1]; omega) (by rw [h1]; omega)).2
    rw [h1, h2] at hb
    obtain ⟨b1, b2⟩ := hb (hnone (a + 1 + d + 1) (by omega) (by omega))
    exact ⟨by rw [b1, i1], by rw [b2, i2]⟩

theorem seq_loop_total (N : Nat) (base : Nat → pib_trace_entry) (hN2 : N ≤ 2147483647) :
    ∀ (fuel : Nat) (info : pib_trace_info), info.index < N → N ≤ fuel + info.index →
      ∃ r, seq_loop N base fuel info = some r := by
  intro fuel
  induction fuel with
  | zero => intro info h1 h2; omega
  | succ fuel ih =>
    intro info h1 h2
    rw [seq_loop]
    split_ifs with hbug
    · exact ⟨_, rfl⟩
    · obtain ⟨g1, _, _⟩ := trace_seq_next_fields N base info (by omega)
      rcases hnext : trace_seq_next N base info with ⟨info1, ok⟩
      rw [hnext] at g1
      simp only at g1
      cases ok with
      | false => exact ⟨_, rfl⟩
      | true =>
        have hlt : info1.index < N := by
          by_contra hge
          have hw : wrap_u32 ((info.index : Int) + 1) = info.index + 1 := by
            have := wrap_u32_of_range (info.index + 1) (by omega)
            push_cast at this
            exact this
          have : (trace_seq_next N base info).2 = false := by
            unfold trace_seq_next
            simp only [hw]
            rw [if_pos (by omega)]
          rw [hnext] at this
          exact Bool.noConfusion this
        obtain ⟨r, hr⟩ := ih info1 hlt (by omega)
        simp only [hr]
        exact ⟨_, rfl⟩

/-- The line at offset `j` of a traversal that gets that far is the one
`trace_seq_show` renders with the cursor after `j` calls of `trace_seq_next`. -/
theorem seq_loop_line (N : Nat) (base : Nat → pib_trace_entry) (hN2 : N ≤ 2147483647) :
    ∀ (j fuel : Nat) (info : pib_trace_info), info.index + j < N → N ≤ fuel + info.index →
      (∀ t, t < j → (trace_seq_show N base (cursor_after N base t info)).bug = false
        ∧ (trace_seq_next N base (cursor_after N base t info)).2 = true) →
      ∃ lines info2, seq_loop N base fuel info = some (lines, info2)
        ∧ lines[j]? = some (trace_seq_show N base (cursor_after N base j info)) := by
  intro j
  induction j with
  | zero =>
    intro fuel info h1 h2 _
    cases fuel with
    | zero => omega
    | succ fuel =>
      rw [seq_loop]
      split_ifs with hbug
      · exact ⟨_, _, rfl, rfl⟩
      · rcases hnext : trace_seq_next N base info with ⟨info1, ok⟩
        cases ok with
        | false => exact ⟨_, _, rfl, rfl⟩
        | true =>
          simp only
          cases hrec : seq_loop N base fuel info1 with
          | none =>
            exfalso
            have hloop := seq_loop_total N base hN2 (fuel + 1) info (by omega) h2
            rw [seq_loop] at hloop
            simp only [hbug, Bool.false_eq_true, if_false, hnext, hrec] at hloop
            obtain ⟨r, hr⟩ := hloop
            exact Option.noConfusion hr
          | some r => exact ⟨_, _, rfl, List.getElem?_cons_zero⟩
  | succ j ih =>
    intro fuel info h1 h2 hsteps
    cases fuel with
    | zero => omega
    | succ fuel =>
      obtain ⟨hbug, hok⟩ := hsteps 0 (by omega)
      simp only [cursor_after] at hbug hok
      obtain ⟨g1, _, _⟩ := trace_seq_next_fields N base info (by omega)
      rcases hnext : trace_seq_next N base info with ⟨info1, ok⟩
      rw [hnext] at g1 hok
      simp only at g1 hok
      subst hok
      have hcur : ∀ t, cursor_after N base (t + 1) info = cursor_after N base t info1 := by
        intro t
        rw [cursor_after, hnext]
      obtain ⟨lines, info2, hl, hj⟩ := ih fuel info1 (by omega) (by omega)
        (fun t ht => by
          have := hsteps (t + 1) (by omega)
          rw [hcur] at this
          exact this)
      rw [seq_loop]
      simp only [hbug, Bool.false_eq_true, if_false, hnext, hl]
      refine ⟨_, _, rfl, ?_⟩
      rw [List.getElem?_cons_succ, hj, hcur]

theorem cursor_after_basis_start (N : Nat) (base : Nat → pib_trace_entry)
    (info : pib_trace_info) (hN2 : N ≤ 2147483647) :
    ∀ d, info.index + d < N →
      (∀ t, 0 < t → t ≤ d →
        (base (info_slot N info.start (info.index + t))).act ≠ PIB_TRACE_ACT_TIMEDATE.val) →
      (cursor_after N base d info).base_timespec = info.base_timespec
        ∧ (cursor_after N base d info).base_timestamp = info.base_timestamp := by
  intro d
  induction d with
  | zero => intro _ _; exact ⟨rfl, rfl⟩
  | succ d ih =>
    intro hk hnone
    obtain ⟨i1, i2⟩ := ih (by omega) (fun t h1 h2 => hnone t h1 (by omega))
    obtain ⟨h1, h2, _⟩ := cursor_after_fields N base info d (by omega)
    rw [cursor_after_succ]
    have hb := (trace_seq_next_basis N base (cursor_after N base d info)
      (by rw [h1]; omega) (by rw [h1]; omega)).2
    rw [h1, h2] at hb
    obtain ⟨b1, b2⟩ := hb (hnone (d + 1) (by omega) (by omega))
    exact ⟨by rw [b1, i1], by rw [b2, i2]⟩

theorem pib_trace_info_eq (x : pib_trace_info) (s i : Nat) (t : timespec) (c r : Nat)
    (h1 : x.start = s) (h2 : x.index = i) (h3 : x.base_timespec = t) (h4 : x.base_timestamp = c)
    (h5 : x.tsc_ratio = r) :
    x = { start := s, index := i, base_timespec := t, base_timestamp := c, tsc_ratio := r } := by
  cases x
  simp only at h1 h2 h3 h4 h5
  rw [h1, h2, h3, h4, h5]

theorem show_time_eq (info : pib_trace_info) (c : Nat)
    (hns0 : 0 ≤ info.base_timespec.tv_nsec) (hns1 : info.base_timespec.tv_nsec < 1000000000)
    (hc : info.base_timestamp ≤ c) (hc2 : c < 18446744073709551616)
    (hmul : (c - info.base_timestamp) * info.tsc_ratio < 18446744073709551616)
    (hsec0 : -9223372036854775808 ≤ info.base_timespec.tv_sec)
    (hsec1 : info.base_timespec.tv_sec
      + (info.base_timespec.tv_nsec
          + (((c - info.base_timestamp) * info.tsc_ratio / 65536 : Nat) : Int)) / 1000000000
        ≤ 9223372036854775807) :
    show_time info c
      = { tv_sec := info.base_timespec.tv_sec
            + (info.base_timespec.tv_nsec
                + (((c - info.base_timestamp) * info.tsc_ratio / 65536 : Nat) : Int))
              / 1000000000,
          tv_nsec := (info.base_timespec.tv_nsec
                + (((c - info.base_timestamp) * info.tsc_ratio / 65536 : Nat) : Int))
              % 1000000000 } := by
  unfold show_time
  have h1 : wrap_u64 ((c : Int) - (info.base_timestamp : Int)) = c - info.base_timestamp := by
    rw [show (c : Int) - (info.base_timestamp : Int) = ((c - info.base_timestamp : Nat) : Int) by
      omega]
    exact wrap_u64_of_range _ (by omega)
  have h2 : wrap_u64 (((c - info.base_timestamp : Nat) : Int) * (info.tsc_ratio : Int))
      = (c - info.base_timestamp) * info.tsc_ratio := by
    rw [show ((c - info.base_timestamp : Nat) : Int) * (info.tsc_ratio : Int)
      = (((c - info.base_timestamp) * info.tsc_ratio : Nat) : Int) by push_cast; rfl]
    exact wrap_u64_of_range _ hmul
  simp only [h1, h2, PIB_TSC_RATIO_BIAS]
  generalize hd : (c - info.base_timestamp) * info.tsc_ratio / 65536 = delta at *
  have hdelta : delta < 281474976710656 := by
    rw [← hd]; omega
  have hw : wrap_long (info.base_timespec.tv_nsec + (delta : Int))
      = info.base_timespec.tv_nsec + (delta : Int) :=
    wrap_long_of_range _ (by omega) (by omega)
  rw [hw, normalize_nsec_eq _ _ (by simp only; omega) rfl (by simp only; omega)
    (by simp only; omega)]

theorem show_time_at_basis (info : pib_trace_info)
    (hns0 : 0 ≤ info.base_timespec.tv_nsec) (hns1 : info.base_timespec.tv_nsec < 1000000000) :
    show_time info info.base_timestamp = info.base_timespec := by
  unfold show_time
  have h1 : wrap_u64 ((info.base_timestamp : Int) - (info.base_timestamp : Int)) = 0 := by
    rw [sub_self]; rfl
  simp only [h1, Nat.cast_zero, zero_mul]
  have h2 : wrap_u64 0 / PIB_TSC_RATIO_BIAS = 0 := by decide
  rw [h2]
  have hw : wrap_long (info.base_timespec.tv_nsec + ((0 : Nat) : Int))
      = info.base_timespec.tv_nsec := by
    rw [Nat.cast_zero, add_zero]
    exact wrap_long_of_range _ (by omega) (by omega)
  rw [hw, normalize_nsec, if_neg (by simp only; omega)]

/-- The lines of a playback, up to offset `k`, when the slots up to there hold
records: each is rendered with the cursor that many calls of `trace_seq_next`
after the open. -/
theorem playback_line (N : Nat) (dev : pib_dev) (base : Nat → pib_trace_entry)
    (now_timespec : timespec) (now_timestamp : Nat) (info : pib_trace_info) (k : Nat)
    (hN2 : N ≤ 2147483647) (hbase : dev.trace_data = some base)
    (hopen : trace_open N dev true now_timespec now_timestamp 0 = .opened info)
    (hk : info.index + k < N)
    (hrec : ∀ t, t ≤ k → 1 ≤ (base (info_slot N info.start (info.index + t))).act
      ∧ (base (info_slot N info.start (info.index + t))).act ≤ 9) :
    ∃ lines, playback N dev now_timespec now_timestamp = some lines
      ∧ ∀ t, t ≤ k → lines[t]? = some (trace_seq_show N base (cursor_after N base t info)) := by
  have hplay : playback N dev now_timespec now_timestamp
      = (seq_loop N base (N + 1) info).map Prod.fst := by
    unfold playback
    rw [hbase, hopen]
    simp only [seq_traverse, trace_seq_start]
    rw [if_neg (by omega)]
  obtain ⟨r, hr⟩ := seq_loop_total N base hN2 (N + 1) info (by omega) (by omega)
  refine ⟨r.1, by rw [hplay, hr]; rfl, ?_⟩
  intro t ht
  have hsteps : ∀ u, u < t →
      (trace_seq_show N base (cursor_after N base u info)).bug = false
        ∧ (trace_seq_next N base (cursor_after N base u info)).2 = true := by
    intro u hu
    obtain ⟨h1, h2, _⟩ := cursor_after_fields N base info u (by omega)
    constructor
    · have := hrec u (by omega)
      simp only [trace_seq_show, h1, h2, decide_eq_false_iff_not]
      omega
    · apply trace_seq_next_returns N base _ (by rw [h1]; omega) (by rw [h1]; omega)
      rw [h1, h2, Nat.add_assoc]
      have := hrec (u + 1) (by omega)
      simp only [pib_trace_act.val] at this ⊢
      omega
  obtain ⟨lines, info2, hl, hj⟩ := seq_loop_line N base hN2 t (N + 1) info (by omega) (by omega)
    hsteps
  rw [hr] at hl
  have : r.1 = lines := by
    have := Option.some.inj hl
    rw [this]
  rw [this]
  exact hj


theorem normalized_time_ns (sec nsec delta : Int) :
    (sec + (nsec + delta) / 1000000000) * 1000000000 + (nsec + delta) % 1000000000
        = sec * 1000000000 + nsec + delta
      ∧ 0 ≤ (nsec + delta) % 1000000000 ∧ (nsec + delta) % 1000000000 < 1000000000 := by
  omega

/-- The ratio of the cursor `trace_open` returns is the quotient it computes
from the basis it has chosen and the reader's sample. -/
theorem opened_ratio_def (N : Nat) (dev : pib_dev) (base : Nat → pib_trace_entry) (i : Nat)
    (now_timespec : timespec) (now_timestamp : Nat) (info : pib_trace_info)
    (hN : 0 < N) (hN2 : N ≤ 2147483647) (hbase : dev.trace_data = some base)
    (hi : dev.trace_index = (i : Int))
    (hopen : trace_open N dev true now_timespec now_timestamp 0 = .opened info) :
    info.tsc_ratio
      = wrap_u64 ((PIB_TSC_RATIO_BIAS : Int)
          * (duration_ns now_timespec info.base_timespec : Int))
        / wrap_u64 ((now_timestamp : Int) - (info.base_timestamp : Int)) := by
  rw [trace_open_eq N dev base i now_timespec now_timestamp 0 hN hN2 hbase hi] at hopen
  cases hf : first_time_record N base (i % N) with
  | none => rw [hf] at hopen; simp at hopen
  | some m =>
    rw [hf] at hopen
    simp only [ne_eq, not_true_eq_false, if_false] at hopen
    split_ifs at hopen with hz
    injection hopen with hinfo
    subst hinfo
    rfl

theorem shown_time_of_cursor (cur : pib_trace_info) (c : Nat) (delta : Nat)
    (hns0 : 0 ≤ cur.base_timespec.tv_nsec) (hns1 : cur.base_timespec.tv_nsec < 1000000000)
    (hc : cur.base_timestamp ≤ c) (hc2 : c < 18446744073709551616)
    (hmul : (c - cur.base_timestamp) * cur.tsc_ratio < 18446744073709551616)
    (hdelta : (c - cur.base_timestamp) * cur.tsc_ratio / 65536 = delta)
    (hsec0 : -9223372036854775808 ≤ cur.base_timespec.tv_sec)
    (hsec1 : cur.base_timespec.tv_sec
      + (cur.base_timespec.tv_nsec + (delta : Int)) / 1000000000 ≤ 9223372036854775807) :
    show_time cur c
      = { tv_sec := cur.base_timespec.tv_sec
            + (cur.base_timespec.tv_nsec + (delta : Int)) / 1000000000,
          tv_nsec := (cur.base_timespec.tv_nsec + (delta : Int)) % 1000000000 } := by
  subst hdelta
  exact show_time_eq cur c hns0 hns1 hc hc2 hmul hsec0 hsec1

/-- C12, as the claim states it, fails. The rings `two_anchor_ring` and
`early_anchor_ring` differ in nothing but the wall time of their first time
record, 100 s against 50 s. Read at (400 s, 5 ns) and 5000 cycles, both
playbacks cross the second time record, (150 s, 5 ns) at 2000 cycles, and
render the record after it, stamped 2011 cycles, on that basis, but with the
ratio computed at open from the first time record: 4915200000000 against
5734400000000. The line shows 150 s + 825000005 ns in one playback and
150 s + 962500005 ns in the other, so it is not independent of the first
anchor's values. -/
theorem rendering_depends_on_first_anchor :
    ∃ lines1 lines2,
      playback 4 two_anchor_dev { tv_sec := 400, tv_nsec := 5 } 5000 = some lines1
      ∧ playback 4 early_anchor_dev { tv_sec := 400, tv_nsec := 5 } 5000 = some lines2
      ∧ (∀ k, k ≠ 0 → early_anchor_ring k = two_anchor_ring k)
      ∧ (early_anchor_ring 0).timestamp = (two_anchor_ring 0).timestamp
      ∧ timedate_time (two_anchor_ring 0).u = { tv_sec := 100, tv_nsec := 5 }
      ∧ timedate_time (early_anchor_ring 0).u = { tv_sec := 50, tv_nsec := 5 }
      ∧ lines1[3]?.map (fun l => (l.entry, l.time))
          = some (two_anchor_ring 3, { tv_sec := 150, tv_nsec := 825000005 })
      ∧ lines2[3]?.map (fun l => (l.entry, l.time))
          = some (two_anchor_ring 3, { tv_sec := 150, tv_nsec := 962500005 }) := by
  obtain ⟨lines1, hp1, hl1⟩ := playback_line 4 two_anchor_dev two_anchor_ring
    { tv_sec := 400, tv_nsec := 5 } 5000
    { start := 0, index := 0, base_timespec := { tv_sec := 100, tv_nsec := 5 },
      base_timestamp := 1000, tsc_ratio := 4915200000000 } 3
    (by decide) rfl (by decide) (by decide) (fun t ht => by interval_cases t <;> decide)
  obtain ⟨lines2, hp2, hl2⟩ := playback_line 4 early_anchor_dev early_anchor_ring
    { tv_sec := 400, tv_nsec := 5 } 5000
    { start := 0, index := 0, base_timespec := { tv_sec := 50, tv_nsec := 5 },
      base_timestamp := 1000, tsc_ratio := 5734400000000 } 3
    (by decide) rfl (by decide) (by decide) (fun t ht => by interval_cases t <;> decide)
  have hc1 : cursor_after 4 two_anchor_ring 3
      { start := 0, index := 0, base_timespec := { tv_sec := 100, tv_nsec := 5 },
        base_timestamp := 1000, tsc_ratio := 4915200000000 }
      = { start := 0, index := 3, base_timespec := { tv_sec := 150, tv_nsec := 5 },
          base_timestamp := 2000, tsc_ratio := 4915200000000 } := by decide
  have hc2 : cursor_after 4 early_anchor_ring 3
      { start := 0, index := 0, base_timespec := { tv_sec := 50, tv_nsec := 5 },
        base_timestamp := 1000, tsc_ratio := 5734400000000 }
      = { start := 0, index := 3, base_timespec := { tv_sec := 150, tv_nsec := 5 },
          base_timestamp := 2000, tsc_ratio := 5734400000000 } := by decide
  have ht1 : show_time
      { start := 0, index := 3, base_timespec := { tv_sec := 150, tv_nsec := 5 },
        base_timestamp := 2000, tsc_ratio := 4915200000000 } 2011
      = { tv_sec := 150, tv_nsec := 825000005 } := by
    rw [shown_time_of_cursor _ 2011 825000000 (by decide) (by decide) (by decide) (by decide)
      (by decide) (by decide) (by decide) (by decide)]
    decide
  have ht2 : show_time
      { start := 0, index := 3, base_timespec := { tv_sec := 150, tv_nsec := 5 },
        base_timestamp := 2000, tsc_ratio := 5734400000000 } 2011
      = { tv_sec := 150, tv_nsec := 962500005 } := by
    rw [shown_time_of_cursor _ 2011 962500000 (by decide) (by decide) (by decide) (by decide)
      (by decide) (by decide) (by decide) (by decide)]
    decide
  have he1 : two_anchor_ring (info_slot 4 0 3) = two_anchor_ring 3 := by decide
  have he2 : early_anchor_ring (info_slot 4 0 3) = two_anchor_ring 3 := by decide
  have hs : (two_anchor_ring 3).timestamp = 2011 := by decide
  refine ⟨lines1, lines2, hp1, hp2, ?_, by decide, by decide, by decide, ?_, ?_⟩
  · intro k hk
    unfold early_anchor_ring
    rw [if_neg hk]
  · rw [hl1 3 (le_refl _), hc1]
    simp only [Option.map_some', trace_seq_show]
    rw [he1, hs, ht1]
  · rw [hl2 3 (le_refl _), hc2]
    simp only [Option.map_some', trace_seq_show]
    rw [he2, hs, ht2]

/-- C12, amended. Re-anchoring of the basis, not of the ratio. Let a playback,
opened by `trace_open` with the cursor `info`, cross a second time record A2
at offset `a >= 1` from the first one, with no time record between the two
and none after A2 up to offset `k`, the slots up to offset `k` holding
records. Then the lines before A2 are rendered on the basis found at open, and
A2 and every record after it, up to offset `k`, are rendered by
`trace_seq_show` on the basis `(A2.wall, A2.cycles)` with the ratio of `info`.
That ratio is the one `trace_open` computed from the basis found at open, the
first time record, and the reader's sample, and it is not recomputed at A2: the
first time record's wall time and cycle stamp enter the lines after A2 through
the ratio and in no other way. Without 64-bit overflow such a line with cycle
stamp `c` shows the time `A2.wall + (c - A2.cycles) * ratio / 65536`, in
nanoseconds, and the line of A2 itself shows exactly the wall time recorded in
A2 (whose nanoseconds are in `0 .. 10^9 - 1`). -/
theorem re_anchoring (N : Nat) (dev : pib_dev) (base : Nat → pib_trace_entry) (i : Nat)
    (now_timespec : timespec) (now_timestamp : Nat) (info : pib_trace_info) (a k : Nat)
    (hN : 0 < N) (hN2 : N ≤ 2147483647) (hbase : dev.trace_data = some base)
    (hi : dev.trace_index = (i : Int))
    (hopen : trace_open N dev true now_timespec now_timestamp 0 = .opened info)
    (ha : 1 ≤ a) (hak : a ≤ k) (hk : info.index + k < N)
    (hrec : ∀ t, t ≤ k → 1 ≤ (base (info_slot N info.start (info.index + t))).act
      ∧ (base (info_slot N info.start (info.index + t))).act ≤ 9)
    (hfirst : ∀ t, 0 < t → t < a →
      (base (info_slot N info.start (info.index + t))).act ≠ PIB_TRACE_ACT_TIMEDATE.val)
    (hA : (base (info_slot N info.start (info.index + a))).act = PIB_TRACE_ACT_TIMEDATE.val)
    (hlast : ∀ t, a < t → t ≤ k →
      (base (info_slot N info.start (info.index + t))).act ≠ PIB_TRACE_ACT_TIMEDATE.val)
    (hns0 : 0 ≤ (timedate_time (base (info_slot N info.start (info.index + a))).u).tv_nsec)
    (hns1 : (timedate_time (base (info_slot N info.start (info.index + a))).u).tv_nsec
      < 1000000000) :
    ∃ lines, playback N dev now_timespec now_timestamp = some lines
      ∧ info.tsc_ratio
          = wrap_u64 ((PIB_TSC_RATIO_BIAS : Int)
              * (duration_ns now_timespec info.base_timespec : Int))
            / wrap_u64 ((now_timestamp : Int) - (info.base_timestamp : Int))
      ∧ (∀ t, t < a →
          lines[t]? = some (trace_seq_show N base { info with index := info.index + t }))
      ∧ (∀ t, a ≤ t → t ≤ k →
          lines[t]? = some (trace_seq_show N base
            { start := info.start,
              index := info.index + t,
              base_timespec := timedate_time (base (info_slot N info.start (info.index + a))).u,
              base_timestamp := (base (info_slot N info.start (info.index + a))).timestamp,
              tsc_ratio := info.tsc_ratio }))
      ∧ (∀ t line, a ≤ t → t ≤ k → lines[t]? = some line →
          (base (info_slot N info.start (info.index + a))).timestamp ≤ line.entry.timestamp →
          line.entry.timestamp < 18446744073709551616 →
          (line.entry.timestamp - (base (info_slot N info.start (info.index + a))).timestamp)
            * info.tsc_ratio < 18446744073709551616 →
          -9223372036854775808
            ≤ (timedate_time (base (info_slot N info.start (info.index + a))).u).tv_sec →
          (timedate_time (base (info_slot N info.start (info.index + a))).u).tv_sec
            + ((timedate_time (base (info_slot N info.start (info.index + a))).u).tv_nsec
                + (((line.entry.timestamp
                      - (base (info_slot N info.start (info.index + a))).timestamp)
                    * info.tsc_ratio / 65536 : Nat) : Int)) / 1000000000
            ≤ 9223372036854775807 →
          line.entry = base (info_slot N info.start (info.index + t))
            ∧ line.time.tv_sec * 1000000000 + line.time.tv_nsec
              = (timedate_time (base (info_slot N info.start (info.index + a))).u).tv_sec
                  * 1000000000
                + (timedate_time (base (info_slot N info.start (info.index + a))).u).tv_nsec
                + (((line.entry.timestamp
                      - (base (info_slot N info.start (info.index + a))).timestamp)
                    * info.tsc_ratio / 65536 : Nat) : Int)
            ∧ 0 ≤ line.time.tv_nsec ∧ line.time.tv_nsec < 1000000000)
      ∧ lines[a]?.map (fun l => (l.entry, l.time))
          = some (base (info_slot N info.start (info.index + a)),
              timedate_time (base (info_slot N info.start (info.index + a))).u) := by
  obtain ⟨lines, hplay, hlines⟩ := playback_line N dev base now_timespec now_timestamp info k
    hN2 hbase hopen hk hrec
  obtain ⟨a1, rfl⟩ : ∃ a1, a = a1 + 1 := ⟨a - 1, by omega⟩
  have hafter : ∀ t, a1 + 1 ≤ t → t ≤ k →
      lines[t]? = some (trace_seq_show N base
        { start := info.start,
          index := info.index + t,
          base_timespec :=
            timedate_time (base (info_slot N info.start (info.index + (a1 + 1)))).u,
          base_timestamp := (base (info_slot N info.start (info.index + (a1 + 1)))).timestamp,
          tsc_ratio := info.tsc_ratio }) := by
    intro t h1 h2
    rw [hlines t h2]
    obtain ⟨d, rfl⟩ : ∃ d, t = a1 + 1 + d := ⟨t - (a1 + 1), by omega⟩
    obtain ⟨f1, f2, f3⟩ := cursor_after_fields N base info (a1 + 1 + d) (by omega)
    obtain ⟨b1, b2⟩ := cursor_after_basis N base info hN2 a1 hA d (by omega)
      (fun u h3 h4 => hlast u (by omega) (by omega))
    rw [pib_trace_info_eq _ _ _ _ _ _ f2 f1 b1 b2 f3]
  refine ⟨lines, hplay,
    opened_ratio_def N dev base i now_timespec now_timestamp info hN hN2 hbase hi hopen,
    ?_, hafter, ?_, ?_⟩
  · intro t ht
    rw [hlines t (by omega)]
    obtain ⟨f1, f2, f3⟩ := cursor_after_fields N base info t (by omega)
    obtain ⟨b1, b2⟩ := cursor_after_basis_start N base info hN2 t (by omega)
      (fun u h3 h4 => hfirst u h3 (by omega))
    rw [pib_trace_info_eq _ _ _ _ _ _ f2 f1 b1 b2 f3]
  · intro t line h1 h2 hline
    rw [hafter t h1 h2] at hline
    have hl : line = _ := (Option.some.inj hline).symm
    have he : line.entry = base (info_slot N info.start (info.index + t)) := by
      rw [hl]; rfl
    have ht : line.time = show_time
        { start := info.start,
          index := info.index + t,
          base_timespec :=
            timedate_time (base (info_slot N info.start (info.index + (a1 + 1)))).u,
          base_timestamp := (base (info_slot N info.start (info.index + (a1 + 1)))).timestamp,
          tsc_ratio := info.tsc_ratio }
        line.entry.timestamp := by
      rw [hl]; rfl
    intro hc hc2 hmul hsec0 hsec1
    refine ⟨he, ?_⟩
    have htime := show_time_eq
      { start := info.start,
        index := info.index + t,
        base_timespec :=
          timedate_time (base (info_slot N info.start (info.index + (a1 + 1)))).u,
        base_timestamp := (base (info_slot N info.start (info.index + (a1 + 1)))).timestamp,
        tsc_ratio := info.tsc_ratio }
      line.entry.timestamp hns0 hns1 hc hc2 hmul hsec0 hsec1
    rw [ht, htime]
    exact normalized_time_ns _ _ _
  · rw [hafter (a1 + 1) (le_refl _) hak]
    have htime := show_time_at_basis
      { start := info.start,
        index := info.index + (a1 + 1),
        base_timespec :=
          timedate_time (base (info_slot N info.start (info.index + (a1 + 1)))).u,
        base_timestamp := (base (info_slot N info.start (info.index + (a1 + 1)))).timestamp,
        tsc_ratio := info.tsc_ratio } hns0 hns1
    simp only at htime
    simp only [Option.map_some']
    exact congrArg some (Prod.ext rfl htime)

/-- Witness of `re_anchoring`: on `two_anchor_ring`, read at (400 s, 5 ns) and
5000 cycles, the second time record is at offset 2 and a record follows it at
offset 3; the ratio, 4915200000000, is the one of the first time record,
(100 s, 5 ns) at 1000 cycles, and the reader's sample. -/
theorem re_anchoring_witness :
    ∃ lines, playback 4 two_anchor_dev { tv_sec := 400, tv_nsec := 5 } 5000 = some lines
      ∧ lines[2]?.map (fun l => (l.entry, l.time))
          = some (two_anchor_ring 2, timedate_time (two_anchor_ring 2).u)
      ∧ lines[3]? = some (trace_seq_show 4 two_anchor_ring
          { start := 0, index := 3, base_timespec := timedate_time (two_anchor_ring 2).u,
            base_timestamp := (two_anchor_ring 2).timestamp, tsc_ratio := 4915200000000 }) := by
  obtain ⟨lines, h1, _, _, h3, _, h5⟩ := re_anchoring 4 two_anchor_dev two_anchor_ring 4
    { tv_sec := 400, tv_nsec := 5 } 5000
    { start := 0, index := 0, base_timespec := { tv_sec := 100, tv_nsec := 5 },
      base_timestamp := 1000, tsc_ratio := 4915200000000 } 2 3
    (by decide) (by decide) rfl rfl (by decide) (by decide) (by decide) (by decide)
    (fun t ht => by interval_cases t <;> decide)
    (fun t h1 h2 => by interval_cases t; decide)
    (by decide)
    (fun t h1 h2 => by interval_cases t; decide)
    (by decide) (by decide)
  exact ⟨lines, h1, h5, h3 3 (by decide) (by decide)⟩

/-! ## Time correlation -/

theorem opened_tsc_ratio (N : Nat) (dev : pib_dev) (base : Nat → pib_trace_entry) (i : Nat)
    (now_timespec : timespec) (now_timestamp : Nat) (info : pib_trace_info)
    (hN : 0 < N) (hN2 : N ≤ 2147483647) (hbase : dev.trace_data = some base)
    (hi : dev.trace_index = (i : Int))
    (hopen : trace_open N dev true now_timespec now_timestamp 0 = .opened info)
    (hts : now_timestamp < 18446744073709551616) (hlater : info.base_timestamp < now_timestamp)
    (hD0 : 0 ≤ (now_timespec.tv_sec - info.base_timespec.tv_sec) * 1000000000
      + (now_timespec.tv_nsec - info.base_timespec.tv_nsec))
    (hD1 : 65536 * ((now_timespec.tv_sec - info.base_timespec.tv_sec) * 1000000000
      + (now_timespec.tv_nsec - info.base_timespec.tv_nsec)) < 18446744073709551616) :
    (info.tsc_ratio : Int)
      = 65536 * ((now_timespec.tv_sec - info.base_timespec.tv_sec) * 1000000000
          + (now_timespec.tv_nsec - info.base_timespec.tv_nsec))
        / ((now_timestamp : Int) - (info.base_timestamp : Int)) := by
  rw [trace_open_eq N dev base i now_timespec now_timestamp 0 hN hN2 hbase hi] at hopen
  cases hf : first_time_record N base (i % N) with
  | none => rw [hf] at hopen; simp at hopen
  | some m =>
    rw [hf] at hopen
    simp only [ne_eq, not_true_eq_false, if_false] at hopen
    split_ifs at hopen with hz
    injection hopen with hinfo
    subst hinfo
    simp only [opened_info] at hlater hD0 hD1 ⊢
    generalize (base ((i % N + m) % N)).timestamp = bts at *
    generalize timedate_time (base ((i % N + m) % N)).u = bt at *
    rw [Int.natCast_ediv, wrap_u64_cast, wrap_u64_cast,
      duration_ns_eq now_timespec bt hD0 (by omega)]
    simp only [PIB_TSC_RATIO_BIAS, Nat.cast_ofNat]
    rw [Int.emod_eq_of_lt (by omega) hD1, Int.emod_eq_of_lt (by omega) (by omega)]
    rfl

/-- The fixed-point arithmetic of the estimate at the midpoint: with the
ratio `R = 65536 * D / C` and the estimate `e = (C / 2) * R / 65536`, `e` is at
most `D / 2` and falls short of it by less than
`1 + (C / 2) / 65536 + D / (2 * C)`. -/
theorem midpoint_estimate (D C : Nat) (hC : 0 < C) :
    2 * ((C / 2) * (65536 * D / C) / 65536) ≤ D
      ∧ 65536 * C * D
        < 2 * ((C / 2) * (65536 * D / C) / 65536 + 1) * 65536 * C + 2 * (C / 2) * C + 65536 * D
      ∧ (C / 2) * (65536 * D / C) * 2 ≤ 65536 * D := by
  generalize hR : 65536 * D / C = R
  generalize hh : C / 2 = h
  generalize he : h * R / 65536 = e
  have hRC : R * C ≤ 65536 * D := by rw [← hR]; exact Nat.div_mul_le_self _ _
  have hRC2 : 65536 * D < (R + 1) * C := by
    rw [← hR]
    have := Nat.div_add_mod (65536 * D) C
    have hm := Nat.mod_lt (65536 * D) hC
    calc 65536 * D = C * (65536 * D / C) + 65536 * D % C := this.symm
      _ < C * (65536 * D / C) + C := by omega
      _ = (65536 * D / C + 1) * C := by ring
  have hh1 : 2 * h ≤ C := by omega
  have hh2 : C ≤ 2 * h + 1 := by omega
  have he1 : e * 65536 ≤ h * R := by rw [← he]; exact Nat.div_mul_le_self _ _
  have he2 : h * R < (e + 1) * 65536 := by
    rw [← he]
    have := Nat.div_add_mod (h * R) 65536
    have hm := Nat.mod_lt (h * R) (by decide : 0 < 65536)
    omega
  have hhR : h * R * 2 ≤ 65536 * D := by
    have h1 : 2 * h * R ≤ C * R := Nat.mul_le_mul_right R hh1
    calc h * R * 2 = 2 * h * R := by ring
      _ ≤ C * R := h1
      _ = R * C := by ring
      _ ≤ 65536 * D := hRC
  refine ⟨?_, ?_, hhR⟩
  · have h1 : e * 65536 * 2 ≤ 65536 * D := le_trans (Nat.mul_le_mul_right 2 he1) hhR
    omega
  · have h1 : h * (65536 * D) ≤ h * ((R + 1) * C) := Nat.mul_le_mul_left h (le_of_lt hRC2)
    have h2 : h * R * C < (e + 1) * 65536 * C := Nat.mul_lt_mul_of_pos_right he2 hC
    have h3 : C * (65536 * D) ≤ (2 * h + 1) * (65536 * D) := Nat.mul_le_mul_right _ hh2
    have h4 : h * ((R + 1) * C) = h * R * C + h * C := by ring
    have h5 : (2 * h + 1) * (65536 * D) = 2 * (h * (65536 * D)) + 65536 * D := by ring
    have h6 : 65536 * C * D = C * (65536 * D) := by ring
    have h7 : 2 * (e + 1) * 65536 * C = 2 * ((e + 1) * 65536 * C) := by ring
    have h8 : 2 * h * C = 2 * (h * C) := by ring
    rw [h6, h7, h8]
    rw [h4] at h1
    rw [h5] at h3
    omega

/-- C11. Time correlation. Let `trace_open` succeed with the cursor `info`,
whose basis is a time record at wall time `T0` (in ns) and cycles `C0`, the
reader's sample being `T1 >= T0` at cycles `C1 > C0`, without 64-bit overflow
(`C1 < 2^64`, `65536 * (T1 - T0) < 2^64`, the nanoseconds of both times in
`0 .. 10^9 - 1`, the seconds a `long`). For a record with the cycle stamp
`C0 + (C1 - C0) / 2`, the time `trace_seq_show` renders on that basis, in ns,
never exceeds the midpoint `T0 + (T1 - T0) / 2` and falls short of it by less
than `1 + ((C1 - C0) / 2) / 65536 + (T1 - T0) / (2 * (C1 - C0))` ns, the
`(C1 - C0) / 2` of the bound being the integer offset of the record or, a
weaker bound, the exact half. -/
theorem time_correlation (N : Nat) (dev : pib_dev) (base : Nat → pib_trace_entry) (i : Nat)
    (now_timespec : timespec) (now_timestamp : Nat) (info : pib_trace_info) (k : Nat)
    (hN : 0 < N) (hN2 : N ≤ 2147483647) (hbase : dev.trace_data = some base)
    (hi : dev.trace_index = (i : Int))
    (hopen : trace_open N dev true now_timespec now_timestamp 0 = .opened info)
    (hts : now_timestamp < 18446744073709551616) (hlater : info.base_timestamp < now_timestamp)
    (hns0 : 0 ≤ info.base_timespec.tv_nsec) (hns1 : info.base_timespec.tv_nsec < 1000000000)
    (hsec0 : -9223372036854775808 ≤ info.base_timespec.tv_sec)
    (hnow1 : now_timespec.tv_nsec < 1000000000)
    (hnow2 : now_timespec.tv_sec ≤ 9223372036854775807)
    (hT : timespec_ns info.base_timespec ≤ timespec_ns now_timespec)
    (hD1 : 65536 * (timespec_ns now_timespec - timespec_ns info.base_timespec)
      < 18446744073709551616)
    (hrec : (base (info_slot N info.start k)).timestamp
      = info.base_timestamp + (now_timestamp - info.base_timestamp) / 2) :
    ((timespec_ns (trace_seq_show N base { info with index := k }).time : Int) : ℚ)
        ≤ (timespec_ns info.base_timespec : ℚ)
          + ((timespec_ns now_timespec - timespec_ns info.base_timespec : Int) : ℚ) / 2
      ∧ (timespec_ns info.base_timespec : ℚ)
          + ((timespec_ns now_timespec - timespec_ns info.base_timespec : Int) : ℚ) / 2
          - ((timespec_ns (trace_seq_show N base { info with index := k }).time : Int) : ℚ)
        < 1 + (((now_timestamp - info.base_timestamp) / 2 : Nat) : ℚ) / 65536
          + ((timespec_ns now_timespec - timespec_ns info.base_timespec : Int) : ℚ)
            / (2 * ((now_timestamp - info.base_timestamp : Nat) : ℚ))
      ∧ (timespec_ns info.base_timespec : ℚ)
          + ((timespec_ns now_timespec - timespec_ns info.base_timespec : Int) : ℚ) / 2
          - ((timespec_ns (trace_seq_show N base { info with index := k }).time : Int) : ℚ)
        < 1 + (((now_timestamp - info.base_timestamp : Nat) : ℚ) / 2) / 65536
          + ((timespec_ns now_timespec - timespec_ns info.base_timespec : Int) : ℚ)
            / (2 * ((now_timestamp - info.base_timestamp : Nat) : ℚ)) := by
  have hDdef : timespec_ns now_timespec - timespec_ns info.base_timespec
      = (now_timespec.tv_sec - info.base_timespec.tv_sec) * 1000000000
        + (now_timespec.tv_nsec - info.base_timespec.tv_nsec) := by
    unfold timespec_ns; ring
  have hR := opened_tsc_ratio N dev base i now_timespec now_timestamp info hN hN2 hbase hi hopen
    hts hlater (by rw [← hDdef]; omega) (by rw [← hDdef]; exact hD1)
  rw [← hDdef] at hR
  obtain ⟨Dn, hDn⟩ : ∃ Dn : Nat, timespec_ns now_timespec - timespec_ns info.base_timespec
      = (Dn : Int) :=
    ⟨(timespec_ns now_timespec - timespec_ns info.base_timespec).toNat,
      (Int.toNat_of_nonneg (by omega)).symm⟩
  obtain ⟨C, hC⟩ : ∃ C : Nat, now_timestamp - info.base_timestamp = C := ⟨_, rfl⟩
  have hCpos : 0 < C := by omega
  have hRn : info.tsc_ratio = 65536 * Dn / C := by
    have h1 : (now_timestamp : Int) - (info.base_timestamp : Int) = (C : Int) := by omega
    rw [hDn, h1] at hR
    have h2 : (65536 : Int) * (Dn : Int) / (C : Int) = ((65536 * Dn / C : Nat) : Int) := by
      push_cast; rfl
    rw [h2] at hR
    exact Int.ofNat.inj hR
  obtain ⟨m1, m2, m3⟩ := midpoint_estimate Dn C hCpos
  rw [← hRn] at m1 m2 m3
  have hcur : (trace_seq_show N base { info with index := k }).time
      = show_time { info with index := k } (info.base_timestamp + C / 2) := by
    simp only [trace_seq_show, hrec, hC]
  have hsub : info.base_timestamp + C / 2 - info.base_timestamp = C / 2 := by omega
  have hDn64 : 65536 * Dn < 18446744073709551616 := by
    rw [hDn] at hD1
    exact_mod_cast hD1
  have htime := show_time_eq { info with index := k } (info.base_timestamp + C / 2) hns0 hns1
    (by simp only; omega) (by omega)
    (by simp only; rw [hsub]; omega) hsec0
    (by
      simp only
      rw [hsub]
      generalize C / 2 * info.tsc_ratio / 65536 = e at m1 ⊢
      have hsum : (Dn : Int) = (now_timespec.tv_sec - info.base_timespec.tv_sec) * 1000000000
          + (now_timespec.tv_nsec - info.base_timespec.tv_nsec) := by
        rw [← hDn, hDdef]
      omega)
  simp only at htime
  rw [hsub] at htime
  rw [hC, hDn, hcur, htime]
  generalize he : C / 2 * info.tsc_ratio / 65536 = e at m1 m2 ⊢
  generalize hh : C / 2 = h at m2 m3 ⊢
  have hest : timespec_ns
      { tv_sec := info.base_timespec.tv_sec + (info.base_timespec.tv_nsec + (e : Int)) / 1000000000,
        tv_nsec := (info.base_timespec.tv_nsec + (e : Int)) % 1000000000 }
      = timespec_ns info.base_timespec + (e : Int) := by
    unfold timespec_ns
    simp only
    have := (normalized_time_ns info.base_timespec.tv_sec info.base_timespec.tv_nsec e).1
    omega
  rw [hest]
  have hh2 : 2 * h ≤ C := by omega
  have q1 : (2 : ℚ) * (e : ℚ) ≤ (Dn : ℚ) := by exact_mod_cast m1
  have q2 : (65536 : ℚ) * C * Dn < 2 * ((e : ℚ) + 1) * 65536 * C + 2 * h * C + 65536 * Dn := by
    exact_mod_cast m2
  have q3 : (2 : ℚ) * (h : ℚ) ≤ (C : ℚ) := by exact_mod_cast hh2
  have qC : (0 : ℚ) < (C : ℚ) := by exact_mod_cast hCpos
  have key : (1 + (h : ℚ) / 65536 + (Dn : ℚ) / (2 * (C : ℚ))) - ((Dn : ℚ) / 2 - (e : ℚ))
      = (2 * ((e : ℚ) + 1) * 65536 * C + 2 * h * C + 65536 * Dn - 65536 * C * Dn)
        / (2 * 65536 * (C : ℚ)) := by
    field_simp
    ring
  have kpos : 0 < (1 + (h : ℚ) / 65536 + (Dn : ℚ) / (2 * (C : ℚ))) - ((Dn : ℚ) / 2 - (e : ℚ)) := by
    rw [key]
    exact div_pos (by linarith) (by positivity)
  push_cast
  refine ⟨by linarith, by linarith, ?_⟩
  have : (h : ℚ) / 65536 ≤ ((C : ℚ) / 2) / 65536 := by
    apply div_le_div_of_nonneg_right _ (by norm_num)
    linarith
  linarith

/-- Witness of `time_correlation`: the time record (100 s, 5 ns) at 1000
cycles, the reader's sample (200 s, 0 ns) at 5000 cycles, and a record at
3000 cycles. -/
theorem time_correlation_witness :
    ((timespec_ns (trace_seq_show 4 midpoint_ring
        { start := 2, index := 3, base_timespec := { tv_sec := 100, tv_nsec := 5 },
          base_timestamp := 1000, tsc_ratio := 1638399999918 }).time : Int) : ℚ)
      ≤ (timespec_ns { tv_sec := 100, tv_nsec := 5 } : ℚ)
        + ((timespec_ns { tv_sec := 200, tv_nsec := 0 }
            - timespec_ns { tv_sec := 100, tv_nsec := 5 } : Int) : ℚ) / 2 :=
  (time_correlation 4
    { trace_data := some midpoint_ring, trace_index := 2, last_record_time := 0,
      last_record_time_index := 0 }
    midpoint_ring 2 { tv_sec := 200, tv_nsec := 0 } 5000
    { start := 2, index := 2, base_timespec := { tv_sec := 100, tv_nsec := 5 },
      base_timestamp := 1000, tsc_ratio := 1638399999918 } 3
    (by decide) (by decide) rfl rfl (by decide) (by decide) (by decide) (by decide) (by decide)
    (by decide) (by decide) (by decide) (by decide) (by decide) (by decide)).1

/-! ## Publish and a concurrent reader -/

/-- C19 fails in the code. A reader has opened `two_anchor_dev`
(`lapped_info` is its cursor, on slot 0); a producer is publishing a record
into slot 1, which holds an older record. `trace_seq_next` tests the kind of
slot 1 before the producer's first store and returns the cursor; the producer
executes `store->act = PIB_TRACE_ACT_NONE` and `*store = *entry`;
`trace_seq_show` then reads slot 1. What it reads is neither the previous
record nor the new one: the payload is the new one, the cycle stamp is 0 and
the kind is NONE, and `trace_seq_show` ends in `BUG()`. Only a reader whose
test and reads fall between the same two stores of the producer sees the
previous record, nothing, or the new record. -/
theorem reader_observes_half_written :
    trace_open 4 two_anchor_dev true { tv_sec := 400, tv_nsec := 5 } 5000 0 = .opened lapped_info
      ∧ (next_then_show 4 (lapped_ring 0) (lapped_ring 2) lapped_info).map
          (fun l => (l.entry, l.bug))
        = some ({ sample_entry 8 with act := PIB_TRACE_ACT_NONE.val, timestamp := 0 }, true)
      ∧ lapped_ring 0 1
          = stored_record (sample_clock 0 100 1000) PIB_TRACE_ACT_API (sample_entry 1)
      ∧ lapped_ring 4 1
          = stored_record (sample_clock 0 160 3010) PIB_TRACE_ACT_API (sample_entry 8)
      ∧ ({ sample_entry 8 with act := PIB_TRACE_ACT_NONE.val, timestamp := 0 } : pib_trace_entry)
          ≠ lapped_ring 0 1
      ∧ ({ sample_entry 8 with act := PIB_TRACE_ACT_NONE.val, timestamp := 0 } : pib_trace_entry)
          ≠ lapped_ring 4 1
      ∧ (List.range 5).map
          (fun j => (next_then_show 4 (lapped_ring j) (lapped_ring j) lapped_info).map
            (fun l => l.entry))
        = [some (lapped_ring 0 1), none, none, none, some (lapped_ring 4 1)] := by
  decide

/-! ## Slot addressing over the 32-bit counter -/

/-- While neither the counter nor `index - 1 + N` has left the range of `int`,
the appender's and the reader's slot expressions are the logical slots. -/
theorem slot_exprs_of_range (N n : Nat) (hN : 0 < N) (hr : n + N ≤ 2147483647) :
    slot_expr N (counter_after n) = (((n + N - 1) % N : Nat) : Int)
      ∧ reader_slot_expr N (counter_after n) = ((n % N : Nat) : Int) := by
  have hc : counter_after n = (n : Int) := wrap_int_of_range _ (by omega) (by omega)
  rw [hc]
  constructor
  · have h := slot_expr_of_range N n hN hr
    have h0 : 0 ≤ slot_expr N (n : Int) := by
      have h1 : wrap_int ((n : Int) - 1) = (n : Int) - 1 :=
        wrap_int_of_range _ (by omega) (by omega)
      have h2 : wrap_int ((n : Int) - 1 + (N : Int)) = (n : Int) - 1 + (N : Int) :=
        wrap_int_of_range _ (by omega) (by omega)
      unfold slot_expr
      rw [h1, h2]
      exact Int.tmod_nonneg _ (by omega)
    omega
  · unfold reader_slot_expr
    rw [Int.tmod_eq_emod (by positivity) (by positivity)]
    exact (Int.natCast_mod n N).symm

/-- C21 fails in the code. With 4 slots, the append that brings the counter to
2147483646 computes its target slot `(index - 1 + N) % N` in `int`:
`index - 1 + N` wraps to -2147483647 and the C remainder is -3, where the
logical slot is 1. At the counter 2147483647 the expression, now for the
previous slot, is -2, and after the counter has wrapped to -2147483648 it is
-1, where the logical slots are 2 and 3. With 65536 slots the values at those
two counters are -2 and -1 as well. The reader's `counter % N` is -3 at the
counter -2147483647, where the logical slot is 1. -/
theorem slot_expr_leaves_ring :
    counter_after 2147483646 = 2147483646
      ∧ slot_expr 4 (counter_after 2147483646) = -3
      ∧ (2147483646 - 1) % 4 = 1
      ∧ slot_expr 4 (counter_after 2147483647) = -2
      ∧ (2147483647 - 1) % 4 = 2
      ∧ counter_after 2147483648 = -2147483648
      ∧ slot_expr 4 (counter_after 2147483648) = -1
      ∧ (2147483648 - 1) % 4 = 3
      ∧ slot_expr 65536 (counter_after 2147483647) = -2
      ∧ slot_expr 65536 (counter_after 2147483648) = -1
      ∧ counter_after 2147483649 = -2147483647
      ∧ reader_slot_expr 4 (counter_after 2147483649) = -3
      ∧ 2147483649 % 4 = 1 := by
  decide

/-! ## GID index bound -/

/-- C27 fails in the code. For every table length `G = PIB_IB_GID_PER_PORT`,
`pib_ib_query_gid` called with a device of 2 ports, port 1, a non-null output
and `index = G` returns 0 and reads `gid[G]` of port 1: the test
`PIB_IB_GID_PER_PORT < index` lets the index `G` pass, which is not below the
`gid_tbl_len` the port advertises. The next index, `G + 1`, is refused with
`-EINVAL`. -/
theorem query_gid_reads_past_table (G : Nat) :
    pib_ib_query_gid G false 2 1 (G : Int) false = { ret := 0, read := some (0, (G : Int)) }
      ∧ (gid_tbl_len G : Int) ≤ (G : Int)
      ∧ pib_ib_query_gid G false 2 1 ((G : Int) + 1) false = { ret := -EINVAL, read := none } := by
  refine ⟨?_, ?_, ?_⟩
  · unfold pib_ib_query_gid
    rw [if_neg (by decide), if_neg (by decide), if_neg (by omega), if_neg (by decide)]
  · unfold gid_tbl_len
    omega
  · unfold pib_ib_query_gid
    rw [if_neg (by decide), if_neg (by decide), if_pos (by omega)]

/-! ## The division of the ratio -/

/-- Counterexample to C25 as stated. The time record of `one_anchor_dev` was
taken at (100 s, 5 ns) and 1000 cycles; the file is opened at
(281574 s, 976710661 ns) and 5000 cycles, so the cycle counter has strictly
increased, by 4000, and `2^48` ns have elapsed, far more than `4000 / 65536`
ns. `65536 * 2^48` wraps to 0 in `u64`, and the ratio `trace_open` computes
is 0. -/
theorem zero_ratio_after_long_gap :
    trace_open 4 one_anchor_dev true { tv_sec := 281574, tv_nsec := 976710661 } 5000 0
        = .opened
          { start := 2, index := 2, base_timespec := { tv_sec := 100, tv_nsec := 5 },
            base_timestamp := 1000, tsc_ratio := 0 }
      ∧ timespec_ns { tv_sec := 281574, tv_nsec := 976710661 }
          - timespec_ns { tv_sec := 100, tv_nsec := 5 } = 281474976710656
      ∧ (5000 - 1000) / 65536 < (281474976710656 : Int) := by
  decide

theorem ratio_zero_iff (X C : Int) (R : Nat) (hX : 0 ≤ X) (hC : 0 < C)
    (hR : (R : Int) = X / C) : R = 0 ↔ X < C := by
  constructor
  · intro hR0
    rw [hR0] at hR
    by_contra hge
    have h1 : (1 : Int) ≤ X / C := Int.le_ediv_of_mul_le hC (by omega)
    have h2 : ((0 : Nat) : Int) = 0 := rfl
    omega
  · intro hlt
    have h1 : X / C = 0 := Int.ediv_eq_zero_of_lt hX hlt
    rw [h1] at hR
    exact_mod_cast hR

/-- C25, amended. Let the scan of `trace_open` choose the time record at
offset `m`, with cycle stamp `C0 < 2^64`, and let the reader's cycle sample be
`C1 < 2^64`. The divisor `C1 - C0` of the ratio is zero exactly when
`C1 = C0`, and that is exactly when `trace_open` ends in a divide error. When
the cycle counter has strictly increased (`C0 < C1`), `trace_open` (with
`kzalloc` and `seq_open` succeeding) returns the cursor; and when moreover the
elapsed wall time `D` is not negative and `65536 * D` does not overflow 64
bits, the ratio is 0 exactly when `65536 * D < C1 - C0`, that is when less
than `(C1 - C0) / 65536` ns have elapsed. -/
theorem ratio_division_guard (N : Nat) (dev : pib_dev) (base : Nat → pib_trace_entry)
    (i m : Nat) (now_timespec : timespec) (now_timestamp : Nat)
    (hN : 0 < N) (hN2 : N ≤ 2147483647) (hbase : dev.trace_data = some base)
    (hi : dev.trace_index = (i : Int))
    (hm : first_time_record N base (i % N) = some m)
    (hb : (base ((i % N + m) % N)).timestamp < 18446744073709551616)
    (hts : now_timestamp < 18446744073709551616) :
    (wrap_u64 ((now_timestamp : Int) - ((base ((i % N + m) % N)).timestamp : Int)) = 0
        ↔ now_timestamp = (base ((i % N + m) % N)).timestamp)
      ∧ (trace_open N dev true now_timespec now_timestamp 0 = .divide_error
        ↔ now_timestamp = (base ((i % N + m) % N)).timestamp)
      ∧ ((base ((i % N + m) % N)).timestamp < now_timestamp →
          trace_open N dev true now_timespec now_timestamp 0
            = .opened (opened_info N base (i % N) m now_timespec now_timestamp))
      ∧ ((base ((i % N + m) % N)).timestamp < now_timestamp →
          timespec_ns (timedate_time (base ((i % N + m) % N)).u) ≤ timespec_ns now_timespec →
          65536 * (timespec_ns now_timespec
              - timespec_ns (timedate_time (base ((i % N + m) % N)).u))
            < 18446744073709551616 →
          ((opened_info N base (i % N) m now_timespec now_timestamp).tsc_ratio = 0
            ↔ 65536 * (timespec_ns now_timespec
                - timespec_ns (timedate_time (base ((i % N + m) % N)).u))
              < (now_timestamp : Int) - ((base ((i % N + m) % N)).timestamp : Int))) := by
  have hopen := trace_open_eq N dev base i now_timespec now_timestamp 0 hN hN2 hbase hi
  rw [hm] at hopen
  simp only [ne_eq, not_true_eq_false, if_false] at hopen
  generalize hbts : (base ((i % N + m) % N)).timestamp = bts at *
  have hzero : wrap_u64 ((now_timestamp : Int) - (bts : Int)) = 0 ↔ now_timestamp = bts := by
    unfold wrap_u64
    omega
  have hlater : bts < now_timestamp →
      trace_open N dev true now_timespec now_timestamp 0
        = .opened (opened_info N base (i % N) m now_timespec now_timestamp) := by
    intro h
    rw [hopen, if_neg (by rw [hzero]; omega)]
  refine ⟨hzero, ?_, hlater, ?_⟩
  · rw [hopen]
    constructor
    · intro h
      by_contra hne
      rw [if_neg (by rw [hzero]; exact hne)] at h
      exact trace_open_result.noConfusion h
    · intro h
      rw [if_pos (hzero.2 h)]
  · intro h hT hD1
    have hDdef : timespec_ns now_timespec
          - timespec_ns (timedate_time (base ((i % N + m) % N)).u)
        = (now_timespec.tv_sec - (timedate_time (base ((i % N + m) % N)).u).tv_sec) * 1000000000
          + (now_timespec.tv_nsec - (timedate_time (base ((i % N + m) % N)).u).tv_nsec) := by
      unfold timespec_ns; ring
    have hb2 : (opened_info N base (i % N) m now_timespec now_timestamp).base_timestamp = bts :=
      hbts
    have hts2 : (opened_info N base (i % N) m now_timespec now_timestamp).base_timespec
          = timedate_time (base ((i % N + m) % N)).u := rfl
    have hR := opened_tsc_ratio N dev base i now_timespec now_timestamp
      (opened_info N base (i % N) m now_timespec now_timestamp) hN hN2 hbase hi (hlater h) hts
      (by rw [hb2]; exact h)
      (by rw [hts2, ← hDdef]; exact sub_nonneg.2 hT)
      (by rw [hts2, ← hDdef]; exact hD1)
    rw [hts2, ← hDdef, hb2] at hR
    exact ratio_zero_iff _ _ _ (mul_nonneg (by decide) (sub_nonneg.2 hT))
      (sub_pos.2 (by exact_mod_cast h)) hR

/-- Witness of `ratio_division_guard`: `one_anchor_dev` read at (200 s, 0 ns)
and 5000 cycles; the time record chosen is at offset 2. -/
theorem ratio_division_guard_witness :
    trace_open 4 one_anchor_dev true { tv_sec := 200, tv_nsec := 0 } 5000 0
      = .opened (opened_info 4
          (fun k =>
            if k = 0 then time_record (sample_clock 0 100 1000) zero_entry
            else if k = 1 then
              stored_record (sample_clock 0 100 1000) PIB_TRACE_ACT_API (sample_entry 1)
            else zero_entry)
          (2 % 4) 2 { tv_sec := 200, tv_nsec := 0 } 5000) :=
  (ratio_division_guard 4 one_anchor_dev
    (fun k =>
      if k = 0 then time_record (sample_clock 0 100 1000) zero_entry
      else if k = 1 then
        stored_record (sample_clock 0 100 1000) PIB_TRACE_ACT_API (sample_entry 1)
      else zero_entry)
    2 2 { tv_sec := 200, tv_nsec := 0 } 5000 (by decide) (by decide) rfl rfl (by decide)
    (by decide) (by decide)).2.2.1 (by decide)

/-! ## Every line break is cleared -/

theorem bookmark_entry_u (buf : List Nat) :
    (bookmark_entry buf).u
      = (buf.take (min PIB_BOOKMARK_MESSAGE buf.length)
          ++ List.replicate (PIB_BOOKMARK_MESSAGE - min PIB_BOOKMARK_MESSAGE buf.length) 0).map
            cleared_byte
        ++ List.replicate 8 0 := by
  unfold bookmark_entry
  simp only
  rw [clear_newlines_eq _ (bookmark_message_length buf)]
  rfl

theorem bookmark_message_getD (buf : List Nat) (i : Nat) (hi : i < PIB_BOOKMARK_MESSAGE) :
    ((buf.take (min PIB_BOOKMARK_MESSAGE buf.length)
        ++ List.replicate (PIB_BOOKMARK_MESSAGE - min PIB_BOOKMARK_MESSAGE buf.length) 0).map
          cleared_byte).getD i 0
      = cleared_byte (buf.getD i 0) := by
  have h0 : cleared_byte 0 = 0 := rfl
  rw [List.getD_eq_getElem?_getD, List.getElem?_map, List.getD_eq_getElem?_getD]
  by_cases hlt : i < buf.length
  · have h1 : i < (buf.take (min PIB_BOOKMARK_MESSAGE buf.length)).length := by
      rw [List.length_take]; omega
    rw [List.getElem?_append_left h1, List.getElem?_take_of_lt (by omega)]
    rw [List.getElem?_eq_getElem hlt]
    rfl
  · have h1 : (buf.take (min PIB_BOOKMARK_MESSAGE buf.length)).length ≤ i := by
      rw [List.length_take]; omega
    have h2 : buf[i]? = none := List.getElem?_eq_none_iff.2 (by omega)
    rw [List.getElem?_append_right h1, h2]
    rw [List.getElem?_replicate, if_pos (by rw [List.length_take]; unfold PIB_BOOKMARK_MESSAGE at *; omega)]
    rfl

theorem bookmark_message_take (buf : List Nat) :
    (bookmark_entry buf).u.take PIB_BOOKMARK_MESSAGE
      = (buf.take (min PIB_BOOKMARK_MESSAGE buf.length)
          ++ List.replicate (PIB_BOOKMARK_MESSAGE - min PIB_BOOKMARK_MESSAGE buf.length) 0).map
            cleared_byte := by
  rw [bookmark_entry_u]
  rw [List.take_append_of_le_length (by rw [List.length_map, bookmark_message_length])]
  rw [List.take_of_length_le (by rw [List.length_map, bookmark_message_length])]

theorem bookmark_entry_u_eq_iff (buf1 buf2 : List Nat) :
    (bookmark_entry buf1).u = (bookmark_entry buf2).u
      ↔ ∀ i, i < PIB_BOOKMARK_MESSAGE →
          cleared_byte (buf1.getD i 0) = cleared_byte (buf2.getD i 0) := by
  constructor
  · intro h i hi
    rw [← bookmark_message_getD buf1 i hi, ← bookmark_message_getD buf2 i hi,
      ← bookmark_message_take, ← bookmark_message_take, h]
  · intro h
    rw [bookmark_entry_u, bookmark_entry_u]
    congr 1
    apply List.ext_getElem?
    intro i
    by_cases hi : i < PIB_BOOKMARK_MESSAGE
    · have h1 := bookmark_message_getD buf1 i hi
      have h2 := bookmark_message_getD buf2 i hi
      rw [List.getD_eq_getElem?_getD] at h1 h2
      have l1 : i < ((buf1.take (min PIB_BOOKMARK_MESSAGE buf1.length)
          ++ List.replicate (PIB_BOOKMARK_MESSAGE - min PIB_BOOKMARK_MESSAGE buf1.length) 0).map
            cleared_byte).length := by
        rw [List.length_map, bookmark_message_length]; exact hi
      have l2 : i < ((buf2.take (min PIB_BOOKMARK_MESSAGE buf2.length)
          ++ List.replicate (PIB_BOOKMARK_MESSAGE - min PIB_BOOKMARK_MESSAGE buf2.length) 0).map
            cleared_byte).length := by
        rw [List.length_map, bookmark_message_length]; exact hi
      rw [List.getElem?_eq_getElem l1] at h1 ⊢
      rw [List.getElem?_eq_getElem l2] at h2 ⊢
      simp only [Option.getD_some] at h1 h2
      rw [h1, h2, h i hi]
    · rw [List.getElem?_eq_none_iff.2
          (by rw [List.length_map, bookmark_message_length]; omega),
        List.getElem?_eq_none_iff.2
          (by rw [List.length_map, bookmark_message_length]; omega)]

/-- C26, as the claim states it, fails. The texts "a\nb\n" and "a\nb" render
alike, as "a", and differ after the first line break: one has a second line
break where the other ends. `trace_write` clears that line break to NUL, so
both texts give the same stored payload. Written one after the other to a ring
of 4 slots that holds an API record, the first claims slot 3 (after a time
record in slot 2) and the second is compressed into it: the counter stays 4 and
the `repeat` of slot 3 goes from 0 to 1. -/
theorem bookmarks_differing_after_break_compressed :
    cut_text [97, 10, 98, 10] = [97]
      ∧ cut_text [97, 10, 98] = [97]
      ∧ List.drop 2 [97, 10, 98, 10] = [98, 10]
      ∧ List.drop 2 [97, 10, 98] = [98]
      ∧ (bookmark_entry [97, 10, 98, 10]).u = (bookmark_entry [97, 10, 98]).u
      ∧ bookmark_written_dev.trace_index = 4
      ∧ bookmark_written_dev.trace_data.map
          (fun b => [((b 0).act, (b 0).repeat_), ((b 1).act, (b 1).repeat_),
            ((b 2).act, (b 2).repeat_), ((b 3).act, (b 3).repeat_)])
        = some [(PIB_TRACE_ACT_TIMEDATE.val, 0), (PIB_TRACE_ACT_API.val, 0),
            (PIB_TRACE_ACT_TIMEDATE.val, 0), (PIB_TRACE_ACT_BOOKMARK.val, 0)]
      ∧ bookmark_written_dev.trace_data.map (fun b => b 3)
        = some (stored_record (sample_clock 0 101 1010) PIB_TRACE_ACT_BOOKMARK
            (bookmark_entry [97, 10, 98, 10]))
      ∧ (trace_write 4 1000 bookmark_written_dev (sample_clock 0 102 1020) [97, 10, 98] 0
          false).dev.trace_index = 4
      ∧ (trace_write 4 1000 bookmark_written_dev (sample_clock 0 102 1020) [97, 10, 98] 0
          false).dev.trace_data.map
          (fun b => [((b 0).act, (b 0).repeat_), ((b 1).act, (b 1).repeat_),
            ((b 2).act, (b 2).repeat_), ((b 3).act, (b 3).repeat_)])
        = some [(PIB_TRACE_ACT_TIMEDATE.val, 0), (PIB_TRACE_ACT_API.val, 0),
            (PIB_TRACE_ACT_TIMEDATE.val, 0), (PIB_TRACE_ACT_BOOKMARK.val, 1)] := by
  refine ⟨by decide, by decide, by decide, by decide, by decide, by decide, by decide, by decide,
    by decide, by decide⟩

/-- C26, amended. Every line break is cleared, and compression compares the
cleared bytes. The 16-byte message `trace_write` stores for the text `buf1`
is, byte by byte, the text (continued with NULs when it is shorter) with every
`'\n'` replaced by NUL and every other byte unchanged: the stored field holds
no `'\n'`, and the bytes after the first line break are kept. Two texts give
the same payload exactly when these 16 cleared bytes agree. When the
last-published record is a bookmark of `buf1`, the write of `buf2` at offset 0
is compressed into it, the counter unchanged and its `repeat` incremented up
to 255, exactly when the 16 cleared bytes of the two texts agree; when they
differ at some position below 16, also one after the first line break, the
write claims a slot of its own. Texts that differ only past byte 16, or only
by a `'\n'` against a NUL or the end of the text, are compressed. -/
theorem line_breaks_cleared (N HZ : Nat) (dev : pib_dev) (base : Nat → pib_trace_entry)
    (clk : trace_clock) (buf1 buf2 : List Nat) (i : Nat)
    (hN : 0 < N) (hbase : dev.trace_data = some base) (hi : dev.trace_index = (i : Int))
    (hr : i + N + 2 ≤ 2147483647)
    (hlast : entry_key (base (last_slot N i))
      = (PIB_TRACE_ACT_BOOKMARK.val, 0, 0, (bookmark_entry buf1).u)) :
    ((bookmark_entry buf1).u.take PIB_BOOKMARK_MESSAGE).length = PIB_BOOKMARK_MESSAGE
      ∧ (∀ j, j < PIB_BOOKMARK_MESSAGE →
          ((bookmark_entry buf1).u.take PIB_BOOKMARK_MESSAGE).getD j 0
            = cleared_byte (buf1.getD j 0))
      ∧ 10 ∉ (bookmark_entry buf1).u.take PIB_BOOKMARK_MESSAGE
      ∧ ((bookmark_entry buf1).u = (bookmark_entry buf2).u
          ↔ ∀ j, j < PIB_BOOKMARK_MESSAGE →
              cleared_byte (buf1.getD j 0) = cleared_byte (buf2.getD j 0))
      ∧ (equals_trace_entries PIB_TRACE_ACT_BOOKMARK (bookmark_entry buf2) (base (last_slot N i))
            = true
          ↔ ∀ j, j < PIB_BOOKMARK_MESSAGE →
              cleared_byte (buf1.getD j 0) = cleared_byte (buf2.getD j 0))
      ∧ ((∀ j, j < PIB_BOOKMARK_MESSAGE →
            cleared_byte (buf1.getD j 0) = cleared_byte (buf2.getD j 0)) →
          (trace_write N HZ dev clk buf2 0 false).dev
            = if (base (last_slot N i)).repeat_ < 255 then
                set_repeat dev (last_slot N i) ((base (last_slot N i)).repeat_ + 1)
              else dev)
      ∧ ((∃ j, j < PIB_BOOKMARK_MESSAGE
            ∧ cleared_byte (buf1.getD j 0) ≠ cleared_byte (buf2.getD j 0)) →
          (trace_write N HZ dev clk buf2 0 false).dev.trace_index
            = (i : Int) + 1 + (anchors_due N HZ dev clk : Int))
      ∧ ((trace_write N HZ dev clk buf2 0 false).dev.trace_index = (i : Int)
          ↔ ∀ j, j < PIB_BOOKMARK_MESSAGE →
              cleared_byte (buf1.getD j 0) = cleared_byte (buf2.getD j 0)) := by
  have hkey : (base (last_slot N i)).act = PIB_TRACE_ACT_BOOKMARK.val
      ∧ (base (last_slot N i)).op = 0 ∧ (base (last_slot N i)).port = 0
      ∧ (base (last_slot N i)).u = (bookmark_entry buf1).u := by
    unfold entry_key at hlast
    simp only [Prod.mk.injEq] at hlast
    exact hlast
  obtain ⟨k1, k2, k3, k4⟩ := hkey
  have heq : equals_trace_entries PIB_TRACE_ACT_BOOKMARK (bookmark_entry buf2)
        (base (last_slot N i)) = true
      ↔ ∀ j, j < PIB_BOOKMARK_MESSAGE →
          cleared_byte (buf1.getD j 0) = cleared_byte (buf2.getD j 0) := by
    rw [equals_trace_entries_iff, ← bookmark_entry_u_eq_iff, k1, k2, k3, k4]
    constructor
    · intro h
      exact h.2.2.2.symm
    · intro h
      exact ⟨rfl, rfl, rfl, h.symm⟩
  have hdup : (∀ j, j < PIB_BOOKMARK_MESSAGE →
        cleared_byte (buf1.getD j 0) = cleared_byte (buf2.getD j 0)) →
      (trace_write N HZ dev clk buf2 0 false).dev
        = if (base (last_slot N i)).repeat_ < 255 then
            set_repeat dev (last_slot N i) ((base (last_slot N i)).repeat_ + 1)
          else dev := by
    intro h
    rw [trace_write_at_zero,
      append_new_trace_dup N HZ dev base clk _ _ i hN hbase hi (by omega) (heq.2 h)]
    unfold set_repeat
    simp only [hbase]
  have hnew : equals_trace_entries PIB_TRACE_ACT_BOOKMARK (bookmark_entry buf2)
        (base (last_slot N i)) = false →
      (trace_write N HZ dev clk buf2 0 false).dev.trace_index
        = (i : Int) + 1 + (anchors_due N HZ dev clk : Int) := by
    intro hne
    rw [trace_write_at_zero,
      append_new_trace_new N HZ dev base clk _ _ i hN hbase hi hr hne]
    unfold anchors_due
    by_cases hd : time_record_due N HZ dev clk = true
    · rw [if_pos hd, if_pos hd]
      push_cast
      ring
    · rw [if_neg hd, if_neg hd]
      push_cast
      ring
  have hdupi : (∀ j, j < PIB_BOOKMARK_MESSAGE →
        cleared_byte (buf1.getD j 0) = cleared_byte (buf2.getD j 0)) →
      (trace_write N HZ dev clk buf2 0 false).dev.trace_index = (i : Int) := by
    intro h
    rw [hdup h]
    by_cases hrep : (base (last_slot N i)).repeat_ < 255
    · rw [if_pos hrep]
      unfold set_repeat
      simp only [hbase]
      exact hi
    · rw [if_neg hrep]
      exact hi
  refine ⟨?_, ?_, ?_, bookmark_entry_u_eq_iff buf1 buf2, heq, hdup, ?_, ?_⟩
  · rw [bookmark_message_take, List.length_map, bookmark_message_length]
  · intro j hj
    rw [bookmark_message_take]
    exact bookmark_message_getD buf1 j hj
  · rw [bookmark_message_take]
    intro hmem
    obtain ⟨b, _, hb⟩ := List.mem_map.1 hmem
    unfold cleared_byte at hb
    by_cases h10 : b = 10
    · rw [if_pos h10] at hb
      exact absurd hb (by decide)
    · rw [if_neg h10] at hb
      exact h10 hb
  · rintro ⟨j, hj, hd⟩
    apply hnew
    cases h : equals_trace_entries PIB_TRACE_ACT_BOOKMARK (bookmark_entry buf2)
        (base (last_slot N i))
    · rfl
    · exact absurd (heq.1 h j hj) hd
  · constructor
    · intro hidx
      by_contra hall
      have hne : equals_trace_entries PIB_TRACE_ACT_BOOKMARK (bookmark_entry buf2)
          (base (last_slot N i)) = false := by
        cases h : equals_trace_entries PIB_TRACE_ACT_BOOKMARK (bookmark_entry buf2)
            (base (last_slot N i))
        · rfl
        · exact absurd (heq.1 h) hall
      rw [hnew hne] at hidx
      omega
    · exact hdupi

/-- Witness of `line_breaks_cleared`: after an API record and the bookmark
"a\nb\n", the write of "a\nb" is compressed, and the write of "a\nc" is not. -/
theorem line_breaks_cleared_witness :
    bookmark_written_dev.trace_index = 4
      ∧ (trace_write 4 1000 bookmark_written_dev (sample_clock 0 102 1020) [97, 10, 98] 0
          false).dev
        = (if (bookmark_written_ring (last_slot 4 4)).repeat_ < 255 then
            set_repeat bookmark_written_dev (last_slot 4 4)
              ((bookmark_written_ring (last_slot 4 4)).repeat_ + 1)
          else bookmark_written_dev)
      ∧ (trace_write 4 1000 bookmark_written_dev (sample_clock 0 102 1020) [97, 10, 99] 0
          false).dev.trace_index
        = ((4 : Nat) : Int) + 1
          + (anchors_due 4 1000 bookmark_written_dev (sample_clock 0 102 1020) : Int) :=
  ⟨by decide,
    (line_breaks_cleared 4 1000 bookmark_written_dev bookmark_written_ring
      (sample_clock 0 102 1020) [97, 10, 98, 10] [97, 10, 98] 4
      (by decide) rfl rfl (by decide) (by decide)).2.2.2.2.2.1 (by decide),
    (line_breaks_cleared 4 1000 bookmark_written_dev bookmark_written_ring
      (sample_clock 0 102 1020) [97, 10, 98, 10] [97, 10, 99] 4
      (by decide) rfl rfl (by decide) (by decide)).2.2.2.2.2.2.1 ⟨2, by decide, by decide⟩⟩

/-! ## An anchor is always retained -/

theorem calls_bounded (calls : List trace_call) :
    ∃ bound, ∀ c ∈ calls, c.clk.cycles < bound ∧ c.clk.cycles_time < bound := by
  induction calls with
  | nil => exact ⟨0, fun c hc => absurd hc (List.not_mem_nil c)⟩
  | cons c0 cs ih =>
    obtain ⟨b, hb⟩ := ih
    refine ⟨max b (max c0.clk.cycles c0.clk.cycles_time + 1), ?_⟩
    intro c hc
    rcases List.mem_cons.1 hc with h | h
    · subst h
      constructor
      · exact lt_of_lt_of_le (by omega) (le_max_right _ _)
      · exact lt_of_lt_of_le (by omega) (le_max_right _ _)
    · obtain ⟨h1, h2⟩ := hb c h
      exact ⟨lt_of_lt_of_le h1 (le_max_left _ _), lt_of_lt_of_le h2 (le_max_left _ _)⟩

theorem log_step_length (N HZ : Nat) (dev : pib_dev) (log : List pib_trace_entry)
    (c : trace_call) : log.length ≤ (log_step N HZ dev log c).length := by
  unfold log_step
  cases dev.trace_data with
  | none => exact le_refl _
  | some base =>
    simp only
    split_ifs
    · unfold bump_last
      cases h : log.getLast? with
      | none => exact le_refl _
      | some e =>
        simp only
        rw [List.length_append, List.length_dropLast, List.length_singleton]
        omega
    · rw [List.length_append]; omega
    · rw [List.length_append]; omega

theorem trace_log_length (N HZ : Nat) (calls : List trace_call) :
    ∀ (dev : pib_dev) (log : List pib_trace_entry),
      log.length ≤ (trace_log N HZ dev log calls).length := by
  induction calls with
  | nil => intro dev log; exact le_refl _
  | cons c cs ih =>
    intro dev log
    rw [trace_log]
    exact le_trans (log_step_length N HZ dev log c) (ih _ _)

theorem equals_zero_entry (act : pib_trace_act) (entry : pib_trace_entry)
    (hact : act ≠ PIB_TRACE_ACT_NONE) : equals_trace_entries act entry zero_entry = false := by
  cases h : equals_trace_entries act entry zero_entry
  · rfl
  · exfalso
    obtain ⟨h1, _⟩ := (equals_trace_entries_iff _ _ _).1 h
    have := (act_val_range act hact).1
    rw [h1] at this
    exact absurd this (by decide)

/-- The log of a non-empty sequence of calls on a fresh ring is not empty. -/
theorem trace_log_ne_nil (N HZ bound : Nat) (hN : 2 ≤ N) (hN2 : N + 2 ≤ 2147483647)
    (c0 : trace_call) (rest : List trace_call) (hact : c0.act ≠ PIB_TRACE_ACT_NONE)
    (hc1 : c0.clk.cycles < bound) (hc2 : c0.clk.cycles_time < bound) :
    trace_log N HZ (register_dev N) [] (c0 :: rest) ≠ [] := by
  have hstep := (ring_inv_step_new N HZ bound (register_dev N) [] c0 hN
    (by simp only [List.length_nil]; omega) (ring_inv_register_dev N bound (by omega)) hact hc1 hc2
    (equals_zero_entry _ _ hact)).2
  have hlen := trace_log_length N HZ rest
    (append_new_trace N HZ (register_dev N) c0.clk c0.act c0.entry)
    (log_step N HZ (register_dev N) [] c0)
  rw [trace_log]
  intro h
  rw [h, hstep] at hlen
  simp only [List.length_append, List.length_singleton, List.length_nil] at hlen
  omega

/-- The state after a non-empty sequence of calls on a fresh ring: the log is
not empty and the invariant holds. -/
theorem ring_inv_of_calls (N HZ : Nat) (c0 : trace_call) (rest : List trace_call)
    (hN : 2 ≤ N) (hr : 2 * (rest.length + 1) + N + 2 ≤ 2147483647)
    (hacts : ∀ c ∈ c0 :: rest, c.act ≠ PIB_TRACE_ACT_NONE) (bound : Nat)
    (hb : ∀ c ∈ c0 :: rest, c.clk.cycles < bound ∧ c.clk.cycles_time < bound) :
    ring_inv N bound (append_all N HZ (register_dev N) (c0 :: rest))
        (trace_log N HZ (register_dev N) [] (c0 :: rest))
      ∧ trace_log N HZ (register_dev N) [] (c0 :: rest) ≠ []
      ∧ (trace_log N HZ (register_dev N) [] (c0 :: rest)).length ≤ 2 * (rest.length + 1) := by
  obtain ⟨hinv, hlen⟩ := ring_inv_append_all N HZ bound hN (c0 :: rest) (register_dev N) []
    (ring_inv_register_dev N bound (by omega))
    (by simp only [List.length_nil, List.length_cons]; omega)
    (fun c hc => ⟨hacts c hc, (hb c hc).1, (hb c hc).2⟩)
  refine ⟨hinv, ?_, by simpa using hlen⟩
  exact trace_log_ne_nil N HZ bound hN (by omega) c0 rest (hacts c0 (List.mem_cons_self _ _))
    (hb c0 (List.mem_cons_self _ _)).1 (hb c0 (List.mem_cons_self _ _)).2

/-- C22. An anchor is always retained. On a ring of `N >= 2` slots, freshly
registered, after any non-empty sequence of sequential appends of records of a
kind other than NONE (the counter staying an `int`): the first append has put
a time record into slot 0 and has claimed two slots; the counter `i` and the
index `l` of the last time record satisfy
`l + 2 <= i <= l + max(2, N/16 + 1) <= l + N`; slot `l mod N` holds a time
record; and `trace_open` does not return `-ENOENT`, whatever else happens to
it (unless `seq_open` itself fails with that value). -/
theorem anchor_always_retained (N HZ : Nat) (c0 : trace_call) (rest : List trace_call)
    (hN : 2 ≤ N) (hr : 2 * (rest.length + 1) + N + 2 ≤ 2147483647)
    (hacts : ∀ c ∈ c0 :: rest, c.act ≠ PIB_TRACE_ACT_NONE) :
    (∃ b1, (append_new_trace N HZ (register_dev N) c0.clk c0.act c0.entry).trace_data = some b1
        ∧ b1 0 = time_record c0.clk zero_entry
        ∧ (append_new_trace N HZ (register_dev N) c0.clk c0.act c0.entry).trace_index = 2
        ∧ (append_new_trace N HZ (register_dev N) c0.clk c0.act c0.entry).last_record_time_index
            = 0)
      ∧ (∃ (base : Nat → pib_trace_entry) (i l : Nat),
          (append_all N HZ (register_dev N) (c0 :: rest)).trace_data = some base
          ∧ (append_all N HZ (register_dev N) (c0 :: rest)).trace_index = (i : Int)
          ∧ (append_all N HZ (register_dev N) (c0 :: rest)).last_record_time_index = (l : Int)
          ∧ l + 2 ≤ i ∧ i ≤ l + max 2 (N / 16 + 1) ∧ max 2 (N / 16 + 1) ≤ N
          ∧ (base (l % N)).act = PIB_TRACE_ACT_TIMEDATE.val)
      ∧ ∀ (kzalloc_ok : Bool) (now_timespec : timespec) (now_timestamp : Nat)
          (seq_open_ret : Int), seq_open_ret ≠ -ENOENT →
          trace_open N (append_all N HZ (register_dev N) (c0 :: rest)) kzalloc_ok now_timespec
            now_timestamp seq_open_ret ≠ .ret (-ENOENT) := by
  obtain ⟨bound, hb⟩ := calls_bounded (c0 :: rest)
  obtain ⟨hinv, hlog, hlen⟩ := ring_inv_of_calls N HZ c0 rest hN hr hacts bound hb
  have hmax : max 2 (N / 16 + 1) ≤ N := by
    apply max_le hN
    omega
  have hanchor : ∃ (base : Nat → pib_trace_entry) (i l : Nat),
      (append_all N HZ (register_dev N) (c0 :: rest)).trace_data = some base
      ∧ (append_all N HZ (register_dev N) (c0 :: rest)).trace_index = (i : Int)
      ∧ (append_all N HZ (register_dev N) (c0 :: rest)).last_record_time_index = (l : Int)
      ∧ l + 2 ≤ i ∧ i ≤ l + max 2 (N / 16 + 1) ∧ max 2 (N / 16 + 1) ≤ N
      ∧ (base (l % N)).act = PIB_TRACE_ACT_TIMEDATE.val := by
    rcases hinv.anchor with ⟨h, _⟩ | ⟨l, h1, h2, h3, h4⟩
    · exact absurd h hlog
    · refine ⟨_, _, l, hinv.data, hinv.index, h1, h2, h4, hmax, ?_⟩
      have hg := ring_write_get N (trace_log N HZ (register_dev N) [] (c0 :: rest))
        (fun _ => zero_entry) 0 l (by omega) (by omega)
      rw [Nat.zero_add] at hg
      rw [hg]
      exact h3
  refine ⟨?_, hanchor, ?_⟩
  · have hnew := append_new_trace_new N HZ (register_dev N) (fun _ => zero_entry) c0.clk c0.act
      c0.entry 0 (by omega) rfl rfl (by omega)
      (equals_zero_entry _ _ (hacts c0 (List.mem_cons_self _ _)))
    rw [if_pos (time_record_due_of_empty N HZ (register_dev N) c0.clk (by omega) (by omega) rfl
      (by
        unfold register_dev
        exact wrap_int_of_range _ (by omega) (by omega)))] at hnew
    rw [hnew]
    refine ⟨_, rfl, ?_, rfl, rfl⟩
    have h01 : (0 + 1) % N ≠ 0 := by
      rw [Nat.zero_add, Nat.mod_eq_of_lt (by omega)]
      decide
    rw [Function.update_noteq (Ne.symm h01), Nat.zero_mod, Function.update_same]
  · intro kz now ts ret hret
    obtain ⟨base, i, l, hd, hi, _, h2, h4, _, hact⟩ := hanchor
    cases kz with
    | false =>
      unfold trace_open
      rw [hd]
      simp only [Bool.not_false, if_true]
      intro h
      injection h with h
      exact absurd h (by decide)
    | true =>
      have hi2 : i ≤ 2 * (rest.length + 1) := by
        have := hinv.index
        rw [hi] at this
        have h5 : i = (trace_log N HZ (register_dev N) [] (c0 :: rest)).length := by
          exact_mod_cast this
        omega
      rw [trace_open_eq N _ base i now ts ret (by omega) (by omega) hd hi]
      cases hf : first_time_record N base (i % N) with
      | none =>
        exfalso
        exact (first_time_record_eq_none N base (i % N) (Nat.mod_lt _ (by omega))).1 hf (l % N)
          (Nat.mod_lt _ (by omega)) hact
      | some m =>
        simp only
        split_ifs with hz hs
        · exact fun h => trace_open_result.noConfusion h
        · intro h
          injection h with h
          exact hret h
        · exact fun h => trace_open_result.noConfusion h

/-- Witness of `anchor_always_retained`: two sample calls on a fresh ring of 4
slots: the file can be opened. -/
theorem anchor_always_retained_witness :
    trace_open 4 (append_all 4 1000 (register_dev 4) (sample_call 0 :: [sample_call 1])) true
        { tv_sec := 200, tv_nsec := 0 } 5000 0 ≠ .ret (-ENOENT) :=
  (anchor_always_retained 4 1000 (sample_call 0) [sample_call 1] (by decide) (by decide)
    (by decide)).2.2 true { tv_sec := 200, tv_nsec := 0 } 5000 0 (by decide)

/-! ## What playback returns -/

theorem act_val_ne_timedate (act : pib_trace_act) (h : act ≠ PIB_TRACE_ACT_TIMEDATE) :
    act.val ≠ PIB_TRACE_ACT_TIMEDATE.val := by
  cases act <;> first | exact absurd rfl h | decide

theorem without_time_records_concat (l : List pib_trace_entry) (e : pib_trace_entry)
    (h : e.act ≠ PIB_TRACE_ACT_TIMEDATE.val) :
    without_time_records (l ++ [e]) = without_time_records l ++ [e] := by
  unfold without_time_records
  rw [List.filter_append]
  congr 1
  simp [List.filter_cons, h]

theorem without_time_records_time (l : List pib_trace_entry) (e : pib_trace_entry)
    (h : e.act = PIB_TRACE_ACT_TIMEDATE.val) :
    without_time_records (l ++ [e]) = without_time_records l := by
  unfold without_time_records
  rw [List.filter_append]
  simp [List.filter_cons, h]

theorem log_step_compressed (N HZ bound : Nat) (dev : pib_dev) (log : List pib_trace_entry)
    (c : trace_call) (hN : 2 ≤ N) (hr : log.length + N + 2 ≤ 2147483647)
    (hinv : ring_inv N bound dev log) (hact : c.act ≠ PIB_TRACE_ACT_NONE)
    (htime : c.act ≠ PIB_TRACE_ACT_TIMEDATE)
    (hc1 : c.clk.cycles < bound) (hc2 : c.clk.cycles_time < bound)
    (hend : ends_with_record log) :
    without_time_records (log_step N HZ dev log c)
        = compress_step (without_time_records log) c
      ∧ ends_with_record (log_step N HZ dev log c) := by
  have hsv : (stored_call c).act ≠ PIB_TRACE_ACT_TIMEDATE.val := act_val_ne_timedate _ htime
  cases heq : equals_trace_entries c.act c.entry
      (ring_write N (fun _ => zero_entry) 0 log (last_slot N log.length))
  · obtain ⟨_, hstep⟩ := ring_inv_step_new N HZ bound dev log c hN hr hinv hact hc1 hc2 heq
    have hw : without_time_records (log_step N HZ dev log c)
        = without_time_records log ++ [stored_call c] := by
      rw [hstep]
      by_cases hd : time_record_due N HZ dev c.clk = true
      · rw [if_pos hd]
        rw [show stored_record c.clk c.act c.entry = stored_call c from rfl,
          without_time_records_concat _ _ hsv, without_time_records_time _ _ rfl]
      · rw [if_neg hd, List.append_nil]
        exact without_time_records_concat _ _ hsv
    constructor
    · rw [hw]
      unfold compress_step
      rcases List.eq_nil_or_concat log with hnil | ⟨init, e, hlog⟩
      · rw [hnil]
        rfl
      · rw [List.concat_eq_append] at hlog
        have he : e.act ≠ PIB_TRACE_ACT_TIMEDATE.val :=
          hend e (by rw [hlog, List.getLast?_concat])
        rw [hlog, without_time_records_concat _ _ he, List.getLast?_concat]
        simp only
        have hslot : ring_write N (fun _ => zero_entry) 0 log (last_slot N log.length) = e := by
          have hg := ring_write_get N log (fun _ => zero_entry) 0 init.length
            (by rw [hlog, List.length_append, List.length_singleton]; omega)
            (by rw [hlog, List.length_append, List.length_singleton]; omega)
          rw [Nat.zero_add] at hg
          have hl : last_slot N log.length = init.length % N := by
            rw [hlog, List.length_append, List.length_singleton]
            exact last_slot_succ N init.length (by omega)
          rw [hl, hg, hlog, List.getD_eq_getElem?_getD,
            List.getElem?_append_right (le_refl _), Nat.sub_self]
          rfl
        rw [hslot] at heq
        rw [if_neg]
        intro hkey
        have : equals_trace_entries c.act c.entry e = true := by
          rw [equals_trace_entries_iff]
          unfold entry_key call_key at hkey
          simp only [Prod.mk.injEq] at hkey
          exact ⟨hkey.1.symm, hkey.2.1.symm, hkey.2.2.1.symm, hkey.2.2.2.symm⟩
        rw [heq] at this
        exact Bool.noConfusion this
    · intro e he
      rw [hstep, show stored_record c.clk c.act c.entry = stored_call c from rfl,
        List.getLast?_concat] at he
      rw [← Option.some.inj he]
      exact hsv
  · obtain ⟨_, hstep, init, e, hlog, k1, k2, k3, k4⟩ :=
      ring_inv_step_dup N HZ bound dev log c hN hr hinv hact heq
    have he : e.act ≠ PIB_TRACE_ACT_TIMEDATE.val :=
      hend e (by rw [hlog, List.getLast?_concat])
    have hbe : (bump_repeat e).act ≠ PIB_TRACE_ACT_TIMEDATE.val := by
      rw [bump_repeat_act]; exact he
    rw [hstep, hlog, bump_last_concat]
    constructor
    · rw [without_time_records_concat _ _ hbe, without_time_records_concat _ _ he]
      unfold compress_step
      rw [List.getLast?_concat]
      simp only
      rw [if_pos (by
        unfold entry_key call_key
        rw [k1, k2, k3, k4]), List.dropLast_concat]
    · intro e1 he1
      rw [List.getLast?_concat] at he1
      rw [← Option.some.inj he1]
      exact hbe

/-- The log of slot writes, its time records left out, is the run-length
compression of the calls. -/
theorem trace_log_compressed (N HZ bound : Nat) (hN : 2 ≤ N) (calls : List trace_call) :
    ∀ (dev : pib_dev) (log : List pib_trace_entry), ring_inv N bound dev log →
      log.length + 2 * calls.length + N + 2 ≤ 2147483647 →
      (∀ c ∈ calls, c.act ≠ PIB_TRACE_ACT_NONE ∧ c.act ≠ PIB_TRACE_ACT_TIMEDATE
        ∧ c.clk.cycles < bound ∧ c.clk.cycles_time < bound) →
      ends_with_record log →
      without_time_records (trace_log N HZ dev log calls)
        = calls.foldl compress_step (without_time_records log) := by
  induction calls with
  | nil => intro dev log _ _ _ _; rfl
  | cons c cs ih =>
    intro dev log hinv hr hcalls hend
    obtain ⟨h1, h2, h3, h4⟩ := hcalls c (List.mem_cons_self _ _)
    obtain ⟨hinv1, hlen1⟩ := ring_inv_step N HZ bound dev log c hN
      (by simp only [List.length_cons] at hr; omega) hinv h1 h3 h4
    obtain ⟨hw, hend1⟩ := log_step_compressed N HZ bound dev log c hN
      (by simp only [List.length_cons] at hr; omega) hinv h1 h2 h3 h4 hend
    rw [trace_log, List.foldl_cons, ← hw]
    exact ih _ _ hinv1 (by simp only [List.length_cons] at hr; omega)
      (fun c1 hc1 => hcalls c1 (List.mem_cons_of_mem _ hc1)) hend1

/-- C23. What playback returns. For every non-empty sequence of sequential
appends (records of the kinds the producers pass, neither NONE nor TIMEDATE)
to a fresh ring of `N >= 2` slots, read with a later cycle sample, the
counter staying an `int`: there is the log of slot writes `log`, of which the
ring holds the last `N` entries and whose records, the time records left out,
are the run-length-compressed history of the calls; playback succeeds; its
lines are `log` from position `d` on, where `d` is the position of the oldest
time record still in the ring; so the lines without the time records are the
compressed history from some position `j` on, a contiguous suffix, each record
with its `repeat`, and there are at most `N` lines. -/
theorem playback_returns (N HZ : Nat) (c0 : trace_call) (rest : List trace_call)
    (now_timespec : timespec) (now_timestamp : Nat)
    (hN : 2 ≤ N) (hr : 2 * (rest.length + 1) + N + 2 ≤ 2147483647)
    (hacts : ∀ c ∈ c0 :: rest, c.act ≠ PIB_TRACE_ACT_NONE ∧ c.act ≠ PIB_TRACE_ACT_TIMEDATE)
    (hclk : ∀ c ∈ c0 :: rest, c.clk.cycles < now_timestamp ∧ c.clk.cycles_time < now_timestamp)
    (hts : now_timestamp < 18446744073709551616) :
    ∃ (lines : List trace_line) (log : List pib_trace_entry) (d j : Nat),
      ring_inv N now_timestamp (append_all N HZ (register_dev N) (c0 :: rest)) log
      ∧ without_time_records log = compressed_history (c0 :: rest)
      ∧ playback N (append_all N HZ (register_dev N) (c0 :: rest)) now_timespec now_timestamp
          = some lines
      ∧ lines.map (fun l => l.entry) = log.drop d
      ∧ d < log.length ∧ log.length ≤ d + N
      ∧ (log.getD d zero_entry).act = PIB_TRACE_ACT_TIMEDATE.val
      ∧ (∀ k, k < d → log.length ≤ k + N →
          (log.getD k zero_entry).act ≠ PIB_TRACE_ACT_TIMEDATE.val)
      ∧ without_time_records (lines.map (fun l => l.entry))
          = (compressed_history (c0 :: rest)).drop j
      ∧ lines.length ≤ N := by
  obtain ⟨hinv, hlog, _⟩ := ring_inv_of_calls N HZ c0 rest hN hr (fun c hc => (hacts c hc).1)
    now_timestamp hclk
  have hcomp := trace_log_compressed N HZ now_timestamp hN (c0 :: rest) (register_dev N) []
    (ring_inv_register_dev N now_timestamp (by omega))
    (by simp only [List.length_nil, List.length_cons]; omega)
    (fun c hc => ⟨(hacts c hc).1, (hacts c hc).2, (hclk c hc).1, (hclk c hc).2⟩)
    (fun e he => by simp at he)
  have hcomp2 : without_time_records (trace_log N HZ (register_dev N) [] (c0 :: rest))
      = compressed_history (c0 :: rest) := hcomp
  obtain ⟨lines, d, h1, h2, h3, h4, h5, h6⟩ := playback_of_ring_inv N now_timestamp _ _
    now_timespec now_timestamp hN (by omega) hinv hlog (le_refl _) hts
  obtain ⟨j, hj⟩ := filter_drop_eq_drop_filter
    (fun e => !decide (e.act = PIB_TRACE_ACT_TIMEDATE.val))
    (trace_log N HZ (register_dev N) [] (c0 :: rest)) d
  refine ⟨lines, _, d, j, hinv, hcomp2, h1, h2, h3, h4, h5, h6, ?_, ?_⟩
  · rw [h2, ← hcomp2]
    exact hj
  · have := congrArg List.length h2
    rw [List.length_map, List.length_drop] at this
    omega

/-- Witness of `playback_returns`: the sample call 0 made twice, then the
sample call 1, on a ring of 4 slots. -/
theorem playback_returns_witness :
    ∃ (lines : List trace_line) (log : List pib_trace_entry) (d j : Nat),
      without_time_records log
          = compressed_history (sample_call 0 :: [sample_call 0, sample_call 1])
      ∧ playback 4
            (append_all 4 1000 (register_dev 4) (sample_call 0 :: [sample_call 0, sample_call 1]))
            { tv_sec := 200, tv_nsec := 0 } 5000
          = some lines
      ∧ lines.map (fun l => l.entry) = log.drop d
      ∧ without_time_records (lines.map (fun l => l.entry))
          = (compressed_history (sample_call 0 :: [sample_call 0, sample_call 1])).drop j
      ∧ (compressed_history (sample_call 0 :: [sample_call 0, sample_call 1])).map
          (fun e => (e.op, e.repeat_, e.timestamp)) = [(0, 1, 1001), (1, 0, 1011)] := by
  obtain ⟨lines, log, d, j, _, h2, h3, h4, _, _, _, _, h9, _⟩ := playback_returns 4 1000
    (sample_call 0) [sample_call 0, sample_call 1] { tv_sec := 200, tv_nsec := 0 } 5000
    (by decide) (by decide) (by decide) (by decide) (by decide)
  exact ⟨lines, log, d, j, h2, h3, h4, h9, by decide⟩

/-! ## No cycle underflow in playback -/

theorem bump_repeat_u (e : pib_trace_entry) : (bump_repeat e).u = e.u := by
  unfold bump_repeat
  split_ifs <;> rfl

theorem log_step_clocks (N HZ bound : Nat) (dev : pib_dev) (log : List pib_trace_entry)
    (c : trace_call) (t : Nat) (hN : 2 ≤ N) (hr : log.length + N + 2 ≤ 2147483647)
    (hinv : ring_inv N bound dev log) (hact : c.act ≠ PIB_TRACE_ACT_NONE)
    (htime : c.act ≠ PIB_TRACE_ACT_TIMEDATE)
    (hc1 : c.clk.cycles < bound) (hc2 : c.clk.cycles_time < bound)
    (ht1 : t ≤ c.clk.cycles_time) (ht2 : c.clk.cycles_time ≤ c.clk.cycles)
    (hwall : wall_time_ok c.clk.nstime)
    (hlog : log_clocks_ok t log) :
    log_clocks_ok c.clk.cycles (log_step N HZ dev log c) := by
  obtain ⟨hp, hb, hw⟩ := hlog
  cases heq : equals_trace_entries c.act c.entry
      (ring_write N (fun _ => zero_entry) 0 log (last_slot N log.length))
  · obtain ⟨_, hstep⟩ := ring_inv_step_new N HZ bound dev log c hN hr hinv hact hc1 hc2 heq
    rw [hstep]
    have hrec : ∀ e ∈ [stored_record c.clk c.act c.entry],
        e.timestamp = c.clk.cycles ∧ e.act ≠ PIB_TRACE_ACT_TIMEDATE.val := by
      intro e he
      rw [List.mem_singleton] at he
      subst he
      exact ⟨rfl, act_val_ne_timedate _ htime⟩
    by_cases hd : time_record_due N HZ dev c.clk = true
    · rw [if_pos hd]
      refine ⟨?_, ?_, ?_⟩
      · rw [List.pairwise_append, List.pairwise_append]
        refine ⟨⟨hp, List.pairwise_singleton _ _, ?_⟩, List.pairwise_singleton _ _, ?_⟩
        · intro a ha b hb1
          rw [List.mem_singleton] at hb1
          subst hb1
          exact le_trans (hb a ha) ht1
        · intro a ha b hb1
          rw [(hrec b hb1).1]
          rcases List.mem_append.1 ha with h | h
          · exact le_trans (hb a h) (le_trans ht1 ht2)
          · rw [List.mem_singleton] at h
            subst h
            exact ht2
      · intro e he
        rcases List.mem_append.1 he with h | h
        · rcases List.mem_append.1 h with h1 | h1
          · exact le_trans (hb e h1) (le_trans ht1 ht2)
          · rw [List.mem_singleton] at h1
            subst h1
            exact ht2
        · rw [(hrec e h).1]
      · intro e he hk
        rcases List.mem_append.1 he with h | h
        · rcases List.mem_append.1 h with h1 | h1
          · exact hw e h1 hk
          · rw [List.mem_singleton] at h1
            subst h1
            obtain ⟨w1, w2, w3, w4⟩ := hwall
            rw [timedate_time_time_record c.clk _ (by omega) (by omega) (by omega) (by omega)]
            exact ⟨w1, w2, w3, w4⟩
        · exact absurd hk (hrec e h).2
    · rw [if_neg hd, List.append_nil]
      refine ⟨?_, ?_, ?_⟩
      · rw [List.pairwise_append]
        refine ⟨hp, List.pairwise_singleton _ _, ?_⟩
        intro a ha b hb1
        rw [(hrec b hb1).1]
        exact le_trans (hb a ha) (le_trans ht1 ht2)
      · intro e he
        rcases List.mem_append.1 he with h | h
        · exact le_trans (hb e h) (le_trans ht1 ht2)
        · rw [(hrec e h).1]
      · intro e he hk
        rcases List.mem_append.1 he with h | h
        · exact hw e h hk
        · exact absurd hk (hrec e h).2
  · obtain ⟨_, hstep, init, e, hlog, _⟩ :=
      ring_inv_step_dup N HZ bound dev log c hN hr hinv hact heq
    rw [hstep, hlog, bump_last_concat]
    rw [hlog] at hp hb hw
    rw [List.pairwise_append] at hp
    obtain ⟨p1, _, p3⟩ := hp
    refine ⟨?_, ?_, ?_⟩
    · rw [List.pairwise_append]
      refine ⟨p1, List.pairwise_singleton _ _, ?_⟩
      intro a ha b hb1
      rw [List.mem_singleton] at hb1
      subst hb1
      rw [bump_repeat_timestamp]
      exact p3 a ha e (List.mem_singleton_self _)
    · intro e1 he1
      rcases List.mem_append.1 he1 with h | h
      · exact le_trans (hb e1 (List.mem_append_left _ h)) (le_trans ht1 ht2)
      · rw [List.mem_singleton] at h
        subst h
        rw [bump_repeat_timestamp]
        exact le_trans (hb e (List.mem_append_right _ (List.mem_singleton_self _)))
          (le_trans ht1 ht2)
    · intro e1 he1 hk
      rcases List.mem_append.1 he1 with h | h
      · exact hw e1 (List.mem_append_left _ h) hk
      · rw [List.mem_singleton] at h
        subst h
        rw [bump_repeat_u]
        rw [bump_repeat_act] at hk
        exact hw e (List.mem_append_right _ (List.mem_singleton_self _)) hk

theorem trace_log_clocks (N HZ bound : Nat) (hN : 2 ≤ N) (calls : List trace_call) :
    ∀ (dev : pib_dev) (log : List pib_trace_entry) (t : Nat), ring_inv N bound dev log →
      log.length + 2 * calls.length + N + 2 ≤ 2147483647 →
      (∀ c ∈ calls, c.act ≠ PIB_TRACE_ACT_NONE ∧ c.act ≠ PIB_TRACE_ACT_TIMEDATE
        ∧ c.clk.cycles < bound ∧ c.clk.cycles_time < bound ∧ wall_time_ok c.clk.nstime) →
      clocks_sorted t calls = true →
      log_clocks_ok t log →
      ∃ t1, log_clocks_ok t1 (trace_log N HZ dev log calls) := by
  induction calls with
  | nil => intro dev log t _ _ _ _ h; exact ⟨t, h⟩
  | cons c cs ih =>
    intro dev log t hinv hr hcalls hsorted hlog
    obtain ⟨h1, h2, h3, h4, h5⟩ := hcalls c (List.mem_cons_self _ _)
    simp only [clocks_sorted, Bool.and_eq_true, decide_eq_true_eq] at hsorted
    obtain ⟨⟨s1, s2⟩, s3⟩ := hsorted
    obtain ⟨hinv1, hlen1⟩ := ring_inv_step N HZ bound dev log c hN
      (by simp only [List.length_cons] at hr; omega) hinv h1 h3 h4
    have hstep := log_step_clocks N HZ bound dev log c t hN
      (by simp only [List.length_cons] at hr; omega) hinv h1 h2 h3 h4 s1 s2 h5 hlog
    rw [trace_log]
    exact ih _ _ _ hinv1 (by simp only [List.length_cons] at hr; omega)
      (fun c1 hc1 => hcalls c1 (List.mem_cons_of_mem _ hc1)) s3 hstep

/-- The basis of the cursor at offset `t` is that of the nearest time record
at or before it, at some offset `a <= t`, when the cursor starts on a time
record with that record's values as its basis. -/
theorem cursor_basis_nearest (N : Nat) (base : Nat → pib_trace_entry) (info : pib_trace_info)
    (hN2 : N ≤ 2147483647)
    (h0 : (base (info_slot N info.start (info.index + 0))).act = PIB_TRACE_ACT_TIMEDATE.val)
    (h1 : info.base_timespec = timedate_time (base (info_slot N info.start (info.index + 0))).u)
    (h2 : info.base_timestamp = (base (info_slot N info.start (info.index + 0))).timestamp) :
    ∀ t, info.index + t < N →
      ∃ a, a ≤ t
        ∧ (base (info_slot N info.start (info.index + a))).act = PIB_TRACE_ACT_TIMEDATE.val
        ∧ (cursor_after N base t info).base_timespec
            = timedate_time (base (info_slot N info.start (info.index + a))).u
        ∧ (cursor_after N base t info).base_timestamp
            = (base (info_slot N info.start (info.index + a))).timestamp
        ∧ ∀ u, a < u → u ≤ t →
            (base (info_slot N info.start (info.index + u))).act
              ≠ PIB_TRACE_ACT_TIMEDATE.val := by
  intro t
  induction t with
  | zero =>
    intro _
    exact ⟨0, le_refl _, h0, h1, h2, fun u hu1 hu2 => absurd hu1 (by omega)⟩
  | succ t ih =>
    intro ht
    obtain ⟨a, ha, a1, a2, a3, a4⟩ := ih (by omega)
    obtain ⟨f1, f2, _⟩ := cursor_after_fields N base info t (by omega)
    have hb := trace_seq_next_basis N base (cursor_after N base t info) (by rw [f1]; omega)
      (by rw [f1]; omega)
    rw [f1, f2, Nat.add_assoc] at hb
    rw [cursor_after_succ]
    by_cases hA : (base (info_slot N info.start (info.index + (t + 1)))).act
        = PIB_TRACE_ACT_TIMEDATE.val
    · obtain ⟨b1, b2⟩ := hb.1 hA
      exact ⟨t + 1, le_refl _, hA, b1, b2, fun u hu1 hu2 => absurd hu1 (by omega)⟩
    · obtain ⟨b1, b2⟩ := hb.2 hA
      refine ⟨a, by omega, a1, by rw [b1, a2], by rw [b2, a3], ?_⟩
      intro u hu1 hu2
      by_cases hu : u = t + 1
      · rw [hu]; exact hA
      · exact a4 u hu1 (by omega)

/-- The basis does not change over offsets that hold no time record. -/
theorem cursor_basis_keep (N : Nat) (base : Nat → pib_trace_entry) (info : pib_trace_info)
    (hN2 : N ≤ 2147483647) (t : Nat) :
    ∀ d, info.index + (t + d) < N →
      (∀ u, t < u → u ≤ t + d →
        (base (info_slot N info.start (info.index + u))).act ≠ PIB_TRACE_ACT_TIMEDATE.val) →
      (cursor_after N base (t + d) info).base_timespec
          = (cursor_after N base t info).base_timespec
        ∧ (cursor_after N base (t + d) info).base_timestamp
          = (cursor_after N base t info).base_timestamp := by
  intro d
  induction d with
  | zero => intro _ _; exact ⟨rfl, rfl⟩
  | succ d ih =>
    intro hk hnone
    obtain ⟨i1, i2⟩ := ih (by omega) (fun u h1 h2 => hnone u h1 (by omega))
    obtain ⟨f1, f2, _⟩ := cursor_after_fields N base info (t + d) (by omega)
    have hb := (trace_seq_next_basis N base (cursor_after N base (t + d) info)
      (by rw [f1]; omega) (by rw [f1]; omega)).2
    rw [f1, f2, Nat.add_assoc] at hb
    obtain ⟨b1, b2⟩ := hb (hnone (t + d + 1) (by omega) (by omega))
    rw [show t + (d + 1) = t + d + 1 by omega, cursor_after_succ]
    exact ⟨by rw [b1, i1], by rw [b2, i2]⟩

theorem ratio_product_bound (X C x : Nat) (hx : x ≤ C) (hX : X < 18446744073709551616) :
    x * (X / C) < 18446744073709551616 ∧ x * (X / C) / 65536 < 281474976710656 := by
  have h1 : x * (X / C) ≤ C * (X / C) := Nat.mul_le_mul_right _ hx
  have h2 : C * (X / C) ≤ X := Nat.mul_div_le X C
  generalize x * (X / C) = P at *
  omega

theorem delta_mono (x y R : Nat) (h : x ≤ y) : x * R / 65536 ≤ y * R / 65536 :=
  Nat.div_le_div_right (Nat.mul_le_mul_right R h)

/-- The time `trace_seq_show` renders, in nanoseconds, when its arithmetic
stays within 64 bits. -/
theorem rendered_ns (info : pib_trace_info) (c : Nat) (hw : wall_time_ok info.base_timespec)
    (hc : info.base_timestamp ≤ c) (hc2 : c < 18446744073709551616)
    (hmul : (c - info.base_timestamp) * info.tsc_ratio < 18446744073709551616) :
    timespec_ns (show_time info c)
      = timespec_ns info.base_timespec
        + (((c - info.base_timestamp) * info.tsc_ratio / 65536 : Nat) : Int) := by
  obtain ⟨w1, w2, w3, w4⟩ := hw
  have hd : (c - info.base_timestamp) * info.tsc_ratio / 65536 < 281474976710656 := by
    generalize (c - info.base_timestamp) * info.tsc_ratio = P at hmul ⊢
    omega
  have hsec1 : info.base_timespec.tv_sec
      + (info.base_timespec.tv_nsec
          + (((c - info.base_timestamp) * info.tsc_ratio / 65536 : Nat) : Int)) / 1000000000
        ≤ 9223372036854775807 := by
    generalize (c - info.base_timestamp) * info.tsc_ratio / 65536 = delta at hd ⊢
    generalize info.base_timespec.tv_sec = sec at w3 w4 ⊢
    generalize info.base_timespec.tv_nsec = nsec at w1 w2 ⊢
    omega
  rw [show_time_eq info c w1 w2 hc hc2 hmul (by omega) hsec1]
  unfold timespec_ns
  simp only
  have := (normalized_time_ns info.base_timespec.tv_sec info.base_timespec.tv_nsec
    (((c - info.base_timestamp) * info.tsc_ratio / 65536 : Nat) : Int)).1
  rw [this]

theorem pairwise_getD_le (log : List pib_trace_entry)
    (hp : List.Pairwise (fun a b => a.timestamp ≤ b.timestamp) log) (i j : Nat) (hij : i ≤ j)
    (hj : j < log.length) :
    (log.getD i zero_entry).timestamp ≤ (log.getD j zero_entry).timestamp := by
  rcases Nat.eq_or_lt_of_le hij with h | h
  · rw [h]
  · have hi : i < log.length := by omega
    rw [List.getD_eq_getElem _ _ hi, List.getD_eq_getElem _ _ hj]
    exact List.pairwise_iff_getElem.1 hp i j hi hj h

/-- The cursor `trace_open` builds on a ring made by sequential appends: it
is on the oldest time record still in the ring, at offset `m`, which is
position `d` of the log, and the slots from there on hold the log from `d`
on. -/
theorem opened_of_ring_inv (N bound : Nat) (dev : pib_dev) (log : List pib_trace_entry)
    (now_timespec : timespec) (now_timestamp : Nat)
    (hN : 2 ≤ N) (hN2 : N ≤ 2147483647) (hinv : ring_inv N bound dev log) (hlog : log ≠ [])
    (hts : bound ≤ now_timestamp) (hts2 : now_timestamp < 18446744073709551616) :
    ∃ m d, m < N ∧ d + (N - m) = log.length
      ∧ trace_open N dev true now_timespec now_timestamp 0
          = .opened (opened_info N (ring_write N (fun _ => zero_entry) 0 log) (log.length % N) m
              now_timespec now_timestamp)
      ∧ (∀ t, t < N - m →
          ring_write N (fun _ => zero_entry) 0 log (info_slot N (log.length % N) (m + t))
            = log.getD (d + t) zero_entry)
      ∧ (log.getD d zero_entry).act = PIB_TRACE_ACT_TIMEDATE.val
      ∧ ∀ lines, playback N dev now_timespec now_timestamp = some lines →
          lines.length = N - m := by
  have hN0 : 0 < N := by omega
  have hwin := fun k hk => ring_window N log k hk
  obtain ⟨l, _, hl2, hl3, hl4⟩ : ∃ l : Nat, dev.last_record_time_index = (l : Int)
      ∧ l + 2 ≤ log.length ∧ (log.getD l zero_entry).act = PIB_TRACE_ACT_TIMEDATE.val
      ∧ log.length ≤ l + max 2 (N / 16 + 1) := by
    rcases hinv.anchor with ⟨h1, _⟩ | h
    · exact absurd h1 hlog
    · exact h
  have hmax : max 2 (N / 16 + 1) ≤ N := by
    apply max_le hN
    omega
  cases hf : first_time_record N (ring_write N (fun _ => zero_entry) 0 log) (log.length % N) with
  | none =>
    exfalso
    rw [first_time_record_eq_none N _ _ (Nat.mod_lt _ hN0)] at hf
    have := hf ((log.length % N + (l + N - log.length)) % N) (Nat.mod_lt _ hN0)
    rw [hwin _ (by omega), if_pos (by omega),
      show log.length + (l + N - log.length) - N = l by omega] at this
    exact this hl3
  | some m =>
    obtain ⟨hm1, hm2, hm3⟩ := first_time_record_some N _ _ m hf
    have hmN : N ≤ log.length + m := by
      by_contra hcon
      rw [hwin m hm1, if_neg hcon] at hm2
      simp [zero_entry, pib_trace_act.val] at hm2
    have hm2a := hm2
    rw [hwin m hm1, if_pos hmN] at hm2
    have hstamp := hinv.stamps _ (getD_mem log (log.length + m - N) (by omega))
    have hdiv : wrap_u64 ((now_timestamp : Int)
        - ((ring_write N (fun _ => zero_entry) 0 log ((log.length % N + m) % N)).timestamp : Int))
        ≠ 0 := by
      rw [hwin m hm1, if_pos hmN, show ((now_timestamp : Int)
        - ((log.getD (log.length + m - N) zero_entry).timestamp : Int))
        = ((now_timestamp - (log.getD (log.length + m - N) zero_entry).timestamp : Nat) : Int)
        by omega, wrap_u64_of_range _ (by omega)]
      omega
    have hact : ∀ k, m ≤ k → k < N →
        1 ≤ (ring_write N (fun _ => zero_entry) 0 log ((log.length % N + k) % N)).act
          ∧ (ring_write N (fun _ => zero_entry) 0 log ((log.length % N + k) % N)).act ≤ 9 := by
      intro k hk1 hk2
      rw [hwin k hk2, if_pos (by omega)]
      exact hinv.acts _ (getD_mem log _ (by omega))
    have hopen := trace_open_eq N dev _ log.length now_timespec now_timestamp 0 hN0 hN2
      hinv.data hinv.index
    rw [hf] at hopen
    simp only [hdiv, if_false, ne_eq, not_true_eq_false] at hopen
    refine ⟨m, log.length + m - N, hm1, by omega, hopen, ?_, hm2, ?_⟩
    · intro t ht
      have hmod := Nat.mod_lt log.length hN0
      rw [info_slot_of_range N _ _ (by omega), hwin (m + t) (by omega),
        if_pos (by omega)]
      congr 1
      omega
    · intro lines hlines
      obtain ⟨lines1, hp, hmap⟩ := playback_entries N dev _ log.length m now_timespec
        now_timestamp hN0 hN2 hinv.data hinv.index hf hdiv hact
      rw [hp] at hlines
      have h1 := Option.some.inj hlines
      have h2 := congrArg List.length hmap
      rw [List.length_map, List.length_map, List.length_range'] at h2
      rw [← h1, h2]

theorem wrap_u64_lt (x : Int) : wrap_u64 x < 18446744073709551616 := by
  unfold wrap_u64; omega

/-- What holds for the cursor at every offset of the playback of a ring made
by sequential appends with a non-decreasing cycle counter: its basis is not
later than the record, and the arithmetic of `trace_seq_show` stays within 64
bits. -/
theorem cursor_of_sorted_log (N : Nat) (log : List pib_trace_entry)
    (now_timespec : timespec) (now_timestamp m d t1 : Nat)
    (hN2 : N ≤ 2147483647) (hm : m < N) (hd : d + (N - m) = log.length)
    (hstamps : ∀ e ∈ log, e.timestamp < now_timestamp)
    (hts2 : now_timestamp < 18446744073709551616)
    (hslots : ∀ t, t < N - m →
      ring_write N (fun _ => zero_entry) 0 log (info_slot N (log.length % N) (m + t))
        = log.getD (d + t) zero_entry)
    (hanchor : (log.getD d zero_entry).act = PIB_TRACE_ACT_TIMEDATE.val)
    (hclocks : log_clocks_ok t1 log) (t : Nat) (ht : t < N - m) :
    (cursor_after N (ring_write N (fun _ => zero_entry) 0 log) t
        (opened_info N (ring_write N (fun _ => zero_entry) 0 log) (log.length % N) m
          now_timespec now_timestamp)).base_timestamp
        ≤ (log.getD (d + t) zero_entry).timestamp
      ∧ (log.getD (d + t) zero_entry).timestamp < 18446744073709551616
      ∧ wall_time_ok (cursor_after N (ring_write N (fun _ => zero_entry) 0 log) t
          (opened_info N (ring_write N (fun _ => zero_entry) 0 log) (log.length % N) m
            now_timespec now_timestamp)).base_timespec
      ∧ ((log.getD (d + t) zero_entry).timestamp
          - (cursor_after N (ring_write N (fun _ => zero_entry) 0 log) t
              (opened_info N (ring_write N (fun _ => zero_entry) 0 log) (log.length % N) m
                now_timespec now_timestamp)).base_timestamp)
          * (cursor_after N (ring_write N (fun _ => zero_entry) 0 log) t
              (opened_info N (ring_write N (fun _ => zero_entry) 0 log) (log.length % N) m
                now_timespec now_timestamp)).tsc_ratio
        < 18446744073709551616 := by
  obtain ⟨hp, _, hw⟩ := hclocks
  generalize hbase : ring_write N (fun _ => zero_entry) 0 log = base at *
  generalize hinfo : opened_info N base (log.length % N) m now_timespec now_timestamp = info
  have hidx : info.index = m := by rw [← hinfo]; rfl
  have hstart : info.start = log.length % N := by rw [← hinfo]; rfl
  have hmod : log.length % N < N := Nat.mod_lt _ (by omega)
  have hs0 : info_slot N (log.length % N) (m + 0) = (log.length % N + m) % N := by
    rw [info_slot_of_range N _ _ (by omega), Nat.add_zero]
  have hslot0 : base ((log.length % N + m) % N) = log.getD d zero_entry := by
    have := hslots 0 (by omega)
    rw [hs0, Nat.add_zero] at this
    exact this
  have hbts0 : info.base_timestamp = (log.getD d zero_entry).timestamp := by
    rw [← hinfo, ← hslot0]; rfl
  have hbt0 : info.base_timespec = timedate_time (log.getD d zero_entry).u := by
    rw [← hinfo, ← hslot0]; rfl
  have hratio : info.tsc_ratio
      = wrap_u64 ((PIB_TSC_RATIO_BIAS : Int)
          * (duration_ns now_timespec (timedate_time (log.getD d zero_entry).u) : Int))
        / wrap_u64 ((now_timestamp : Int) - ((log.getD d zero_entry).timestamp : Int)) := by
    rw [← hinfo, ← hslot0]; rfl
  have hsl : ∀ u, u < N - m →
      base (info_slot N info.start (info.index + u)) = log.getD (d + u) zero_entry := by
    intro u hu
    rw [hstart, hidx]
    exact hslots u hu
  obtain ⟨a, ha, a1, a2, a3, _⟩ := cursor_basis_nearest N base info hN2
    (by rw [hsl 0 (by omega), Nat.add_zero]; exact hanchor)
    (by rw [hsl 0 (by omega), Nat.add_zero]; exact hbt0)
    (by rw [hsl 0 (by omega), Nat.add_zero]; exact hbts0)
    t (by rw [hidx]; omega)
  obtain ⟨_, _, f3⟩ := cursor_after_fields N base info t (by rw [hidx]; omega)
  rw [hsl a (by omega)] at a1 a2 a3
  have hda : d + a < log.length := by omega
  have hdt : d + t < log.length := by omega
  have h1 : (log.getD (d + a) zero_entry).timestamp ≤ (log.getD (d + t) zero_entry).timestamp :=
    pairwise_getD_le log hp (d + a) (d + t) (by omega) hdt
  have h2 : (log.getD d zero_entry).timestamp ≤ (log.getD (d + a) zero_entry).timestamp :=
    pairwise_getD_le log hp d (d + a) (by omega) hda
  have h3 : (log.getD (d + t) zero_entry).timestamp < now_timestamp :=
    hstamps _ (getD_mem log _ hdt)
  have h4 : (log.getD d zero_entry).timestamp < now_timestamp :=
    hstamps _ (getD_mem log _ (by omega))
  have hC : wrap_u64 ((now_timestamp : Int) - ((log.getD d zero_entry).timestamp : Int))
      = now_timestamp - (log.getD d zero_entry).timestamp := by
    rw [show ((now_timestamp : Int) - ((log.getD d zero_entry).timestamp : Int))
      = ((now_timestamp - (log.getD d zero_entry).timestamp : Nat) : Int) by omega]
    exact wrap_u64_of_range _ (by omega)
  refine ⟨by rw [a3]; exact h1, by omega, ?_, ?_⟩
  · rw [a2]
    exact hw _ (getD_mem log _ hda) a1
  · rw [a3, f3, hratio, hC]
    exact (ratio_product_bound _ _ _ (by omega) (wrap_u64_lt _)).1

/-- C24. No cycle underflow in playback. Take a fresh ring of `N >= 2` slots
and a non-empty sequence of sequential appends (records of the kinds the
producers pass) whose cycle counter never goes back, whose wall times are as
`getnstimeofday` returns them, and read it with a cycle sample later than
every stamp. Then playback succeeds, and for every line, rendered with the
cursor `trace_seq_next` has left: the basis cycles are not above the record's
stamp, so the unsigned subtraction `entry->timestamp - base_timestamp` is the
true difference; the product with the ratio stays below `2^64`; and the time
shown is the basis time plus `(stamp - basis cycles) * ratio / 65536` ns.
Between two lines with no time record after the first up to the second, the
time shown does not decrease. -/
theorem no_cycle_underflow (N HZ : Nat) (c0 : trace_call) (rest : List trace_call)
    (now_timespec : timespec) (now_timestamp : Nat)
    (hN : 2 ≤ N) (hr : 2 * (rest.length + 1) + N + 2 ≤ 2147483647)
    (hacts : ∀ c ∈ c0 :: rest, c.act ≠ PIB_TRACE_ACT_NONE ∧ c.act ≠ PIB_TRACE_ACT_TIMEDATE)
    (hclk : ∀ c ∈ c0 :: rest, c.clk.cycles < now_timestamp ∧ c.clk.cycles_time < now_timestamp)
    (hts : now_timestamp < 18446744073709551616)
    (hsorted : clocks_sorted 0 (c0 :: rest) = true)
    (hwall : ∀ c ∈ c0 :: rest, wall_time_ok c.clk.nstime) :
    ∃ (base : Nat → pib_trace_entry) (info : pib_trace_info) (lines : List trace_line),
      (append_all N HZ (register_dev N) (c0 :: rest)).trace_data = some base
      ∧ trace_open N (append_all N HZ (register_dev N) (c0 :: rest)) true now_timespec
          now_timestamp 0 = .opened info
      ∧ playback N (append_all N HZ (register_dev N) (c0 :: rest)) now_timespec now_timestamp
          = some lines
      ∧ (∀ (t : Nat) (l : trace_line), lines[t]? = some l →
          l = trace_seq_show N base (cursor_after N base t info)
          ∧ (cursor_after N base t info).base_timestamp ≤ l.entry.timestamp
          ∧ wrap_u64 ((l.entry.timestamp : Int)
                - ((cursor_after N base t info).base_timestamp : Int))
              = l.entry.timestamp - (cursor_after N base t info).base_timestamp
          ∧ (l.entry.timestamp - (cursor_after N base t info).base_timestamp)
              * (cursor_after N base t info).tsc_ratio < 18446744073709551616
          ∧ timespec_ns l.time
              = timespec_ns (cursor_after N base t info).base_timespec
                + (((l.entry.timestamp - (cursor_after N base t info).base_timestamp)
                    * (cursor_after N base t info).tsc_ratio / 65536 : Nat) : Int))
      ∧ ∀ (t t1 : Nat) (l l1 : trace_line), t ≤ t1 → lines[t]? = some l →
          lines[t1]? = some l1 →
          (∀ (u : Nat) (lu : trace_line), t < u → u ≤ t1 → lines[u]? = some lu →
            lu.entry.act ≠ PIB_TRACE_ACT_TIMEDATE.val) →
          timespec_ns l.time ≤ timespec_ns l1.time := by
  obtain ⟨hinv, hlog, _⟩ := ring_inv_of_calls N HZ c0 rest hN hr (fun c hc => (hacts c hc).1)
    now_timestamp hclk
  obtain ⟨tc, hclocks⟩ := trace_log_clocks N HZ now_timestamp hN (c0 :: rest) (register_dev N)
    [] 0 (ring_inv_register_dev N now_timestamp (by omega))
    (by simp only [List.length_nil, List.length_cons]; omega)
    (fun c hc => ⟨(hacts c hc).1, (hacts c hc).2, (hclk c hc).1, (hclk c hc).2, hwall c hc⟩)
    hsorted
    ⟨List.Pairwise.nil, fun e he => absurd he (List.not_mem_nil e),
      fun e he => absurd he (List.not_mem_nil e)⟩
  generalize hlogdef : trace_log N HZ (register_dev N) [] (c0 :: rest) = log at *
  generalize hdevdef : append_all N HZ (register_dev N) (c0 :: rest) = dev at *
  have hN2 : N ≤ 2147483647 := by omega
  obtain ⟨m, d, hm, hd, hopen, hslots, hanchor, hlen⟩ := opened_of_ring_inv N now_timestamp dev
    log now_timespec now_timestamp hN hN2 hinv hlog (le_refl _) hts
  have hfacts := cursor_of_sorted_log N log now_timespec now_timestamp m d tc hN2 hm hd
    hinv.stamps hts hslots hanchor hclocks
  have hdata := hinv.data
  generalize hbase : ring_write N (fun _ => zero_entry) 0 log = base at *
  generalize hinfo : opened_info N base (log.length % N) m now_timespec now_timestamp = info at *
  have hidx : info.index = m := by rw [← hinfo]; rfl
  have hstart : info.start = log.length % N := by rw [← hinfo]; rfl
  have hrec : ∀ t, t ≤ N - m - 1 →
      1 ≤ (base (info_slot N info.start (info.index + t))).act
        ∧ (base (info_slot N info.start (info.index + t))).act ≤ 9 := by
    intro t ht
    rw [hstart, hidx, hslots t (by omega)]
    exact hinv.acts _ (getD_mem log _ (by omega))
  obtain ⟨lines, hplay, hlines⟩ := playback_line N dev base now_timespec now_timestamp info
    (N - m - 1) hN2 hdata hopen (by rw [hidx]; omega) hrec
  have hlength := hlen lines hplay
  have hline : ∀ (t : Nat) (l : trace_line), lines[t]? = some l →
      t < N - m ∧ l = trace_seq_show N base (cursor_after N base t info)
        ∧ l.entry = log.getD (d + t) zero_entry
        ∧ l.time = show_time (cursor_after N base t info)
            (log.getD (d + t) zero_entry).timestamp := by
    intro t l hl
    have ht : t < N - m := by
      rw [← hlength]
      exact (List.getElem?_eq_some_iff.1 hl).1
    have hl2 := hlines t (by omega)
    rw [hl] at hl2
    have hl3 := Option.some.inj hl2
    obtain ⟨f1, f2, _⟩ := cursor_after_fields N base info t (by rw [hidx]; omega)
    have hentry : (trace_seq_show N base (cursor_after N base t info)).entry
        = log.getD (d + t) zero_entry := by
      show base (info_slot N (cursor_after N base t info).start
        (cursor_after N base t info).index) = _
      rw [f1, f2, hstart, hidx]
      exact hslots t ht
    refine ⟨ht, hl3, by rw [hl3]; exact hentry, ?_⟩
    rw [hl3, ← hentry]
    rfl
  refine ⟨base, info, lines, hdata, hopen, hplay, ?_, ?_⟩
  · intro t l hl
    obtain ⟨ht, l1, l2, l3⟩ := hline t l hl
    obtain ⟨k1, k2, k3, k4⟩ := hfacts t ht
    rw [l2, l3]
    refine ⟨l1, k1, ?_, k4, rendered_ns _ _ k3 k1 k2 k4⟩
    rw [show (((log.getD (d + t) zero_entry).timestamp : Nat) : Int)
        - (((cursor_after N base t info).base_timestamp : Nat) : Int)
      = (((log.getD (d + t) zero_entry).timestamp
          - (cursor_after N base t info).base_timestamp : Nat) : Int) by
        rw [Nat.cast_sub k1]]
    exact wrap_u64_of_range _ (lt_of_le_of_lt (Nat.sub_le _ _) k2)
  · intro t t1 l l1 htt hl hl1 hnone
    obtain ⟨ht, _, _, l3⟩ := hline t l hl
    obtain ⟨ht1, _, _, l13⟩ := hline t1 l1 hl1
    obtain ⟨k1, k2, k3, k4⟩ := hfacts t ht
    obtain ⟨j1, j2, j3, j4⟩ := hfacts t1 ht1
    obtain ⟨_, _, f3⟩ := cursor_after_fields N base info t (by rw [hidx]; omega)
    obtain ⟨_, _, g3⟩ := cursor_after_fields N base info t1 (by rw [hidx]; omega)
    obtain ⟨e, rfl⟩ : ∃ e, t1 = t + e := ⟨t1 - t, by omega⟩
    obtain ⟨b1, b2⟩ := cursor_basis_keep N base info hN2 t e (by rw [hidx]; omega)
      (fun u hu1 hu2 => by
        obtain ⟨_, _, u2, _⟩ := hline u _ (hlines u (by omega))
        have hu3 := hnone u _ hu1 hu2 (hlines u (by omega))
        have hu4 : (trace_seq_show N base (cursor_after N base u info)).entry
            = base (info_slot N info.start (info.index + u)) := by
          rw [u2, hstart, hidx, hslots u (by omega)]
        rw [← hu4]
        exact hu3)
    rw [l3, l13, rendered_ns _ _ k3 k1 k2 k4, rendered_ns _ _ j3 j1 j2 j4, b1, b2, g3, f3]
    have hmono : (log.getD (d + t) zero_entry).timestamp
        ≤ (log.getD (d + (t + e)) zero_entry).timestamp :=
      pairwise_getD_le log hclocks.1 (d + t) (d + (t + e)) (by omega) (by omega)
    have hdelta := delta_mono
      ((log.getD (d + t) zero_entry).timestamp - (cursor_after N base t info).base_timestamp)
      ((log.getD (d + (t + e)) zero_entry).timestamp
        - (cursor_after N base t info).base_timestamp)
      info.tsc_ratio (Nat.sub_le_sub_right hmono _)
    have hcast : (((log.getD (d + t) zero_entry).timestamp
          - (cursor_after N base t info).base_timestamp) * info.tsc_ratio / 65536 : Nat)
        ≤ (((log.getD (d + (t + e)) zero_entry).timestamp
          - (cursor_after N base t info).base_timestamp) * info.tsc_ratio / 65536 : Nat) := hdelta
    have hcast2 := Int.ofNat_le.2 hcast
    exact add_le_add_left hcast2 _

/-- Witness of `no_cycle_underflow`: the sample calls 0 and 1 on a ring of 4
slots, with the cycle stamps 1000, 1001, 1010, 1011, read at 5000 cycles. -/
theorem no_cycle_underflow_witness :
    ∃ (base : Nat → pib_trace_entry) (info : pib_trace_info) (lines : List trace_line),
      playback 4 (append_all 4 1000 (register_dev 4) (sample_call 0 :: [sample_call 1]))
          { tv_sec := 200, tv_nsec := 0 } 5000 = some lines
      ∧ ∀ (t : Nat) (l : trace_line), lines[t]? = some l →
          (cursor_after 4 base t info).base_timestamp ≤ l.entry.timestamp := by
  obtain ⟨base, info, lines, _, _, h3, h4, _⟩ := no_cycle_underflow 4 1000 (sample_call 0)
    [sample_call 1] { tv_sec := 200, tv_nsec := 0 } 5000 (by decide) (by decide) (by decide)
    (by decide) (by decide) (by decide)
    (fun c hc => by
      rcases List.mem_cons.1 hc with h | h
      · subst h
        exact ⟨by decide, by decide, by decide, by decide⟩
      · rw [List.mem_singleton] at h
        subst h
        exact ⟨by decide, by decide, by decide, by decide⟩)
  exact ⟨base, info, lines, h3, fun t l hl => (h4 t l hl).2.1⟩

end Pib
